import Mathlib

/-
Verification of the fforms library (a recursive data-validation library for
tree-shaped input) against its natural-language specification.

The development shallowly embeds the Python sources:

 * `fforms/__init__.py`   : `expand_dots`, `_expand_dots_1`, `bind_dotted`
 * `fforms/schema.py`     : `Schema`, `MapSchema`, `SequenceSchema`,
                            `LeafSchema`, `make_from_literal`
 * `fforms/fields.py`     : `BoundField` (construction, `is_valid`,
                            `_propagate_validation`)
 * `fforms/validators.py` : `noop`, `ensure_parent`, `all_children`,
                            `ValidationError`

Python values are modeled by the inductive `Val`; Python dicts are modeled
as insertion-ordered association lists (`List (String × Val)`) with the
update operation `pyUpdate` mirroring `d[k] = v`.  Operations that can
raise are modeled in `Except`: decode errors (`ValueError`) carry a
`String`, and runtime errors that the library does not catch
(IndexError/KeyError/TypeError/AttributeError) are modeled by `PyErr`.
-/

namespace FForms

/-- Python values used as names of schema nodes and bound fields: the
library uses both strings (map children) and ints (sequence children). -/
inductive PyName where
  | str (s : String)
  | int (n : Int)
deriving DecidableEq, Repr

/-- Python values flowing through the library: `None`, strings, ints,
lists, string-keyed dicts (insertion ordered), and `ValidationError`
instances, which occur as values inside assembled clean-data structures
(a `ValidationError` carries its message and its `clean_data`). -/
inductive Val where
  | none
  | str (s : String)
  | int (n : Int)
  | list (xs : List Val)
  | dict (xs : List (String × Val))
  | err (message : String) (clean : Val)

/-- Uncaught Python runtime errors that can escape the library. -/
inductive PyErr where
  | indexError
  | keyError
  | typeError
  | attributeError
deriving DecidableEq, Repr

/-- Python dict assignment `d[k] = v` on an insertion-ordered association
list: an existing key keeps its position and receives the new value, a new
key is appended at the end. -/
def pyUpdate {κ α : Type} [DecidableEq κ] : List (κ × α) → κ → α → List (κ × α)
  | [], k, v => [(k, v)]
  | (k', v') :: rest, k, v =>
      if k' = k then (k', v) :: rest else (k', v') :: pyUpdate rest k v

/-- Lookup in an association list (first match), `d.get(k)`-style. -/
def alookup {κ α : Type} [DecidableEq κ] (d : List (κ × α)) (k : κ) : Option α :=
  (d.find? (fun p => p.1 = k)).map (·.2)

/-- Python truthiness of a `Val` (`if data:`). -/
def truthy : Val → Bool
  | .none => false
  | .str s => s != ""
  | .int n => n != 0
  | .list xs => !xs.isEmpty
  | .dict xs => !xs.isEmpty
  | .err _ _ => true

/-- The value is a `ValidationError` instance (`isinstance(_, ValidationError)`). -/
def isErr : Val → Bool
  | .err _ _ => true
  | _ => false

/-- Scalar values: the leaves the flat-input format can carry. -/
def isScalar : Val → Bool
  | .none => true
  | .str _ => true
  | .int _ => true
  | _ => false

/-! ### Key splitting: `re.split('([:.])', key, 1)` -/
/-- The two structure delimiters of the flat-input key format. -/
def isDelim (c : Char) : Bool := c == '.' || c == ':'

/-- Split a character list at its first `.` or `:`. -/
def splitChars : List Char → Option (List Char × Char × List Char)
  | [] => Option.none
  | c :: rest =>
      if isDelim c then some ([], c, rest)
      else
        match splitChars rest with
        | Option.none => Option.none
        | some (h, d, t) => some (c :: h, d, t)

/-- `re.split('([:.])', key, 1)`: split a key at the first occurrence of
either delimiter into `(head, delimiter, tail)`; `none` when the key
contains no delimiter (so `'.' not in key and ':' not in key`). -/
def splitFirstDelim (s : String) : Option (String × Char × String) :=
  (splitChars s.data).map (fun p => (⟨p.1⟩, p.2.1, ⟨p.2.2⟩))

/-! ### Python `int(s)` on strings -/
/-- Whitespace stripped by Python `int()` around the digits. -/
def isPySpace (c : Char) : Bool :=
  c == ' ' || c == '\t' || c == '\n' || c == '\r' || c == '\x0b' || c == '\x0c'

/-- Digits of a base-10 literal after the first one; Python allows single
underscores between digits. Accumulates the value. -/
def digitsRest : List Char → Nat → Option Nat
  | [], acc => some acc
  | '_' :: c :: rest, acc =>
      if c.isDigit then digitsRest rest (acc * 10 + (c.toNat - 48)) else Option.none
  | ['_'], _ => Option.none
  | c :: rest, acc =>
      if c.isDigit then digitsRest rest (acc * 10 + (c.toNat - 48)) else Option.none

/-- An unsigned base-10 Python int literal (nonempty, underscores between
digits allowed). -/
def pyNat? : List Char → Option Nat
  | [] => Option.none
  | c :: rest => if c.isDigit then digitsRest rest (c.toNat - 48) else Option.none

/-- Python `int(s)` with base 10: optional surrounding whitespace, optional
sign, then digits. `none` models `ValueError`. -/
def pyInt? (s : String) : Option Int :=
  let cs := ((s.data.dropWhile isPySpace).reverse.dropWhile isPySpace).reverse
  match cs with
  | '+' :: rest => (pyNat? rest).map Int.ofNat
  | '-' :: rest => (pyNat? rest).map (fun n => -(Int.ofNat n))
  | rest => (pyNat? rest).map Int.ofNat

/-! ### `_expand_dots_1` -/
/-- The two `ValueError` messages of `_expand_dots_1` (the source quotes
the key with `%r`; the quoting is immaterial here). -/
def nakedParentMsg (k : String) : String := k ++ " specified as both naked and parent key"

def dictListMsg (k : String) : String := k ++ " specified as both dict and list"

/-- The state of `_expand_dots_1`'s loop: naked keys seen so far, the
`.`-groups (head ↦ sub-dict of tails) and the `:`-groups. -/
abbrev Buckets :=
  List (String × Val) × List (String × List (String × Val)) × List (String × List (String × Val))

/-- The loop of `_expand_dots_1`: bucket each key of the flat dict into
naked keys (`singles`), `.`-prefixed groups (`dicts`) and `:`-prefixed
groups (`lists`), raising the two conflict errors exactly as the source
does.  `dicts.setdefault(head, {})[tail] = val` is modeled by the two
nested `pyUpdate`s. -/
def expandDots1Aux :
    List (String × Val) → List (String × Val) →
    List (String × List (String × Val)) → List (String × List (String × Val)) →
    Except String Buckets
  | [], singles, dicts, lists => .ok (singles, dicts, lists)
  | (key, v) :: rest, singles, dicts, lists =>
    match splitFirstDelim key with
    | Option.none =>
        if (alookup dicts key).isSome || (alookup lists key).isSome then
          .error (nakedParentMsg key)
        else
          expandDots1Aux rest (pyUpdate singles key v) dicts lists
    | some (head, kind, tail) =>
        if (alookup singles head).isSome then
          .error (nakedParentMsg head)
        else if kind = '.' then
          if (alookup lists head).isSome then
            .error (dictListMsg head)
          else
            expandDots1Aux rest singles
              (pyUpdate dicts head (pyUpdate ((alookup dicts head).getD []) tail v)) lists
        else
          if (alookup dicts head).isSome then
            .error (dictListMsg head)
          else
            expandDots1Aux rest singles dicts
              (pyUpdate lists head (pyUpdate ((alookup lists head).getD []) tail v))

/-- `_expand_dots_1(base_dict)`. -/
def expandDots1 (base : List (String × Val)) : Except String Buckets :=
  expandDots1Aux base [] [] []

/-! ### `expand_dots` -/
/-- The `ValueError` message of `int(x)` on a non-integer fragment. -/
def intLitMsg (k : String) : String := "invalid literal for int with base 10: " ++ k

/-- Interpret each top-level key of an expanded `:`-group as a base-10
integer (`int(x[0])`), failing on the first non-integer fragment exactly
as `sorted` does when computing its keys. -/
def parseKeys : List (String × Val) → Except String (List (Int × Val))
  | [] => .ok []
  | (k, v) :: rest =>
      match pyInt? k with
      | Option.none => .error (intLitMsg k)
      | some n =>
          match parseKeys rest with
          | .error e => .error e
          | .ok ps => .ok ((n, v) :: ps)

/-- Insert a pair into a list already sorted by the integer key, after any
existing equal keys: Python's `sorted` is stable. -/
def insertByKey (p : Int × Val) : List (Int × Val) → List (Int × Val)
  | [] => [p]
  | q :: rest => if p.1 < q.1 then p :: q :: rest else q :: insertByKey p rest

/-- Stable ascending sort by the integer key (insertion sort). -/
def sortByKey (l : List (Int × Val)) : List (Int × Val) :=
  l.foldl (fun acc p => insertByKey p acc) []

/-- `[val for _, val in sorted(parent[key].items(), key=lambda x: int(x[0]))]`:
convert a fully expanded `:`-group into a Python list, discarding the
index fragments. -/
def convertGroup (entries : List (String × Val)) : Except String (List Val) :=
  match parseKeys entries with
  | .error e => .error e
  | .ok ps => .ok ((sortByKey ps).map (·.2))

/-- Length of the longest key of a flat dict.  Used as structural fuel for
the expansion recursion: every sub-group's key is a tail of one of this
level's keys, hence strictly shorter, so `maxKeyLen base + 1` units of
fuel always suffice and the fuel-exhausted branch is unreachable (each
theorem below establishes this within its induction). -/
def maxKeyLen (d : List (String × Val)) : Nat :=
  (d.map (fun p => p.1.length)).foldr max 0

/-- Sequence a list of fallible computations, failing at the first error —
the behavior of a Python loop whose body can raise. -/
def exceptList {ε α β : Type} (f : α → Except ε β) : List α → Except ε (List β)
  | [] => .ok []
  | a :: as =>
      match f a with
      | .error e => .error e
      | .ok b =>
          match exceptList f as with
          | .error e => .error e
          | .ok bs => .ok (b :: bs)

/-- The worklist of `expand_dots`, phrased recursively (the worklist
converts children before their parents thanks to
`reversed(needs_conversion)`, which is exactly post-order recursion).
Produces the entries of the `into` dict of one level: the naked keys
first, then the `.`-groups, then the `:`-groups — the source's insertion
order (`into.update(singles)` followed by the two loops); the three kinds
of keys are pairwise disjoint whenever `_expand_dots_1` succeeds, so no
update collides. -/
def expandIntoB : Nat → List (String × Val) → Except String (List (String × Val))
  | 0, _ => .error ""
  | fuel + 1, base =>
      match expandDots1 base with
      | .error e => .error e
      | .ok (singles, dicts, lists) =>
          match exceptList (fun q =>
              match expandIntoB fuel q.2 with
              | .error e => .error e
              | .ok r => .ok (q.1, Val.dict r)) dicts with
          | .error e => .error e
          | .ok dictParts =>
              match exceptList (fun q =>
                  match expandIntoB fuel q.2 with
                  | .error e => .error e
                  | .ok r =>
                      match convertGroup r with
                      | .error e => .error e
                      | .ok vs => .ok (q.1, Val.list vs)) lists with
              | .error e => .error e
              | .ok listParts => .ok (singles ++ dictParts ++ listParts)

/-- Expansion of a nonempty flat dict with always-sufficient fuel. -/
def expandInto (base : List (String × Val)) : Except String (List (String × Val)) :=
  expandIntoB (maxKeyLen base + 1) base

/-- `expand_dots(base_dict)`: `ValueError`s are `.error`, the expanded
nested dict is `.ok`. -/
def expandDots (base : List (String × Val)) : Except String Val :=
  if base.isEmpty then .ok (Val.dict [])
  else
    match expandInto base with
    | .error e => .error e
    | .ok entries => .ok (Val.dict entries)

/-! ## Validators (`fforms/validators.py`) -/
/-- A raised `ValidationError`: a message and the partially-cleaned data
attached at the point of failure.  `ValidationError.bind` formats the
message with the failing bound field (`message.format(field=field)`);
since no claim inspects the formatted text, messages are modeled as plain
strings and binding as the identity on them. -/
structure VErr where
  message : String
  clean_data : Val

/-- A validator: `data -> cleaned_data`, signalling failure by raising
`ValidationError` (the library's own validators raise nothing else). -/
abbrev Validator := Val → Except VErr Val

/-- `noop = lambda x: x`. -/
def noop : Validator := fun x => .ok x

/-- The default `pre_processor` (also `noop`); pre-processors are modeled
as total since all claims use the default. -/
def noopPre : Val → Val := fun x => x

/-- The message of `ensure_parent` (a deferred template in the source). -/
def ensureParentMsg : String := "\x7bfield.name\x7d must be a container"

/-- `isinstance(data, (dict, list, tuple))`, the test of `ensure_parent`. -/
def isParent : Val → Bool
  | .dict _ => true
  | .list _ => true
  | _ => false

/-- `all_children`: `ensure_parent(data)`, then `fail_if_error` — raise
`ValidationError("", data)` at the first child value that is a
`ValidationError`; dicts check their values, lists their elements. -/
def all_children : Validator := fun data =>
  if isParent data then
    match data with
    | .dict xs =>
        if xs.any (fun p => isErr p.2) then .error ⟨"", data⟩ else .ok data
    | .list xs =>
        if xs.any isErr then .error ⟨"", data⟩ else .ok data
    | other => .ok other
  else .error ⟨ensureParentMsg, data⟩

/-! ## Schema nodes (`fforms/schema.py`) -/
/-- Schema nodes.  Every node carries its `name`, its `validator` and its
`pre_processor` (`Schema.__init__` defaults both to `noop`;
`MapSchema.__init__`/`SequenceSchema.__init__` replace the validator with
`all_children`).  A map's children live in the `_child_by_name` mapping
(modeled as an insertion-ordered association list with distinct keys, as
a Python dict); each child schema also carries its own `name`. -/
inductive Schema where
  | leafS (name : PyName) (validator : Validator) (pre_processor : Val → Val)
  | mapS (name : PyName) (children : List (String × Schema)) (validator : Validator)
      (pre_processor : Val → Val)
  | seqS (name : PyName) (child : Schema) (validator : Validator)
      (pre_processor : Val → Val)

def Schema.name : Schema → PyName
  | .leafS nm _ _ => nm
  | .mapS nm _ _ _ => nm
  | .seqS nm _ _ _ => nm

def Schema.validator : Schema → Validator
  | .leafS _ v _ => v
  | .mapS _ _ v _ => v
  | .seqS _ _ v _ => v

def Schema.pre_processor : Schema → (Val → Val)
  | .leafS _ _ pp => pp
  | .mapS _ _ _ pp => pp
  | .seqS _ _ _ pp => pp

/-- `Schema.is_sequence`. -/
def Schema.is_sequence : Schema → Bool
  | .seqS _ _ _ _ => true
  | _ => false

mutual

/-- Structural size of a schema tree: the recursion fuel for the fueled
definitions below (any fuel of at least this size reaches the same
result, which each proof establishes within its induction). -/
def schemaSize : Schema → Nat
  | .leafS _ _ _ => 1
  | .mapS _ cs _ _ => schemaSizeList cs + 1
  | .seqS _ c _ _ => schemaSize c + 1

def schemaSizeList : List (String × Schema) → Nat
  | [] => 0
  | c :: rest => schemaSize c.2 + schemaSizeList rest

end

/-- `Schema._run_validator`: run the validator, catching `ValidationError`
and returning it as a value (anything else would propagate, but the
library's validators raise only `ValidationError`). -/
def runValidator (v : Validator) (data : Val) : Val :=
  match v data with
  | .ok r => r
  | .error e => Val.err e.message e.clean_data

/-- Assemble a Python dict from evaluated `(key, value)` pairs (a dict
comprehension): a later equal key overwrites in place. -/
def dictOf {κ α : Type} [DecidableEq κ] (l : List (κ × α)) : List (κ × α) :=
  l.foldl (fun acc p => pyUpdate acc p.1 p.2) []

/-- `data.get(name)` inside `MapSchema.validate` (after the `None → {}`
replacement): only dicts have `.get`; any other object raises
`AttributeError`.  Missing keys default to `None`. -/
def pyDictGet : Val → String → Except PyErr Val
  | .dict xs, name => .ok ((alookup xs name).getD Val.none)
  | _, _ => .error PyErr.attributeError

/-- Iteration `for elem in data` over a Python value: lists yield their
elements, strings their characters, dicts their keys; other values raise
`TypeError`. -/
def pyElems : Val → Except PyErr (List Val)
  | .list xs => .ok xs
  | .str s => .ok (s.data.map (fun c => Val.str (String.singleton c)))
  | .dict xs => .ok (xs.map (fun p => Val.str p.1))
  | _ => .error PyErr.typeError

/-- Fueled recursion for `Schema.validate`; `sizeOf` of the schema bounds
the recursion depth, so with the fuel used by `validate` the fuel-0 branch
(arbitrarily `TypeError`) is unreachable — each proof below establishes
this within its induction.

A `ValidationError` returned by `_run_validator` shows up as a `Val.err`
inside `.ok`, while `.error` models an uncaught runtime error.
`MapSchema` first replaces missing data with `{}`, validates every named
child on `data.get(name)` (`{name: child.validate(data.get(name)) ...}`),
assembles the results into a dict, and only then runs its own validator;
`SequenceSchema` replaces missing data with `[]` and validates every
element against the single child schema in input order
(`[self.child.validate(elem) for elem in data]`). -/
def validateB : Nat → Schema → Val → Except PyErr Val
  | 0, _, _ => .error PyErr.typeError
  | _ + 1, .leafS _ v _, data => .ok (runValidator v data)
  | fuel + 1, .mapS _ cs v _, data =>
      let d := match data with
        | Val.none => Val.dict []
        | other => other
      match exceptList (fun (nc : String × Schema) =>
          match pyDictGet d nc.1 with
          | .error e => .error e
          | .ok sub =>
              match validateB fuel nc.2 sub with
              | .error e => .error e
              | .ok r => .ok (nc.1, r)) cs with
      | .error e => .error e
      | .ok results => .ok (runValidator v (Val.dict (dictOf results)))
  | fuel + 1, .seqS _ c v _, data =>
      let d := match data with
        | Val.none => Val.list []
        | other => other
      match pyElems d with
      | .error e => .error e
      | .ok elems =>
          match exceptList (validateB fuel c) elems with
          | .error e => .error e
          | .ok results => .ok (runValidator v (Val.list results))

/-- `Schema.validate(data)`. -/
def validate (s : Schema) (data : Val) : Except PyErr Val :=
  validateB (schemaSize s) s data

/-! ## Bound fields (`fforms/fields.py`) -/
/-- A bound field (`BoundField`): one node of the per-validation-attempt
tree.  `children` is the ordered list of child fields (`_children` itself
for a sequence, `_children.values()` in insertion order for a map, `[]`
for a leaf).  `clean_data`/`error` are `Option`s: Python initializes both
attributes to `None` and `_propagate_validation` may assign them;
`Option.none` means never assigned. -/
inductive Field where
  | mk (schema : Schema) (name : PyName) (full_name : String) (raw_data : Val)
      (children : List Field) (clean_data : Option Val) (error : Option String)

def Field.schema : Field → Schema
  | .mk s _ _ _ _ _ _ => s

def Field.name : Field → PyName
  | .mk _ n _ _ _ _ _ => n

def Field.full_name : Field → String
  | .mk _ _ fn _ _ _ _ => fn

def Field.raw_data : Field → Val
  | .mk _ _ _ r _ _ _ => r

def Field.children : Field → List Field
  | .mk _ _ _ _ cs _ _ => cs

def Field.clean_data : Field → Option Val
  | .mk _ _ _ _ _ cd _ => cd

def Field.error : Field → Option String
  | .mk _ _ _ _ _ _ e => e

/-- `None if data is None else data.get(node.name)` inside
`_make_children` for map schemas: `data.get` exists only on dicts
(`AttributeError` otherwise), and an int name never matches the string
keys. -/
def sliceByName (raw : Val) (nm : PyName) : Except PyErr Val :=
  match raw with
  | Val.none => .ok Val.none
  | Val.dict xs =>
      match nm with
      | .str s => .ok ((alookup xs s).getD Val.none)
      | .int _ => .ok Val.none
  | _ => .error PyErr.attributeError

/-- Fueled recursion for `BoundField.__init__` + `_make_children` (fuel
as in `validateB`): apply the schema's pre-processor to the data, then
eagerly build the children mirroring the schema.

Sequence-shaped: truthy `raw_data` gives one child per element of
`enumerate(data)` (named by its index, `full_name` suffixed `:<index>`),
otherwise a single placeholder child with no data and suffix `:0`.
Map-shaped: the `{node.name: BoundField(node, ...)}` comprehension -- one
child per schema child, data sliced by the child schema's own `name`
(`data.get(node.name)` raises `AttributeError` on non-dict, non-`None`
data, and an int name misses the string keys), `full_name` suffixed
`.<name>` (no leading dot at the root, `TypeError` when `node.name` is
not a string since `full_name + node.name` concatenates strings); the
children dict is keyed by `node.name`.  Leaf-shaped: no children. -/
def mkFieldB : Nat → Schema → Val → String → Option PyName → Except PyErr Field
  | 0, _, _, _, _ => .error PyErr.typeError
  | _ + 1, .leafS nm v pp, data, full_name, nameOv =>
      .ok (.mk (.leafS nm v pp) (nameOv.getD nm) full_name (pp data) []
        Option.none Option.none)
  | fuel + 1, .mapS nm cs v pp, data, full_name, nameOv =>
      let raw := pp data
      let fnPre := if full_name = "" then "" else full_name ++ "."
      match exceptList (fun (nc : String × Schema) =>
          match sliceByName raw nc.2.name with
          | .error e => .error e
          | .ok sliced =>
              match nc.2.name with
              | .int _ => .error PyErr.typeError
              | .str s =>
                  match mkFieldB fuel nc.2 sliced (fnPre ++ s) Option.none with
                  | .error e => .error e
                  | .ok f => .ok (PyName.str s, f)) cs with
      | .error e => .error e
      | .ok pairs =>
          .ok (.mk (.mapS nm cs v pp) (nameOv.getD nm) full_name raw
            ((dictOf pairs).map (fun p => p.2)) Option.none Option.none)
  | fuel + 1, .seqS nm c v pp, data, full_name, nameOv =>
      let raw := pp data
      if truthy raw then
        match pyElems raw with
        | .error e => .error e
        | .ok elems =>
            match exceptList (fun (p : Nat × Val) =>
                mkFieldB fuel c p.2 (full_name ++ ":" ++ toString p.1)
                  (some (.int p.1))) elems.enum with
            | .error e => .error e
            | .ok kids =>
                .ok (.mk (.seqS nm c v pp) (nameOv.getD nm) full_name raw kids
                  Option.none Option.none)
      else
        match mkFieldB fuel c Val.none (full_name ++ ":0") Option.none with
        | .error e => .error e
        | .ok k =>
            .ok (.mk (.seqS nm c v pp) (nameOv.getD nm) full_name raw [k]
              Option.none Option.none)

/-- `BoundField(schema, data, full_name, name)`. -/
def mkField (s : Schema) (data : Val) (full_name : String) (nameOv : Option PyName) :
    Except PyErr Field :=
  mkFieldB (schemaSize s) s data full_name nameOv

/-- `data[name]` inside `_propagate_validation`: dict subscripting by a
string key (`KeyError` when absent; an int key never matches the string
keys), list subscripting by an int index with Python's negative indexing
(`IndexError` out of range, `TypeError` for a string index); strings
index like lists of characters; other values are not subscriptable. -/
def pySubscript : Val → PyName → Except PyErr Val
  | .dict xs, .str k =>
      match alookup xs k with
      | some v => .ok v
      | Option.none => .error PyErr.keyError
  | .dict _, .int _ => .error PyErr.keyError
  | .list xs, .int n =>
      let i := if n < 0 then n + xs.length else n
      if h : 0 ≤ i ∧ i.toNat < xs.length then .ok (xs.get ⟨i.toNat, h.2⟩)
      else .error PyErr.indexError
  | .list _, .str _ => .error PyErr.typeError
  | .str s, .int n =>
      let i := if n < 0 then n + s.length else n
      if h : 0 ≤ i ∧ i.toNat < s.data.length then
        .ok (Val.str (String.singleton (s.data.get ⟨i.toNat, h.2⟩)))
      else .error PyErr.indexError
  | .str _, .str _ => .error PyErr.typeError
  | .int _, _ => .error PyErr.typeError
  | .none, _ => .error PyErr.typeError
  | .err _ _, _ => .error PyErr.typeError

mutual

/-- `BoundField._propagate_validation(return_val)`.  A `ValidationError`
value sets `error` (the message bound to this field) and walks the
error's attached `clean_data` into the children; any other value is
assigned to `clean_data` and walked likewise.  `None` data stops the
recursion; otherwise every child is visited with `data[child.name]`,
which can raise.  Returns the boolean `is_valid` result together with the
updated field. -/
def propagate : Field → Val → Except PyErr (Bool × Field)
  | .mk schema nm fn raw kids cd er, rv =>
      match rv with
      | .err msg clean =>
          match clean with
          | Val.none => .ok (false, .mk schema nm fn raw kids cd (some msg))
          | data =>
              match propagateList kids data with
              | .error e => .error e
              | .ok kids' => .ok (false, .mk schema nm fn raw kids' cd (some msg))
      | v =>
          match v with
          | Val.none => .ok (true, .mk schema nm fn raw kids (some Val.none) er)
          | data =>
              match propagateList kids data with
              | .error e => .error e
              | .ok kids' => .ok (true, .mk schema nm fn raw kids' (some v) er)

/-- The `for child in self: child._propagate_validation(data[child.name])`
loop. -/
def propagateList : List Field → Val → Except PyErr (List Field)
  | [], _ => .ok []
  | k :: ks, data =>
      match pySubscript data k.name with
      | .error e => .error e
      | .ok sub =>
          match propagate k sub with
          | .error e => .error e
          | .ok (_, k') =>
              match propagateList ks data with
              | .error e => .error e
              | .ok ks' => .ok (k' :: ks')

end

/-- `BoundField.is_valid()`: run the schema's `validate` on `raw_data`,
then propagate the result through the field tree.  `.ok` carries the
returned boolean and the updated tree; `.error` is an uncaught runtime
error escaping `is_valid`. -/
def isValid (f : Field) : Except PyErr (Bool × Field) :=
  match validate f.schema f.raw_data with
  | .error e => .error e
  | .ok rv => propagate f rv

/-! ## `make_from_literal` and `bind_dotted` -/
/-- Schema literals: nested dicts and lists with validators at the leaves
(`make_from_literal`'s input). -/
inductive Literal where
  | leafL (v : Validator)
  | mapL (children : List (String × Literal))
  | seqL (children : List Literal)

mutual

/-- `make_from_literal(literal, name="")`: dicts become `MapSchema` (each
child named after its key), one-element lists become `SequenceSchema`
(child named `0`), anything else becomes a `LeafSchema` whose validator
is the literal itself; a list of length ≠ 1 raises `ValueError`. -/
def makeFromLiteral : Literal → PyName → Except String Schema
  | .leafL v, name => .ok (.leafS name v noopPre)
  | .mapL children, name =>
      match makeChildrenFromLiteral children with
      | .error e => .error e
      | .ok cs => .ok (.mapS name cs all_children noopPre)
  | .seqL [c], name =>
      match makeFromLiteral c (.int 0) with
      | .error e => .error e
      | .ok child => .ok (.seqS name child all_children noopPre)
  | .seqL _, _ => .error "Sequence Schema must have exactly one child"

/-- The `{key: make_from_literal(value, name=key)}` comprehension. -/
def makeChildrenFromLiteral :
    List (String × Literal) → Except String (List (String × Schema))
  | [] => .ok []
  | (k, lit) :: rest =>
      match makeFromLiteral lit (.str k) with
      | .error e => .error e
      | .ok c =>
          match makeChildrenFromLiteral rest with
          | .error e => .error e
          | .ok cs => .ok ((k, c) :: cs)

end

/-- Errors escaping `bind_dotted`: a decode `ValueError` from
`expand_dots` or a runtime error from field construction. -/
inductive BindErr where
  | valueError (msg : String)
  | runtime (e : PyErr)

/-- `val == ""` in the comprehension of `bind_dotted`: only the empty
string compares equal to `""`. -/
def isEmptyStr : Val → Bool
  | .str s => s == ""
  | _ => false

/-- `bind_dotted(schema, data, data2=None)`: override `data` with the
entries of `data2` key by key (`data.update(data2)`), drop every entry
whose value is the empty string, expand the remaining flat mapping, and
bind the expanded value to the schema as a `BoundField`. -/
def bindDotted (schema : Schema) (data : List (String × Val))
    (data2 : Option (List (String × Val))) : Except BindErr Field :=
  let merged := match data2 with
    | Option.none => data
    | some d2 =>
        d2.foldl (fun (acc : List (String × Val)) (p : String × Val) =>
          pyUpdate acc p.1 p.2) data
  let filtered := merged.filter (fun p => !(isEmptyStr p.2))
  match expandDots filtered with
  | .error e => .error (.valueError e)
  | .ok nested =>
      match mkField schema nested "" Option.none with
      | .error e => .error (.runtime e)
      | .ok f => .ok f

/-- Spec wording (§4.3, Map Schema): missing data is treated as an empty
mapping. -/
def defaultMap (data : Val) : Val :=
  match data with
  | .none => .dict []
  | d => d

/-- Spec wording (§4.3, Sequence Schema): missing data is treated as an
empty sequence. -/
def defaultSeq (data : Val) : Val :=
  match data with
  | .none => .list []
  | d => d

/-- Spec wording (§4.3, Map Schema): each named child's validate result on
the data sliced by that name, assembled in schema order (absent names are
validated against the null value). -/
def mapChildResults (cs : List (String × Schema)) (d : Val) :
    Except PyErr (List (String × Val)) :=
  exceptList (fun nc =>
    match pyDictGet d nc.1 with
    | .error e => .error e
    | .ok sub =>
        match validate nc.2 sub with
        | .error e => .error e
        | .ok r => .ok (nc.1, r)) cs

/-- Spec wording (§4.3, Sequence Schema): every element's validate result
against the single child schema, in input order. -/
def seqChildResults (c : Schema) (elems : List Val) : Except PyErr (List Val) :=
  exceptList (validate c) elems

/-- `BoundField(schema, data).is_valid()`: construct the bound field tree
for the given schema and data and run `is_valid` on it. -/
def bindValid (schema : Schema) (data : Val) : Except PyErr (Bool × Field) :=
  match mkField schema data "" Option.none with
  | .error e => .error e
  | .ok f => isValid f

/-- The schema `make_from_literal([noop])`: a sequence of no-op leaves. -/
def seqNoopSchema : Schema :=
  Schema.seqS (.str "") (Schema.leafS (.int 0) noop noopPre) all_children noopPre

/-! ## Predicates for the noop round-trip claim -/
mutual

/-- A literal whose leaves are all the `noop` validator and whose map
keys are distinct (as they are in a Python dict literal). -/
def goodLit : Literal → Prop
  | .leafL v => v = noop
  | .mapL children => (children.map Prod.fst).Nodup ∧ goodLitChildren children
  | .seqL children =>
      match children with
      | [c] => goodLit c
      | _ => False

def goodLitChildren : List (String × Literal) → Prop
  | [] => True
  | (_, c) :: rest => goodLit c ∧ goodLitChildren rest

end

mutual

/-- The shape `make_from_literal` gives a schema whose literal satisfies
`goodLit`: `noop` validators and pre-processors at the leaves,
`all_children` on containers, map children named after their distinct
keys. -/
def noopSchema : Schema → Prop
  | .leafS _ v pp => v = noop ∧ pp = noopPre
  | .mapS _ cs v pp =>
      v = all_children ∧ pp = noopPre ∧ (cs.map Prod.fst).Nodup ∧ noopSchemaChildren cs
  | .seqS _ c v pp => v = all_children ∧ pp = noopPre ∧ noopSchema c

def noopSchemaChildren : List (String × Schema) → Prop
  | [] => True
  | (k, c) :: rest => c.name = PyName.str k ∧ noopSchema c ∧ noopSchemaChildren rest

end

/-- Fueled recursion (fuel as in `validateB`) for "nested data matching
the schema's shape": scalars at the leaves, dicts with exactly the map's
keys in schema order, non-empty lists of well-formed elements at
sequences.  The non-emptiness restriction is the amendment forced by the
placeholder-child `IndexError` (see C1/C2). -/
def wellFormedB : Nat → Schema → Val → Bool
  | 0, _, _ => false
  | _ + 1, .leafS _ _ _, v => isScalar v
  | fuel + 1, .mapS _ cs _ _, v =>
      match v with
      | .dict es =>
          decide (es.map Prod.fst = cs.map Prod.fst) &&
            (List.zip cs es).all (fun p => wellFormedB fuel p.1.2 p.2.2)
      | _ => false
  | fuel + 1, .seqS _ c _ _, v =>
      match v with
      | .list vs => (!vs.isEmpty) && vs.all (wellFormedB fuel c)
      | _ => false

/-- Data matching the schema's shape (with non-empty sequences). -/
def wellFormed (s : Schema) (v : Val) : Bool :=
  wellFormedB (schemaSize s) s v

/-! ## Decimal index keys for the flattening scheme (spec-side, C8) -/
def digitChar : Nat → Char
  | 0 => '0'
  | 1 => '1'
  | 2 => '2'
  | 3 => '3'
  | 4 => '4'
  | 5 => '5'
  | 6 => '6'
  | 7 => '7'
  | 8 => '8'
  | _ => '9'

def natDigits (n : Nat) : List Char :=
  if n < 10 then [digitChar n] else natDigits (n / 10) ++ [digitChar (n % 10)]
termination_by n
decreasing_by exact Nat.div_lt_self (by omega) (by omega)

/-- The decimal key the flattening scheme writes for sequence index `n`. -/
def natKey (n : Nat) : String := ⟨natDigits n⟩

/-! ## The flattening scheme and representable structures (spec-side, C8)

The claim describes flattening a nested structure to a flat mapping with
`.` for object fields and `:` for sequence indices; `expand_dots` must
reproduce an equal structure.  The definitions here follow the claim's
words (they have no counterpart in the repository): `flattenUnderF k v`
emits the flat entries of subtree `v` reached through key path `k`, and
`repVal` delimits the structures the scheme can represent — string-keyed
mappings with delimiter-free distinct keys, non-empty containers (an empty
container flattens to no keys at all and would vanish), scalars at the
leaves. -/
mutual

def flattenUnderF : String → Val → List (String × Val)
  | k, .dict es => (flattenEntriesF es).map fun p => (k ++ "." ++ p.1, p.2)
  | k, .list xs => (flattenElemsF 0 xs).map fun p => (k ++ ":" ++ p.1, p.2)
  | k, v => [(k, v)]

def flattenEntriesF : List (String × Val) → List (String × Val)
  | [] => []
  | (k, v) :: rest => flattenUnderF k v ++ flattenEntriesF rest

def flattenElemsF : Nat → List Val → List (String × Val)
  | _, [] => []
  | i, v :: rest => flattenUnderF (natKey i) v ++ flattenElemsF (i + 1) rest

end

mutual

def repVal : Val → Prop
  | .dict es => es ≠ [] ∧ (es.map Prod.fst).Nodup ∧ repEntries es
  | .list xs => xs ≠ [] ∧ repElems xs
  | .err _ _ => False
  | _ => True

def repEntries : List (String × Val) → Prop
  | [] => True
  | (k, v) :: rest => splitFirstDelim k = Option.none ∧ repVal v ∧ repEntries rest

def repElems : List Val → Prop
  | [] => True
  | v :: rest => repVal v ∧ repElems rest

end

/-! Python `==` on nested values: dict comparison ignores key order (both
sides looked up as mappings), list comparison is positional. -/
mutual

def valEq : Val → Val → Bool
  | .none, .none => true
  | .str a, .str b => a == b
  | .int a, .int b => a == b
  | .list xs, .list ys => valEqElems xs ys
  | .dict es, .dict fs => es.length == fs.length && valEqEntries es fs
  | _, _ => false

def valEqElems : List Val → List Val → Bool
  | [], [] => true
  | x :: xs, y :: ys => valEq x y && valEqElems xs ys
  | _, _ => false

def valEqEntries : List (String × Val) → List (String × Val) → Bool
  | [], _ => true
  | (k, v) :: rest, fs =>
      (match alookup fs k with
       | some w => valEq v w
       | Option.none => false) && valEqEntries rest fs

end

/-- The head `_expand_dots_1` buckets a flat key under: the part before the
first delimiter, or the whole key when it has none. -/
def runHead (q : String) : String :=
  match splitFirstDelim q with
  | Option.none => q
  | some (h, _, _) => h

/-- The scalar children of a dict level: they become the naked keys. -/
def scalarsOf : List (String × Val) → List (String × Val)
  | [] => []
  | (_, .dict _) :: rest => scalarsOf rest
  | (_, .list _) :: rest => scalarsOf rest
  | (k, v) :: rest => (k, v) :: scalarsOf rest

/-- The mapping children: each becomes a `.`-group holding the child's
own flattened entries. -/
def dictGroupsOf : List (String × Val) → List (String × List (String × Val))
  | [] => []
  | (k, .dict cs) :: rest => (k, flattenEntriesF cs) :: dictGroupsOf rest
  | _ :: rest => dictGroupsOf rest

/-- The sequence children: each becomes a `:`-group. -/
def listGroupsOf : List (String × Val) → List (String × List (String × Val))
  | [] => []
  | (k, .list xs) :: rest => (k, flattenElemsF 0 xs) :: listGroupsOf rest
  | _ :: rest => listGroupsOf rest

/-! ## Restoring sequence order through the integer sort (C8) -/
/-- Elements annotated with their integer positions — the annotated form
`convertGroup` computes for a fully expanded `:`-group whose keys are
decimal indices. -/
def intEnum : Nat → List Val → List (Int × Val)
  | _, [] => []
  | i, w :: ws => (Int.ofNat i, w) :: intEnum (i + 1) ws

mutual

def flatDepth : Val → Nat
  | .dict es => flatDepthEntries es + 1
  | .list xs => flatDepthElems xs + 1
  | _ => 0

def flatDepthEntries : List (String × Val) → Nat
  | [] => 0
  | (_, v) :: rest => max (flatDepth v) (flatDepthEntries rest)

def flatDepthElems : List Val → Nat
  | [] => 0
  | v :: rest => max (flatDepth v) (flatDepthElems rest)

end

/-- The sub-dict `_expand_dots_1` accumulates for head `h` under delimiter
`d`: the tails of the keys of `base` that split as `(h, d, tail)`, with
their values, in order. -/
def groupOf (base : List (String × Val)) (h : String) (d : Char) : List (String × Val) :=
  base.filterMap (fun p =>
    match splitFirstDelim p.1 with
    | some (h2, d2, t) => if h2 = h ∧ d2 = d then some (t, p.2) else Option.none
    | Option.none => Option.none)

/-- The naked keys of a flat dict, with their values, in order. -/
def nakedOf (base : List (String × Val)) : List (String × Val) :=
  base.filter (fun p => (splitFirstDelim p.1).isNone)

/-- Some key of `base` splits with head `h` under delimiter `d`. -/
def hasDelimKey (base : List (String × Val)) (h : String) (d : Char) : Prop :=
  ∃ p ∈ base, ∃ t, splitFirstDelim p.1 = some (h, d, t)

/-- The decode conflicts of the claim, read off the flat mapping itself:
a head used both as a naked key and as a delimited prefix, a head used
under both `.` and `:`, a sequence-index fragment that is not a base-10
integer — or any of these at a deeper level, inside the sub-dict of tails
accumulated for some head. -/
inductive ConflictD : List (String × Val) → Prop where
  | naked {base : List (String × Val)} {p1 p2 : String × Val} {d : Char} {t : String}
      (h1 : p1 ∈ base) (h2 : p2 ∈ base)
      (hs1 : splitFirstDelim p1.1 = Option.none)
      (hs2 : splitFirstDelim p2.1 = some (p1.1, d, t)) : ConflictD base
  | mixed {base : List (String × Val)} {p1 p2 : String × Val} {h : String} {t1 t2 : String}
      (h1 : p1 ∈ base) (h2 : p2 ∈ base)
      (hs1 : splitFirstDelim p1.1 = some (h, '.', t1))
      (hs2 : splitFirstDelim p2.1 = some (h, ':', t2)) : ConflictD base
  | badIndex {base : List (String × Val)} {p : String × Val} {h t : String}
      (h1 : p ∈ base) (hs : splitFirstDelim p.1 = some (h, ':', t))
      (hbad : pyInt? (runHead t) = Option.none) : ConflictD base
  | sub {base : List (String × Val)} (h : String) (d : Char)
      (hc : ConflictD (groupOf base h d)) : ConflictD base

/-- The invariant tying a `_expand_dots_1` bucket to the processed prefix:
distinct heads, each head's sub-dict exactly the accumulated tails, and a
head present exactly when the prefix has a key of that shape. -/
def BucketInv (prefixL : List (String × Val)) (d : Char)
    (B : List (String × List (String × Val))) : Prop :=
  (B.map Prod.fst).Nodup ∧ (∀ hg ∈ B, hg.2 = groupOf prefixL hg.1 d) ∧
    (∀ h2, h2 ∈ B.map Prod.fst ↔ hasDelimKey prefixL h2 d)

/-- A conflict still pending while the `_expand_dots_1` loop runs: a
conflicting pair entirely in the unprocessed keys, or a key whose
conflicting partner is already recorded in one of the buckets. -/
def Pending (rest S : List (String × Val))
    (D L : List (String × List (String × Val))) : Prop :=
  (∃ p1 ∈ rest, ∃ p2 ∈ rest, ∃ d t, splitFirstDelim p1.1 = Option.none ∧
    splitFirstDelim p2.1 = some (p1.1, d, t)) ∨
  (∃ p1 ∈ rest, ∃ p2 ∈ rest, ∃ h t1 t2, splitFirstDelim p1.1 = some (h, '.', t1) ∧
    splitFirstDelim p2.1 = some (h, ':', t2)) ∨
  (∃ p ∈ rest, splitFirstDelim p.1 = Option.none ∧
    ((alookup D p.1).isSome = true ∨ (alookup L p.1).isSome = true)) ∨
  (∃ p ∈ rest, ∃ h d t, splitFirstDelim p.1 = some (h, d, t) ∧
    ((alookup S h).isSome = true ∨ (d = '.' ∧ (alookup L h).isSome = true) ∨
      (d = ':' ∧ (alookup D h).isSome = true)))

/-! ## Theorems -/

/-! Sanity checks: the doctests of `expand_dots`. -/
example :
    expandDots [("parent.child1", Val.str "value1"), ("parent.child2", Val.str "value2")] =
      .ok (Val.dict [("parent",
        Val.dict [("child1", Val.str "value1"), ("child2", Val.str "value2")])]) := rfl

example :
    expandDots [("parent", Val.str "naked"), ("parent.child", Val.str "value")] =
      .error (nakedParentMsg "parent") := rfl

example :
    expandDots [("parent.a.b", Val.str "child"), ("parent.a", Val.str "child")] =
      .error (nakedParentMsg "a") := rfl

example :
    expandDots [("parent:0", Val.str "a"), ("parent:1", Val.str "b")] =
      .ok (Val.dict [("parent", Val.list [Val.str "a", Val.str "b"])]) := rfl

example :
    expandDots [("parent:5", Val.str "a"), ("parent:7", Val.str "b")] =
      .ok (Val.dict [("parent", Val.list [Val.str "a", Val.str "b"])]) := rfl

example :
    expandDots [("parent:0.a", Val.str "A"), ("parent:0.b", Val.str "B"),
        ("parent:1", Val.int 1)] =
      .ok (Val.dict [("parent",
        Val.list [Val.dict [("a", Val.str "A"), ("b", Val.str "B")], Val.int 1])]) := rfl

example :
    expandDots [("b:0:0", Val.str "a")] =
      .ok (Val.dict [("b", Val.list [Val.list [Val.str "a"]])]) := rfl

example :
    expandDots [("b:0:0.a.0:0:0.c:0.d:0", Val.str "a")] =
      .ok (Val.dict [("b", Val.list [Val.list [Val.dict [("a", Val.dict [("0",
        Val.list [Val.list [Val.dict [("c", Val.list [Val.dict [("d",
          Val.list [Val.str "a"])]])]]])])]]])]) := rfl

example : expandDots [("parent:a", Val.str "A")] = .error (intLitMsg "a") := rfl

example : expandDots [("parent", Val.str "child")] =
    .ok (Val.dict [("parent", Val.str "child")]) := rfl

example :
    expandDots [("parent.a", Val.str "A"), ("parent:1", Val.int 1)] =
      .error (dictListMsg "parent") := rfl

example :
    expandDots [("a:b", Val.int 1), ("a", Val.int 2)] = .error (nakedParentMsg "a") := rfl

example : expandDots [] = .ok (Val.dict []) := rfl

example :
    expandDots [("head.a", Val.int 1), ("head:0", Val.int 2)] =
      .error (dictListMsg "head") := rfl

example :
    expandDots [("head:0", Val.int 1), ("head.a", Val.int 2)] =
      .error (dictListMsg "head") := rfl

/-! Sanity checks: bound-field behavior. -/
example :
    makeFromLiteral (Literal.seqL [Literal.leafL noop]) (PyName.str "") =
      .ok seqNoopSchema := rfl

-- the sequence-with-no-data placeholder child: `[0]` on the empty clean list

example : bindValid seqNoopSchema Val.none = .error PyErr.indexError := rfl

example : bindValid seqNoopSchema (Val.list []) = .error PyErr.indexError := rfl

example :
    (bindValid seqNoopSchema (Val.list [Val.int 7, Val.int 8])).map
        (fun p => (p.1, p.2.clean_data)) =
      .ok (true, some (Val.list [Val.int 7, Val.int 8])) := rfl

example :
    (bindValid
        (Schema.mapS (.str "")
          [("key1", Schema.leafS (.str "key1") noop noopPre),
           ("key2", Schema.leafS (.str "key2") noop noopPre)]
          all_children noopPre)
        (Val.dict [("key1", Val.int 1), ("key2", Val.str "x")])).map
        (fun p => (p.1, p.2.clean_data)) =
      .ok (true, some (Val.dict [("key1", Val.int 1), ("key2", Val.str "x")])) := rfl

-- a failing leaf inside a map: parent invalid with error "", child keeps its own error

example :
    (bindValid
        (Schema.mapS (.str "")
          [("key1",
            Schema.leafS (.str "key1")
              (fun v => match v with
                | Val.none => .error ⟨"required", Val.none⟩
                | x => .ok x)
              noopPre)]
          all_children noopPre)
        (Val.dict [])).map
        (fun p => (p.1, p.2.error, p.2.children.map (fun k => (k.error, k.clean_data)))) =
      .ok (false, some "", [(some "required", Option.none)]) := rfl

/-! ## Helper lemmas -/
theorem alookup_cons {κ α : Type} [DecidableEq κ] (k' : κ) (v : α) (l : List (κ × α))
    (k : κ) : alookup ((k', v) :: l) k = if k' = k then some v else alookup l k := by
  by_cases h : k' = k <;> simp [alookup, List.find?, h]

theorem alookup_eq_none {κ α : Type} [DecidableEq κ] (l : List (κ × α)) (k : κ) :
    alookup l k = Option.none ↔ k ∉ l.map Prod.fst := by
  induction l with
  | nil => simp [alookup]
  | cons p rest ih =>
      obtain ⟨a, b⟩ := p
      rw [alookup_cons]
      by_cases h : a = k
      · subst h
        simp
      · have h' : ¬k = a := fun he => h he.symm
        simp [h, h', ih]

theorem pyUpdate_of_not_mem {κ α : Type} [DecidableEq κ] {l : List (κ × α)} {k : κ}
    (v : α) (h : k ∉ l.map Prod.fst) : pyUpdate l k v = l ++ [(k, v)] := by
  induction l with
  | nil => rfl
  | cons p rest ih =>
      obtain ⟨a, b⟩ := p
      simp only [List.map_cons, List.mem_cons] at h
      push_neg at h
      have h1 : ¬a = k := fun he => h.1 he.symm
      simp [pyUpdate, h1, ih h.2]

theorem alookup_pyUpdate_self {κ α : Type} [DecidableEq κ] (l : List (κ × α)) (k : κ)
    (v : α) : alookup (pyUpdate l k v) k = some v := by
  induction l with
  | nil => simp [pyUpdate, alookup_cons]
  | cons p rest ih =>
      obtain ⟨a, b⟩ := p
      by_cases h : a = k
      · simp [pyUpdate, h, alookup_cons]
      · simp [pyUpdate, h, alookup_cons, ih]

theorem alookup_pyUpdate_ne {κ α : Type} [DecidableEq κ] (l : List (κ × α)) {k k' : κ}
    (v : α) (h : k' ≠ k) : alookup (pyUpdate l k v) k' = alookup l k' := by
  have h' : ¬k = k' := fun he => h he.symm
  induction l with
  | nil => simp [pyUpdate, alookup_cons, alookup, h']
  | cons p rest ih =>
      obtain ⟨a, b⟩ := p
      by_cases hp : a = k
      · subst hp
        simp [pyUpdate, alookup_cons, h']
      · simp [pyUpdate, hp, alookup_cons, ih]

theorem splitChars_append {hs : List Char} {c : Char} (ts : List Char)
    (hh : splitChars hs = Option.none) (hc : isDelim c = true) :
    splitChars (hs ++ c :: ts) = some (hs, c, ts) := by
  induction hs with
  | nil => simp [splitChars, hc]
  | cons a rest ih =>
      simp only [splitChars] at hh ⊢
      rcases ha : isDelim a with _ | _
      · simp only [ha, Bool.false_eq_true, if_false] at hh ⊢
        rcases hr : splitChars rest with _ | p
        · rw [show rest.append (c :: ts) = rest ++ c :: ts from rfl, ih hr]
        · rw [hr] at hh
          simp at hh
      · simp [ha] at hh

theorem splitFirstDelim_none_iff (s : String) :
    splitFirstDelim s = Option.none ↔ splitChars s.data = Option.none := by
  simp [splitFirstDelim]

theorem splitFirstDelim_colon (h t : String) (hh : splitFirstDelim h = Option.none) :
    splitFirstDelim (h ++ ":" ++ t) = some (h, ':', t) := by
  rw [splitFirstDelim_none_iff] at hh
  have : (h ++ ":" ++ t).data = h.data ++ ':' :: t.data := by
    simp [String.data_append]
  rw [splitFirstDelim, this, splitChars_append t.data hh (by decide)]
  rfl

theorem splitFirstDelim_dot (h t : String) (hh : splitFirstDelim h = Option.none) :
    splitFirstDelim (h ++ "." ++ t) = some (h, '.', t) := by
  rw [splitFirstDelim_none_iff] at hh
  have : (h ++ "." ++ t).data = h.data ++ '.' :: t.data := by
    simp [String.data_append]
  rw [splitFirstDelim, this, splitChars_append t.data hh (by decide)]
  rfl

theorem expandDots1Aux_naked (base : List (String × Val)) (s0 : List (String × Val))
    (hall : ∀ p ∈ base, splitFirstDelim p.1 = Option.none) :
    expandDots1Aux base s0 [] [] =
      .ok (base.foldl (fun acc p => pyUpdate acc p.1 p.2) s0, [], []) := by
  induction base generalizing s0 with
  | nil => rfl
  | cons p rest ih =>
      obtain ⟨k, v⟩ := p
      have hk : splitFirstDelim k = Option.none := hall (k, v) (List.mem_cons_self _ _)
      simp only [expandDots1Aux, hk, alookup, List.find?, Option.isSome_none,
        Bool.or_self, Bool.false_eq_true, if_false, List.foldl_cons]
      exact ih _ (fun q hq => hall q (List.mem_cons_of_mem _ hq))

theorem expandIntoB_naked (fuel : Nat) (base : List (String × Val))
    (hall : ∀ p ∈ base, splitFirstDelim p.1 = Option.none) :
    expandIntoB (fuel + 1) base =
      .ok (base.foldl (fun acc p => pyUpdate acc p.1 p.2) []) := by
  simp [expandIntoB, expandDots1, expandDots1Aux_naked base [] hall, exceptList]

/-! ## Claims -/
/-- **C1** (status: code_bug).  The claim says `is_valid()` never lets any
exception escape, in particular for a schema with a sequence node whose
input data is missing or an empty sequence.  The code contradicts this in
exactly the highlighted case: for the schema `make_from_literal([noop])`
with missing (`None`) or empty (`[]`) data, `_make_children` builds the
single placeholder child (named `0`, the child schema's name), the
sequence validator cleans the data to `[]`, and `_propagate_validation`
then evaluates `data[child.name]`, i.e. `[][0]`, raising `IndexError`
through `is_valid()`. -/
theorem c1_empty_sequence_data_raises_index_error :
    makeFromLiteral (Literal.seqL [Literal.leafL noop]) (PyName.str "") =
        .ok seqNoopSchema ∧
    bindValid seqNoopSchema Val.none = .error PyErr.indexError ∧
    bindValid seqNoopSchema (Val.list []) = .error PyErr.indexError :=
  ⟨rfl, rfl, rfl⟩

/-- **C9** (status: confirmed).  `bind_dotted` first overrides `data` with
the entries of `data2` key by key (so binding with two sources equals
binding the updated mapping alone), and drops empty-string values before
expansion (so an entry with value `""` contributes nothing at all). -/
theorem c9_bind_dotted_override_and_drop (schema : Schema)
    (data d2 : List (String × Val)) (k : String) :
    bindDotted schema data (some d2) =
      bindDotted schema
        (d2.foldl (fun (acc : List (String × Val)) (p : String × Val) =>
          pyUpdate acc p.1 p.2) data) Option.none ∧
    bindDotted schema (data ++ [(k, Val.str "")]) Option.none =
      bindDotted schema data Option.none := by
  constructor
  · rfl
  · simp [bindDotted, List.filter_append, isEmptyStr]

/-- **C10** (status: confirmed).  Two coloned keys under the same head
whose index fragments are distinct strings parsing to the same integer do
not conflict: `expand_dots` succeeds and the resulting sequence keeps both
values (no last-wins collapse; Python's stable sort keeps them in
insertion order). -/
theorem c10_equal_int_fragments_not_collapsed (h d1 d2 : String) (n : Int) (v1 v2 : Val)
    (hh : splitFirstDelim h = Option.none)
    (hd1 : splitFirstDelim d1 = Option.none)
    (hd2 : splitFirstDelim d2 = Option.none)
    (hne : d1 ≠ d2)
    (hp1 : pyInt? d1 = some n) (hp2 : pyInt? d2 = some n) :
    expandDots [(h ++ ":" ++ d1, v1), (h ++ ":" ++ d2, v2)] =
      .ok (Val.dict [(h, Val.list [v1, v2])]) := by
  have hs1 := splitFirstDelim_colon h d1 hh
  have hs2 := splitFirstDelim_colon h d2 hh
  have hcol : ¬(':' = '.') := by decide
  have hpos : 0 < maxKeyLen [(h ++ ":" ++ d1, v1), (h ++ ":" ++ d2, v2)] := by
    have h1 : 0 < (h ++ ":" ++ d1).length := by
      rw [String.length_append, String.length_append]
      have : (":" : String).length = 1 := rfl
      omega
    simp only [maxKeyLen, List.map_cons, List.map_nil, List.foldr_cons, List.foldr_nil]
    omega
  obtain ⟨m, hm⟩ : ∃ m, maxKeyLen [(h ++ ":" ++ d1, v1), (h ++ ":" ++ d2, v2)] = m + 1 :=
    ⟨maxKeyLen [(h ++ ":" ++ d1, v1), (h ++ ":" ++ d2, v2)] - 1, by omega⟩
  rw [expandDots]
  simp only [List.isEmpty_cons, Bool.false_eq_true, if_false, expandInto, hm]
  simp [expandIntoB, expandDots1, expandDots1Aux, hs1, hs2, hd1, hd2, if_neg hcol,
    alookup, alookup_cons, List.find?, pyUpdate, if_neg hne, exceptList, convertGroup,
    parseKeys, hp1, hp2, sortByKey, insertByKey, lt_self_iff_false]

/-- Witness for C10 at `{'a:1': 'x', 'a:01': 'y'}`. -/
theorem c10_witness :
    splitFirstDelim "a" = Option.none ∧ splitFirstDelim "1" = Option.none ∧
    splitFirstDelim "01" = Option.none ∧ "1" ≠ "01" ∧
    pyInt? "1" = some 1 ∧ pyInt? "01" = some 1 ∧
    expandDots [("a" ++ ":" ++ "1", Val.str "x"), ("a" ++ ":" ++ "01", Val.str "y")] =
      .ok (Val.dict [("a", Val.list [Val.str "x", Val.str "y"])]) :=
  ⟨rfl, rfl, rfl, by decide, rfl, rfl,
    c10_equal_int_fragments_not_collapsed "a" "1" "01" 1 (Val.str "x") (Val.str "y")
      rfl rfl rfl (by decide) rfl rfl⟩

/-! Generic facts about `exceptList`. -/
theorem exceptList_ok_length {ε α β : Type} {f : α → Except ε β} :
    ∀ {l : List α} {bs : List β}, exceptList f l = .ok bs → bs.length = l.length := by
  intro l
  induction l with
  | nil =>
      intro bs h
      simp only [exceptList] at h
      cases h
      rfl
  | cons a as ih =>
      intro bs h
      simp only [exceptList] at h
      rcases hfa : f a with e | b
      · rw [hfa] at h
        cases h
      · rw [hfa] at h
        rcases hrest : exceptList f as with e | bs' ;
        · rw [hrest] at h
          cases h
        · rw [hrest] at h
          cases h
          simp [ih hrest]

theorem exceptList_ok_get {ε α β : Type} {f : α → Except ε β} :
    ∀ {l : List α} {bs : List β}, exceptList f l = .ok bs →
      ∀ i (hi : i < l.length) (hb : i < bs.length),
        f (l.get ⟨i, hi⟩) = .ok (bs.get ⟨i, hb⟩) := by
  intro l
  induction l with
  | nil =>
      intro bs h i hi
      exact absurd hi (Nat.not_lt_zero i)
  | cons a as ih =>
      intro bs h i hi hb
      simp only [exceptList] at h
      rcases hfa : f a with e | b
      · rw [hfa] at h
        cases h
      · rw [hfa] at h
        rcases hrest : exceptList f as with e | bs'
        · rw [hrest] at h
          cases h
        · rw [hrest] at h
          cases h
          cases i with
          | zero => exact hfa
          | succ j => exact ih hrest j (Nat.lt_of_succ_lt_succ hi) (Nat.lt_of_succ_lt_succ hb)

/-! Basic shape of a constructed bound field. -/
theorem mkFieldB_ok_basic {fuel : Nat} {s : Schema} {data : Val} {fn : String}
    {nameOv : Option PyName} {f : Field} (h : mkFieldB fuel s data fn nameOv = .ok f) :
    f.schema = s ∧ f.name = nameOv.getD s.name ∧ f.full_name = fn ∧
    f.raw_data = s.pre_processor data ∧ f.clean_data = Option.none ∧
    f.error = Option.none := by
  cases fuel with
  | zero => cases h
  | succ fuel =>
      cases s with
      | leafS nm v pp =>
          cases h
          exact ⟨rfl, rfl, rfl, rfl, rfl, rfl⟩
      | mapS nm cs v pp =>
          simp only [mkFieldB] at h
          split at h
          · cases h
          · cases h
            exact ⟨rfl, rfl, rfl, rfl, rfl, rfl⟩
      | seqS nm c v pp =>
          simp only [mkFieldB] at h
          split at h
          · split at h
            · cases h
            · split at h
              · cases h
              · cases h
                exact ⟨rfl, rfl, rfl, rfl, rfl, rfl⟩
          · split at h
            · cases h
            · cases h
              exact ⟨rfl, rfl, rfl, rfl, rfl, rfl⟩

/-- Truthy iterable values have at least one element. -/
theorem pyElems_ne_nil {v : Val} {elems : List Val} (ht : truthy v = true)
    (he : pyElems v = .ok elems) : elems ≠ [] := by
  cases v with
  | none => cases ht
  | int n => cases he
  | err m c => cases he
  | str s =>
      simp only [pyElems] at he
      cases he
      simp only [truthy, bne_iff_ne, ne_eq] at ht
      simp only [ne_eq, List.map_eq_nil_iff]
      intro hc
      apply ht
      cases s with
      | mk d =>
          cases hc
          rfl
  | list xs =>
      simp only [pyElems] at he
      cases he
      simp only [truthy, Bool.not_eq_true'] at ht
      exact List.isEmpty_eq_false.mp ht
  | dict xs =>
      simp only [pyElems] at he
      cases he
      simp only [truthy, Bool.not_eq_true'] at ht
      simp only [ne_eq, List.map_eq_nil_iff]
      exact List.isEmpty_eq_false.mp ht

/-- **C6** (status: confirmed).  For every bound field constructed over a
sequence-shaped schema: with truthy pre-processed `raw_data`, exactly one
child per data element, named by index `0..n-1` and `full_name` suffixed
`:<index>`; otherwise exactly one placeholder child built from the child
schema with no data and `full_name` suffixed `:0` — never zero
children. -/
theorem c6_sequence_field_children (nm : PyName) (c : Schema) (v : Validator)
    (pp : Val → Val) (data : Val) (fn : String) (nameOv : Option PyName) (f : Field)
    (hmk : mkField (Schema.seqS nm c v pp) data fn nameOv = .ok f) :
    f.children ≠ [] ∧
    (truthy (pp data) = true →
      ∃ elems, pyElems (pp data) = .ok elems ∧
        f.children.length = elems.length ∧
        ∀ i (hi : i < f.children.length) (hi' : i < elems.length),
          (f.children.get ⟨i, hi⟩).name = PyName.int i ∧
          (f.children.get ⟨i, hi⟩).full_name = fn ++ ":" ++ toString i ∧
          mkField c (elems.get ⟨i, hi'⟩) (fn ++ ":" ++ toString i)
            (some (PyName.int i)) = .ok (f.children.get ⟨i, hi⟩)) ∧
    (truthy (pp data) = false →
      ∃ k, mkField c Val.none (fn ++ ":0") Option.none = .ok k ∧ f.children = [k]) := by
  rw [mkField, show schemaSize (Schema.seqS nm c v pp) = schemaSize c + 1 from rfl] at hmk
  simp only [mkFieldB] at hmk
  split at hmk
  · rename_i ht
    split at hmk
    · cases hmk
    · rename_i elems hel
      split at hmk
      · cases hmk
      · rename_i kids hkids
        cases hmk
        have hlen : kids.length = elems.length := by
          rw [exceptList_ok_length hkids, List.enum_length]
        refine ⟨?_, ?_, ?_⟩
        · have hne := pyElems_ne_nil ht hel
          simp only [Field.children, ne_eq]
          intro hc
          apply hne
          rw [← List.length_eq_zero, ← hlen, hc]
          rfl
        · intro _
          refine ⟨elems, hel, by simpa [Field.children] using hlen, ?_⟩
          intro i hi hi'
          simp only [Field.children] at hi ⊢
          have hienum : i < elems.enum.length := by
            rw [List.enum_length]
            exact hi'
          have hget := exceptList_ok_get hkids i hienum hi
          simp only [List.get_eq_getElem, List.getElem_enum] at hget
          have hbasic := mkFieldB_ok_basic hget
          exact ⟨hbasic.2.1, hbasic.2.2.1, by
            rw [mkField]
            simpa using hget⟩
        · intro hf
          rw [ht] at hf
          cases hf
  · rename_i ht
    split at hmk
    · cases hmk
    · rename_i k hk
      cases hmk
      refine ⟨by simp [Field.children], ?_, ?_⟩
      · intro htr
        exact absurd htr ht
      · intro _
        exact ⟨k, by rw [mkField]; exact hk, by simp [Field.children]⟩

/-! Fuel irrelevance: any fuel of at least `schemaSize` computes the same
result, for both `validateB` and `mkFieldB`. -/
theorem schemaSize_pos (s : Schema) : 1 ≤ schemaSize s := by
  cases s <;> simp [schemaSize]

theorem schemaSize_le_list {cs : List (String × Schema)} {p : String × Schema}
    (h : p ∈ cs) : schemaSize p.2 ≤ schemaSizeList cs := by
  induction cs with
  | nil => cases h
  | cons q rest ih =>
      cases h with
      | head =>
          simp only [schemaSizeList]
          omega
      | tail _ hmem =>
          have := ih hmem
          simp only [schemaSizeList]
          omega

theorem exceptList_congr {ε α β : Type} {f g : α → Except ε β} :
    ∀ {l : List α}, (∀ a ∈ l, f a = g a) → exceptList f l = exceptList g l := by
  intro l
  induction l with
  | nil => intro _; rfl
  | cons a as ih =>
      intro h
      simp only [exceptList, h a (List.mem_cons_self _ _),
        ih (fun b hb => h b (List.mem_cons_of_mem _ hb))]

theorem validateB_fuel_irrel :
    ∀ {fuel₁ fuel₂ : Nat} {s : Schema} {data : Val},
      schemaSize s ≤ fuel₁ → schemaSize s ≤ fuel₂ →
      validateB fuel₁ s data = validateB fuel₂ s data := by
  intro fuel₁
  induction fuel₁ with
  | zero =>
      intro fuel₂ s data h1 _
      have := schemaSize_pos s
      omega
  | succ fuel₁ ih =>
      intro fuel₂ s data h1 h2
      cases fuel₂ with
      | zero =>
          have := schemaSize_pos s
          omega
      | succ fuel₂ =>
          cases s with
          | leafS nm v pp => rfl
          | mapS nm cs v pp =>
              have hl1 : schemaSizeList cs ≤ fuel₁ := by
                have : schemaSize (Schema.mapS nm cs v pp) = schemaSizeList cs + 1 := rfl
                omega
              have hl2 : schemaSizeList cs ≤ fuel₂ := by
                have : schemaSize (Schema.mapS nm cs v pp) = schemaSizeList cs + 1 := rfl
                omega
              simp only [validateB]
              rw [exceptList_congr (fun nc hnc => ?_)]
              have hle := schemaSize_le_list hnc
              cases pyDictGet (match data with | Val.none => Val.dict [] | other => other)
                  nc.1 with
              | error e => rfl
              | ok sub =>
                  simp only []
                  rw [ih (le_trans hle hl1) (le_trans hle hl2)]
          | seqS nm c v pp =>
              have hc1 : schemaSize c ≤ fuel₁ := by
                have : schemaSize (Schema.seqS nm c v pp) = schemaSize c + 1 := rfl
                omega
              have hc2 : schemaSize c ≤ fuel₂ := by
                have : schemaSize (Schema.seqS nm c v pp) = schemaSize c + 1 := rfl
                omega
              simp only [validateB]
              cases pyElems (match data with | Val.none => Val.list [] | other => other) with
              | error e => rfl
              | ok elems =>
                  simp only []
                  rw [exceptList_congr (fun e he => ih hc1 hc2)]

theorem validate_eq_validateB {fuel : Nat} {s : Schema} {data : Val}
    (h : schemaSize s ≤ fuel) : validate s data = validateB fuel s data :=
  validateB_fuel_irrel (le_refl _) h

theorem mkFieldB_fuel_irrel :
    ∀ {fuel₁ fuel₂ : Nat} {s : Schema} {data : Val} {fn : String} {nameOv : Option PyName},
      schemaSize s ≤ fuel₁ → schemaSize s ≤ fuel₂ →
      mkFieldB fuel₁ s data fn nameOv = mkFieldB fuel₂ s data fn nameOv := by
  intro fuel₁
  induction fuel₁ with
  | zero =>
      intro fuel₂ s data fn nameOv h1 _
      have := schemaSize_pos s
      omega
  | succ fuel₁ ih =>
      intro fuel₂ s data fn nameOv h1 h2
      cases fuel₂ with
      | zero =>
          have := schemaSize_pos s
          omega
      | succ fuel₂ =>
          cases s with
          | leafS nm v pp => rfl
          | mapS nm cs v pp =>
              have hl1 : schemaSizeList cs ≤ fuel₁ := by
                have : schemaSize (Schema.mapS nm cs v pp) = schemaSizeList cs + 1 := rfl
                omega
              have hl2 : schemaSizeList cs ≤ fuel₂ := by
                have : schemaSize (Schema.mapS nm cs v pp) = schemaSizeList cs + 1 := rfl
                omega
              simp only [mkFieldB]
              rw [exceptList_congr (fun nc hnc => ?_)]
              have hle := schemaSize_le_list hnc
              cases sliceByName (pp data) nc.2.name with
              | error e => rfl
              | ok sliced =>
                  cases nc.2.name with
                  | int n => rfl
                  | str s =>
                      simp only []
                      rw [ih (le_trans hle hl1) (le_trans hle hl2)]
          | seqS nm c v pp =>
              have hc1 : schemaSize c ≤ fuel₁ := by
                have : schemaSize (Schema.seqS nm c v pp) = schemaSize c + 1 := rfl
                omega
              have hc2 : schemaSize c ≤ fuel₂ := by
                have : schemaSize (Schema.seqS nm c v pp) = schemaSize c + 1 := rfl
                omega
              simp only [mkFieldB]
              by_cases ht : truthy (pp data) = true
              · rw [if_pos ht, if_pos ht]
                cases pyElems (pp data) with
                | error e => rfl
                | ok elems =>
                    simp only []
                    rw [exceptList_congr (fun p hp => ih hc1 hc2)]
              · rw [if_neg ht, if_neg ht]
                rw [ih hc1 hc2]

theorem mkField_eq_mkFieldB {fuel : Nat} {s : Schema} {data : Val} {fn : String}
    {nameOv : Option PyName} (h : schemaSize s ≤ fuel) :
    mkField s data fn nameOv = mkFieldB fuel s data fn nameOv :=
  mkFieldB_fuel_irrel (le_refl _) h

/-- The unfolding of `MapSchema.validate`: children first (each with
full-fuel `validate`), then the node's own validator on the assembled
dict. -/
theorem validate_mapS_eq (nm : PyName) (cs : List (String × Schema)) (v : Validator)
    (pp : Val → Val) (data : Val) :
    validate (Schema.mapS nm cs v pp) data =
      (match mapChildResults cs (defaultMap data) with
       | .error e => .error e
       | .ok results => .ok (runValidator v (Val.dict (dictOf results)))) := by
  have hd : (match data with | Val.none => Val.dict [] | other => other) =
      defaultMap data := rfl
  rw [validate, show schemaSize (Schema.mapS nm cs v pp) = schemaSizeList cs + 1 from rfl]
  simp only [validateB]
  rw [hd, mapChildResults, exceptList_congr (fun nc hnc => ?_)]
  cases pyDictGet (defaultMap data) nc.1 with
  | error e => rfl
  | ok sub =>
      simp only []
      rw [← validate_eq_validateB (schemaSize_le_list hnc)]

/-- **C5** (status: confirmed).  `MapSchema.validate` treats missing data
as an empty mapping, computes each named child's validate result on the
data sliced by that name, assembles the results into a mapping, and only
then applies the node's own validator, returning a raised
`ValidationError` as the result; `SequenceSchema.validate` behaves
analogously with missing data as an empty sequence and element results in
input order.  The node's own validator thus never runs before all
children have run to completion. -/
theorem c5_validate_children_before_own_validator (nm : PyName)
    (cs : List (String × Schema)) (v : Validator) (pp : Val → Val)
    (c : Schema) (data : Val) :
    validate (Schema.mapS nm cs v pp) Val.none =
      validate (Schema.mapS nm cs v pp) (Val.dict []) ∧
    validate (Schema.seqS nm c v pp) Val.none =
      validate (Schema.seqS nm c v pp) (Val.list []) ∧
    validate (Schema.mapS nm cs v pp) data =
      (match mapChildResults cs (defaultMap data) with
       | .error e => .error e
       | .ok results => .ok (runValidator v (Val.dict (dictOf results)))) ∧
    validate (Schema.seqS nm c v pp) data =
      (match pyElems (defaultSeq data) with
       | .error e => .error e
       | .ok elems =>
           match seqChildResults c elems with
           | .error e => .error e
           | .ok results => .ok (runValidator v (Val.list results))) ∧
    (∀ (va : Validator) (x : Val) (e : VErr), va x = .error e →
      runValidator va x = Val.err e.message e.clean_data) := by
  refine ⟨rfl, rfl, validate_mapS_eq nm cs v pp data, rfl, ?_⟩
  intro va x e h
  rw [runValidator, h]

/-- Witness for C5 at an empty map schema and a failing validator. -/
theorem c5_witness :
    validate (Schema.mapS (.str "") [] all_children noopPre) Val.none =
        validate (Schema.mapS (.str "") [] all_children noopPre) (Val.dict []) ∧
    runValidator all_children (Val.int 3) = Val.err ensureParentMsg (Val.int 3) :=
  ⟨(c5_validate_children_before_own_validator (.str "") [] all_children noopPre
      (Schema.leafS (.str "") noop noopPre) Val.none).1,
    (c5_validate_children_before_own_validator (.str "") [] all_children noopPre
      (Schema.leafS (.str "") noop noopPre) Val.none).2.2.2.2 all_children
      (Val.int 3) ⟨ensureParentMsg, Val.int 3⟩ rfl⟩

/-- Witness for C6 at `make_from_literal([noop])` bound to `[7]`. -/
theorem c6_witness :
    ∃ f, mkField seqNoopSchema (Val.list [Val.int 7]) "" Option.none = .ok f ∧
      f.children ≠ [] ∧ f.children.length = 1 :=
  ⟨Field.mk seqNoopSchema (PyName.str "") "" (Val.list [Val.int 7])
      [Field.mk (Schema.leafS (.int 0) noop noopPre) (PyName.int 0) ":0" (Val.int 7)
        [] Option.none Option.none] Option.none Option.none,
    rfl,
    (c6_sequence_field_children (.str "") (Schema.leafS (.int 0) noop noopPre)
      all_children noopPre (Val.list [Val.int 7]) "" Option.none _ rfl).1,
    rfl⟩

/-! Dict-comprehension and propagation facts used for C7 and C2. -/
theorem foldl_pyUpdate_eq_append {κ α : Type} [DecidableEq κ] :
    ∀ (l : List (κ × α)) (s0 : List (κ × α)),
      (s0.map Prod.fst ++ l.map Prod.fst).Nodup →
      l.foldl (fun acc p => pyUpdate acc p.1 p.2) s0 = s0 ++ l := by
  intro l
  induction l with
  | nil =>
      intro s0 _
      simp
  | cons p rest ih =>
      intro s0 hnd
      obtain ⟨k, v⟩ := p
      simp only [List.map_cons] at hnd
      have hnd2 := (List.perm_middle.nodup_iff).mp hnd
      rw [List.nodup_cons] at hnd2
      have hk : k ∉ s0.map Prod.fst := fun hm => hnd2.1 (List.mem_append_left _ hm)
      simp only [List.foldl_cons, pyUpdate_of_not_mem v hk]
      rw [ih (s0 ++ [(k, v)]) (by simpa [List.map_append, List.append_assoc] using hnd)]
      simp

theorem dictOf_nodup {κ α : Type} [DecidableEq κ] (l : List (κ × α))
    (h : (l.map Prod.fst).Nodup) : dictOf l = l := by
  have := foldl_pyUpdate_eq_append l [] (by simpa using h)
  simpa [dictOf] using this

theorem alookup_get_of_nodup {κ α : Type} [DecidableEq κ] :
    ∀ (l : List (κ × α)), (l.map Prod.fst).Nodup → ∀ (i : Nat) (hi : i < l.length),
      alookup l (l.get ⟨i, hi⟩).1 = some (l.get ⟨i, hi⟩).2 := by
  intro l
  induction l with
  | nil =>
      intro _ i hi
      cases hi
  | cons p rest ih =>
      intro hnd i hi
      obtain ⟨k, v⟩ := p
      simp only [List.map_cons, List.nodup_cons] at hnd
      cases i with
      | zero => simp [List.get_eq_getElem, alookup_cons]
      | succ j =>
          have hj : j < rest.length := Nat.lt_of_succ_lt_succ hi
          have hmem : (rest.get ⟨j, hj⟩).1 ∈ rest.map Prod.fst :=
            List.mem_map_of_mem Prod.fst (rest.get_mem j hj)
          have hk : k ≠ (rest.get ⟨j, hj⟩).1 := by
            intro he
            exact hnd.1 (he ▸ hmem)
          simp only [List.get_eq_getElem, List.getElem_cons_succ]
          rw [alookup_cons]
          simp only [List.get_eq_getElem] at hk ih
          rw [if_neg hk, ih hnd.2 j hj]

theorem mapChildResults_ok :
    ∀ {cs : List (String × Schema)} {d : Val} {results : List (String × Val)},
      mapChildResults cs d = .ok results →
      results.map Prod.fst = cs.map Prod.fst ∧
      ∀ i (hi : i < cs.length) (hi' : i < results.length),
        ∃ sub, pyDictGet d (cs.get ⟨i, hi⟩).1 = .ok sub ∧
          validate (cs.get ⟨i, hi⟩).2 sub = .ok (results.get ⟨i, hi'⟩).2 := by
  intro cs
  induction cs with
  | nil =>
      intro d results h
      cases h
      exact ⟨rfl, fun i hi => absurd hi (Nat.not_lt_zero i)⟩
  | cons nc rest ih =>
      intro d results h
      obtain ⟨n, c⟩ := nc
      simp only [mapChildResults, exceptList] at h
      split at h
      · cases h
      · rename_i p hp
        split at h
        · cases h
        · rename_i ps hps
          cases h
          have hrest : mapChildResults rest d = .ok ps := hps
          obtain ⟨hkeys, hitems⟩ := ih hrest
          -- invert the head computation
          split at hp
          · cases hp
          · rename_i sub hsub
            split at hp
            · cases hp
            · rename_i r hr
              cases hp
              constructor
              · simp [hkeys]
              · intro i hi hi'
                cases i with
                | zero => exact ⟨sub, hsub, hr⟩
                | succ j =>
                    have hj : j < rest.length := Nat.lt_of_succ_lt_succ hi
                    have hj' : j < ps.length := Nat.lt_of_succ_lt_succ hi'
                    simpa using hitems j hj hj'

theorem propagate_sets {k : Field} {rv : Val} {bk : Bool} {k' : Field}
    (h : propagate k rv = .ok (bk, k')) :
    (∀ m cl, rv = Val.err m cl →
        bk = false ∧ k'.error = some m ∧ k'.clean_data = k.clean_data) ∧
    (isErr rv = false → bk = true ∧ k'.clean_data = some rv ∧ k'.error = k.error) := by
  obtain ⟨s, nm, fn, raw, kids, cd, er⟩ := k
  cases rv with
  | err m cl =>
      constructor
      · intro m' cl' he
        cases he
        simp only [propagate] at h
        split at h
        · cases h
          exact ⟨rfl, rfl, rfl⟩
        · split at h
          · cases h
          · cases h
            exact ⟨rfl, rfl, rfl⟩
      · intro hne
        cases hne
  | none =>
      refine ⟨fun m cl he => Val.noConfusion he, fun _ => ?_⟩
      simp only [propagate] at h
      cases h
      exact ⟨rfl, rfl, rfl⟩
  | str s0 =>
      refine ⟨fun m cl he => Val.noConfusion he, fun _ => ?_⟩
      simp only [propagate] at h
      split at h
      · cases h
      · cases h
        exact ⟨rfl, rfl, rfl⟩
  | int n0 =>
      refine ⟨fun m cl he => Val.noConfusion he, fun _ => ?_⟩
      simp only [propagate] at h
      split at h
      · cases h
      · cases h
        exact ⟨rfl, rfl, rfl⟩
  | list xs =>
      refine ⟨fun m cl he => Val.noConfusion he, fun _ => ?_⟩
      simp only [propagate] at h
      split at h
      · cases h
      · cases h
        exact ⟨rfl, rfl, rfl⟩
  | dict xs =>
      refine ⟨fun m cl he => Val.noConfusion he, fun _ => ?_⟩
      simp only [propagate] at h
      split at h
      · cases h
      · cases h
        exact ⟨rfl, rfl, rfl⟩

theorem propagateList_ok :
    ∀ {ks : List Field} {data : Val} {ks' : List Field},
      propagateList ks data = .ok ks' →
      ks'.length = ks.length ∧
      ∀ i (hi : i < ks.length) (hi' : i < ks'.length),
        ∃ sub b, pySubscript data (ks.get ⟨i, hi⟩).name = .ok sub ∧
          propagate (ks.get ⟨i, hi⟩) sub = .ok (b, ks'.get ⟨i, hi'⟩) := by
  intro ks
  induction ks with
  | nil =>
      intro data ks' h
      cases h
      exact ⟨rfl, fun i hi => absurd hi (Nat.not_lt_zero i)⟩
  | cons k rest ih =>
      intro data ks' h
      simp only [propagateList] at h
      split at h
      · cases h
      · rename_i sub hsub
        split at h
        · cases h
        · rename_i b0 k0 hpr
          split at h
          · cases h
          · rename_i rest' hrest
            cases h
            obtain ⟨hlen, hitems⟩ := ih hrest
            refine ⟨by simp [hlen], ?_⟩
            intro i hi hi'
            cases i with
            | zero => exact ⟨sub, b0, hsub, hpr⟩
            | succ j =>
                have hj : j < rest.length := Nat.lt_of_succ_lt_succ hi
                have hj' : j < rest'.length := Nat.lt_of_succ_lt_succ hi'
                simpa using hitems j hj hj'

/-- Inversion of one item of the map-children comprehension in
`mkFieldB`. -/
theorem buildMapChild_ok {fuel : Nat} {raw : Val} {fnPre : String}
    {nc : String × Schema} {pr : PyName × Field}
    (hx : (match sliceByName raw nc.2.name with
           | .error e => .error e
           | .ok sliced =>
               match nc.2.name with
               | .int _ => .error PyErr.typeError
               | .str s =>
                   match mkFieldB fuel nc.2 sliced (fnPre ++ s) Option.none with
                   | .error e => .error e
                   | .ok f => .ok (PyName.str s, f) :
          Except PyErr (PyName × Field)) = .ok pr) :
    ∃ s sliced, nc.2.name = PyName.str s ∧ sliceByName raw nc.2.name = .ok sliced ∧
      mkFieldB fuel nc.2 sliced (fnPre ++ s) Option.none = .ok pr.2 ∧
      pr.1 = PyName.str s := by
  split at hx
  · cases hx
  · rename_i sliced hsliced
    split at hx
    · cases hx
    · rename_i s hname
      split at hx
      · cases hx
      · rename_i fld hfld
        cases hx
        exact ⟨s, sliced, hname, hsliced, hfld, rfl⟩

/-- **C7** (status: confirmed).  A map-schema field with the
`all_children` validator whose bound data makes at least one child's
validation fail: `is_valid()` returns false on the parent, sets the
parent's error, and each child still carries its own outcome — a failing
child has its error set and `clean_data` unset, a succeeding sibling
carries its cleaned value with no error. -/
theorem c7_all_children_failing_child_fails_parent
    (nm : PyName) (cs : List (String × Schema)) (pp : Val → Val) (data : Val)
    (fn : String) (nameOv : Option PyName)
    (f : Field) (b : Bool) (f' : Field) (results : List (String × Val))
    (hnames : ∀ p ∈ cs, (p.2).name = PyName.str p.1)
    (hnodup : (cs.map Prod.fst).Nodup)
    (hmk : mkField (Schema.mapS nm cs all_children pp) data fn nameOv = .ok f)
    (hres : mapChildResults cs (defaultMap (pp data)) = .ok results)
    (hfail : results.any (fun p => isErr p.2) = true)
    (hv : isValid f = .ok (b, f')) :
    b = false ∧ f'.error.isSome = true ∧
    f'.children.length = results.length ∧
    ∀ i (hi : i < f'.children.length) (hi' : i < results.length),
      (isErr (results.get ⟨i, hi'⟩).2 = true →
        (f'.children.get ⟨i, hi⟩).error.isSome = true ∧
        (f'.children.get ⟨i, hi⟩).clean_data = Option.none) ∧
      (isErr (results.get ⟨i, hi'⟩).2 = false →
        (f'.children.get ⟨i, hi⟩).clean_data = some (results.get ⟨i, hi'⟩).2 ∧
        (f'.children.get ⟨i, hi⟩).error = Option.none) := by
  -- facts about the assembled child results
  have hrkeys := (mapChildResults_ok hres).1
  have hrlen : results.length = cs.length := by
    have := congrArg List.length hrkeys
    simpa using this
  have hrnodup : (results.map Prod.fst).Nodup := hrkeys ▸ hnodup
  -- invert the construction of the bound field
  rw [mkField,
    show schemaSize (Schema.mapS nm cs all_children pp) = schemaSizeList cs + 1 from rfl]
    at hmk
  simp only [mkFieldB] at hmk
  split at hmk
  · cases hmk
  · rename_i pairs hpairs
    cases hmk
    have hplen : pairs.length = cs.length := exceptList_ok_length hpairs
    have hpget : ∀ i (hi : i < cs.length) (hip : i < pairs.length),
        (pairs.get ⟨i, hip⟩).1 = PyName.str (cs.get ⟨i, hi⟩).1 ∧
        (pairs.get ⟨i, hip⟩).2.name = PyName.str (cs.get ⟨i, hi⟩).1 ∧
        (pairs.get ⟨i, hip⟩).2.clean_data = Option.none ∧
        (pairs.get ⟨i, hip⟩).2.error = Option.none := by
      intro i hi hip
      have hx := exceptList_ok_get hpairs i hi hip
      obtain ⟨s, sliced, hname, _, hfld, hfst⟩ := buildMapChild_ok hx
      have hkey : PyName.str s = PyName.str (cs.get ⟨i, hi⟩).1 := by
        rw [← hname]
        exact hnames (cs.get ⟨i, hi⟩) (cs.get_mem i hi)
      have hbasic := mkFieldB_ok_basic hfld
      refine ⟨hfst.trans hkey, ?_, hbasic.2.2.2.2.1, hbasic.2.2.2.2.2⟩
      rw [hbasic.2.1]
      simp only [Option.getD]
      rw [hname, hkey]
    -- the children list of the constructed field
    have hpfst : pairs.map Prod.fst = cs.map (fun p => PyName.str p.1) := by
      apply List.ext_get (by simp [hplen])
      intro i h1 h2
      simp only [List.get_eq_getElem, List.getElem_map]
      have hip : i < pairs.length := by simpa using h1
      have hic : i < cs.length := by simpa using h2
      simpa [List.get_eq_getElem] using (hpget i hic hip).1
    have hpnodup : (pairs.map Prod.fst).Nodup := by
      rw [hpfst, show cs.map (fun p => PyName.str p.1) =
        (cs.map Prod.fst).map PyName.str from by simp [List.map_map]]
      exact hnodup.map (fun a b hab => by cases hab; rfl)
    have hdict : dictOf pairs = pairs := dictOf_nodup pairs hpnodup
    -- evaluate validate and invert is_valid
    rw [isValid] at hv
    have hsch : (Field.mk (Schema.mapS nm cs all_children pp) (nameOv.getD nm) fn
        (pp data) ((dictOf pairs).map (fun p => p.2)) Option.none Option.none).schema =
        Schema.mapS nm cs all_children pp := rfl
    rw [hsch, show (Field.mk (Schema.mapS nm cs all_children pp) (nameOv.getD nm) fn
        (pp data) ((dictOf pairs).map (fun p => p.2)) Option.none
        Option.none).raw_data = pp data from rfl] at hv
    rw [validate_mapS_eq, hres] at hv
    dsimp only at hv
    have hdr : dictOf results = results := dictOf_nodup results hrnodup
    rw [hdr] at hv
    have hval : runValidator all_children (Val.dict results) =
        Val.err "" (Val.dict results) := by
      rw [runValidator, all_children]
      simp only [isParent, if_true]
      rw [if_pos hfail]
    rw [hval] at hv
    simp only [propagate, hdict] at hv
    split at hv
    · cases hv
    · rename_i kids hkids
      cases hv
      obtain ⟨hklen, hkitems⟩ := propagateList_ok hkids
      have hchlen : (pairs.map (fun p : PyName × Field => p.2)).length = cs.length := by
        simp [hplen]
      refine ⟨rfl, rfl, ?_, ?_⟩
      · simp only [Field.children]
        rw [hklen, hchlen, hrlen]
      · intro i hi hi'
        simp only [Field.children] at hi ⊢
        have hic : i < cs.length := by
          rw [← hklen] at hchlen
          omega
        have hip : i < pairs.length := by omega
        have hipm : i < (pairs.map (fun p : PyName × Field => p.2)).length := by
          simpa using hip
        obtain ⟨sub, b0, hsub, hprop⟩ := hkitems i hipm hi
        -- the child's name and the subscripted value
        have hchild : (pairs.map (fun p : PyName × Field => p.2)).get ⟨i, hipm⟩ =
            (pairs.get ⟨i, hip⟩).2 := by
          simp [List.get_eq_getElem]
        obtain ⟨hfst_i, hname_i, hcd_i, her_i⟩ := hpget i hic hip
        have hrkey_i : (results.get ⟨i, hi'⟩).1 = (cs.get ⟨i, hic⟩).1 := by
          have hb1 : i < (results.map Prod.fst).length := by simpa using hi'
          have hb2 : i < (cs.map Prod.fst).length := by simpa using hic
          have h1 : (results.map Prod.fst)[i] = (cs.map Prod.fst)[i] := by
            simp only [hrkeys]
          simpa [List.get_eq_getElem] using h1
        have hsub_eq : sub = (results.get ⟨i, hi'⟩).2 := by
          rw [hchild, hname_i] at hsub
          have halo := alookup_get_of_nodup results hrnodup i hi'
          rw [hrkey_i] at halo
          simp only [pySubscript, halo] at hsub
          exact (Except.ok.inj hsub).symm
        rw [hchild] at hprop
        have hsets := propagate_sets hprop
        constructor
        · intro herr
          rcases hr : (results.get ⟨i, hi'⟩).2 with _ | _ | _ | _ | _ | ⟨m, cl⟩
          · rw [hr] at herr
            cases herr
          · rw [hr] at herr
            cases herr
          · rw [hr] at herr
            cases herr
          · rw [hr] at herr
            cases herr
          · rw [hr] at herr
            cases herr
          · have := hsets.1 m cl (by rw [hsub_eq, hr])
            refine ⟨?_, ?_⟩
            · rw [this.2.1]
              rfl
            · rw [this.2.2, hcd_i]
        · intro hok
          have := hsets.2 (by rw [hsub_eq]; exact hok)
          exact ⟨by rw [this.2.1, hsub_eq], by rw [this.2.2, her_i]⟩

/-- Witness for C7: a two-child map where `key1` requires a non-null
value and the bound data omits it. -/
theorem c7_witness :
    ∃ f f',
      mkField
          (Schema.mapS (.str "")
            [("key1", Schema.leafS (.str "key1")
                (fun v => match v with
                  | Val.none => .error ⟨"required", Val.none⟩
                  | x => .ok x) noopPre),
             ("key2", Schema.leafS (.str "key2") noop noopPre)]
            all_children noopPre)
          (Val.dict [("key2", Val.int 5)]) "" Option.none = .ok f ∧
      isValid f = .ok (false, f') ∧ f'.error.isSome = true := by
  refine ⟨_, _, rfl, rfl, ?_⟩
  exact (c7_all_children_failing_child_fails_parent (.str "")
      [("key1", Schema.leafS (.str "key1")
          (fun v => match v with
            | Val.none => .error ⟨"required", Val.none⟩
            | x => .ok x) noopPre),
       ("key2", Schema.leafS (.str "key2") noop noopPre)]
      noopPre (Val.dict [("key2", Val.int 5)]) "" Option.none _ false _
      [("key1", Val.err "required" Val.none), ("key2", Val.int 5)]
      (by
        intro p hp
        rcases List.mem_cons.mp hp with rfl | hp2
        · rfl
        · rcases List.mem_cons.mp hp2 with rfl | h3
          · rfl
          · cases h3)
      (by decide) rfl rfl rfl rfl).2.1

/-! Facts about well-formed noop-schema data (for C2). -/
theorem list_all_congr {α : Type} {f g : α → Bool} :
    ∀ {l : List α}, (∀ a ∈ l, f a = g a) → l.all f = l.all g := by
  intro l
  induction l with
  | nil => intro _; rfl
  | cons a as ih =>
      intro h
      simp only [List.all_cons, h a (List.mem_cons_self _ _),
        ih (fun b hb => h b (List.mem_cons_of_mem _ hb))]

theorem wellFormedB_fuel_irrel :
    ∀ {fuel₁ fuel₂ : Nat} {s : Schema} {v : Val},
      schemaSize s ≤ fuel₁ → schemaSize s ≤ fuel₂ →
      wellFormedB fuel₁ s v = wellFormedB fuel₂ s v := by
  intro fuel₁
  induction fuel₁ with
  | zero =>
      intro fuel₂ s v h1 _
      have := schemaSize_pos s
      omega
  | succ fuel₁ ih =>
      intro fuel₂ s v h1 h2
      cases fuel₂ with
      | zero =>
          have := schemaSize_pos s
          omega
      | succ fuel₂ =>
          cases s with
          | leafS nm va pp => rfl
          | mapS nm cs va pp =>
              have hl1 : schemaSizeList cs ≤ fuel₁ := by
                have : schemaSize (Schema.mapS nm cs va pp) = schemaSizeList cs + 1 := rfl
                omega
              have hl2 : schemaSizeList cs ≤ fuel₂ := by
                have : schemaSize (Schema.mapS nm cs va pp) = schemaSizeList cs + 1 := rfl
                omega
              cases v with
              | dict es =>
                  simp only [wellFormedB]
                  rw [list_all_congr (fun p hp => ?_)]
                  have hmem := (List.of_mem_zip hp).1
                  have hle := schemaSize_le_list hmem
                  exact ih (le_trans hle hl1) (le_trans hle hl2)
              | none => rfl
              | str s0 => rfl
              | int n0 => rfl
              | list xs => rfl
              | err m c => rfl
          | seqS nm c va pp =>
              have hc1 : schemaSize c ≤ fuel₁ := by
                have : schemaSize (Schema.seqS nm c va pp) = schemaSize c + 1 := rfl
                omega
              have hc2 : schemaSize c ≤ fuel₂ := by
                have : schemaSize (Schema.seqS nm c va pp) = schemaSize c + 1 := rfl
                omega
              cases v with
              | list xs =>
                  simp only [wellFormedB]
                  rw [list_all_congr (fun x hx => ih hc1 hc2)]
              | none => rfl
              | str s0 => rfl
              | int n0 => rfl
              | dict es => rfl
              | err m c0 => rfl

theorem wellFormed_map_eq (nm : PyName) (cs : List (String × Schema)) (va : Validator)
    (pp : Val → Val) (es : List (String × Val)) :
    wellFormed (Schema.mapS nm cs va pp) (Val.dict es) =
      (decide (es.map Prod.fst = cs.map Prod.fst) &&
        (List.zip cs es).all (fun p => wellFormed p.1.2 p.2.2)) := by
  rw [wellFormed, show schemaSize (Schema.mapS nm cs va pp) = schemaSizeList cs + 1 from rfl]
  simp only [wellFormedB]
  rw [list_all_congr (fun p hp => ?_)]
  have hle := schemaSize_le_list (List.of_mem_zip hp).1
  exact wellFormedB_fuel_irrel hle (le_refl _)

theorem wellFormed_seq_eq (nm : PyName) (c : Schema) (va : Validator)
    (pp : Val → Val) (vs : List Val) :
    wellFormed (Schema.seqS nm c va pp) (Val.list vs) =
      ((!vs.isEmpty) && vs.all (wellFormed c)) := by
  rw [wellFormed, show schemaSize (Schema.seqS nm c va pp) = schemaSize c + 1 from rfl]
  simp only [wellFormedB]
  rfl

/-- Well-formed values are never `ValidationError` instances. -/
theorem wellFormed_not_err {s : Schema} {v : Val} (h : wellFormed s v = true) :
    isErr v = false := by
  cases s with
  | leafS nm va pp =>
      cases v <;> first | rfl | cases h
  | mapS nm cs va pp =>
      cases v <;> first | rfl | (rw [wellFormed] at h; cases h)
  | seqS nm c va pp =>
      cases v <;> first | rfl | (rw [wellFormed] at h; cases h)

theorem alookup_mem_of_nodup {κ α : Type} [DecidableEq κ] :
    ∀ {l : List (κ × α)}, (l.map Prod.fst).Nodup → ∀ p ∈ l, alookup l p.1 = some p.2 := by
  intro l
  induction l with
  | nil =>
      intro _ p hp
      cases hp
  | cons q rest ih =>
      intro hnd p hp
      obtain ⟨k, v⟩ := q
      simp only [List.map_cons, List.nodup_cons] at hnd
      cases hp with
      | head => simp [alookup_cons]
      | tail _ hmem =>
          have hk : ¬k = p.1 := by
            intro he
            exact hnd.1 (he ▸ List.mem_map_of_mem Prod.fst hmem)
          rw [alookup_cons, if_neg hk, ih hnd.2 p hmem]

theorem exceptList_id_of {ε : Type} {F : Val → Except ε Val} :
    ∀ {vs : List Val}, (∀ v ∈ vs, F v = .ok v) → exceptList F vs = .ok vs := by
  intro vs
  induction vs with
  | nil => intro _; rfl
  | cons v rest ih =>
      intro h
      simp only [exceptList, h v (List.mem_cons_self _ _),
        ih (fun w hw => h w (List.mem_cons_of_mem _ hw))]

theorem values_not_err {cs : List (String × Schema)} {es : List (String × Val)}
    (hall : (List.zip cs es).all (fun p => wellFormed p.1.2 p.2.2) = true)
    (hlen : es.length = cs.length) : ∀ p ∈ es, isErr p.2 = false := by
  intro p hp
  obtain ⟨i, hi, hip⟩ := List.mem_iff_getElem.mp hp
  have hic : i < cs.length := by omega
  have hiz : i < (List.zip cs es).length := by
    rw [List.length_zip]
    omega
  have hzi := List.all_eq_true.mp hall ((List.zip cs es)[i])
    (List.mem_iff_getElem.mpr ⟨i, hiz, rfl⟩)
  rw [List.getElem_zip] at hzi
  rw [← hip]
  exact wellFormed_not_err hzi

/-- The unfolding of `SequenceSchema.validate`. -/
theorem validate_seqS_eq (nm : PyName) (c : Schema) (v : Validator)
    (pp : Val → Val) (data : Val) :
    validate (Schema.seqS nm c v pp) data =
      (match pyElems (defaultSeq data) with
       | .error e => .error e
       | .ok elems =>
           match seqChildResults c elems with
           | .error e => .error e
           | .ok results => .ok (runValidator v (Val.list results))) := rfl

theorem mapChildResults_of {d : Val} :
    ∀ (cs : List (String × Schema)) (es : List (String × Val)),
      es.map Prod.fst = cs.map Prod.fst →
      (∀ p ∈ es, pyDictGet d p.1 = .ok p.2) →
      (∀ i (hi : i < cs.length) (hi' : i < es.length),
        validate (cs.get ⟨i, hi⟩).2 (es.get ⟨i, hi'⟩).2 = .ok (es.get ⟨i, hi'⟩).2) →
      mapChildResults cs d = .ok es := by
  intro cs
  induction cs with
  | nil =>
      intro es hkeys _ _
      cases es with
      | nil => rfl
      | cons p ps => cases hkeys
  | cons nc rest ih =>
      intro es hkeys hget hval
      obtain ⟨k, c⟩ := nc
      cases es with
      | nil => cases hkeys
      | cons p ps =>
          obtain ⟨k', v⟩ := p
          simp only [List.map_cons, List.cons.injEq] at hkeys
          have hk : k' = k := hkeys.1
          subst hk
          simp only [mapChildResults, exceptList]
          rw [hget (k', v) (List.mem_cons_self _ _)]
          have hv0 := hval 0 (by simp) (by simp)
          simp only [List.get_eq_getElem, List.getElem_cons_zero] at hv0
          dsimp only
          rw [hv0]
          have hrest : mapChildResults rest d = .ok ps := by
            apply ih ps hkeys.2 (fun q hq => hget q (List.mem_cons_of_mem _ hq))
            intro i hi hi'
            have := hval (i + 1) (by simpa using Nat.succ_lt_succ hi)
              (by simpa using Nat.succ_lt_succ hi')
            simpa using this
          rw [mapChildResults] at hrest
          rw [hrest]

theorem noopSchemaChildren_mem :
    ∀ {cs : List (String × Schema)}, noopSchemaChildren cs →
      ∀ {p : String × Schema}, p ∈ cs → noopSchema p.2 ∧ p.2.name = PyName.str p.1 := by
  intro cs
  induction cs with
  | nil =>
      intro _ p hp
      cases hp
  | cons q rest ih =>
      obtain ⟨k, c⟩ := q
      intro h p hp
      obtain ⟨hn, hs, hrest⟩ := h
      cases hp with
      | head => exact ⟨hs, hn⟩
      | tail _ hmem => exact ih hrest hmem

/-- Validation of well-formed data under a noop schema is the identity. -/
theorem noop_validate :
    ∀ (N : Nat) (s : Schema) (data : Val), schemaSize s ≤ N → noopSchema s →
      wellFormed s data = true → validate s data = .ok data := by
  intro N
  induction N with
  | zero =>
      intro s data h _ _
      have := schemaSize_pos s
      omega
  | succ N ih =>
      intro s data hsz hns hwf
      cases s with
      | leafS nm va pp =>
          obtain ⟨hv, hpp⟩ := hns
          subst hv
          rfl
      | mapS nm cs va pp =>
          obtain ⟨hv, hpp, hnd, hch⟩ := hns
          subst hv
          cases data with
          | dict es =>
              rw [wellFormed_map_eq] at hwf
              have hkeys : es.map Prod.fst = cs.map Prod.fst := by
                have := (Bool.and_eq_true _ _).mp hwf
                exact of_decide_eq_true this.1
              have hzip : (List.zip cs es).all (fun p => wellFormed p.1.2 p.2.2) = true :=
                ((Bool.and_eq_true _ _).mp hwf).2
              have hlen : es.length = cs.length := by
                have := congrArg List.length hkeys
                simpa using this
              have hesnd : (es.map Prod.fst).Nodup := hkeys ▸ hnd
              have hszl : schemaSizeList cs ≤ N := by
                have : schemaSize (Schema.mapS nm cs all_children pp) =
                    schemaSizeList cs + 1 := rfl
                omega
              rw [validate_mapS_eq]
              have hres : mapChildResults cs (defaultMap (Val.dict es)) = .ok es := by
                apply mapChildResults_of cs es hkeys
                · intro p hp
                  show pyDictGet (Val.dict es) p.1 = .ok p.2
                  rw [pyDictGet, alookup_mem_of_nodup hesnd p hp]
                  rfl
                · intro i hi hi'
                  have hiz : i < (List.zip cs es).length := by
                    rw [List.length_zip]
                    omega
                  have hzi := List.all_eq_true.mp hzip ((List.zip cs es)[i])
                    (List.mem_iff_getElem.mpr ⟨i, hiz, rfl⟩)
                  rw [List.getElem_zip] at hzi
                  have hcm : (cs.get ⟨i, hi⟩) ∈ cs := cs.get_mem i hi
                  apply ih (cs.get ⟨i, hi⟩).2 (es.get ⟨i, hi'⟩).2
                    (le_trans (schemaSize_le_list hcm) hszl)
                  · exact (noopSchemaChildren_mem hch hcm).1
                  · simpa [List.get_eq_getElem] using hzi
              rw [hres]
              dsimp only
              have hnoerr : (es.any fun p => isErr p.2) = false :=
                List.any_eq_false.mpr (fun p hp => by
                  rw [values_not_err hzip hlen p hp]
                  exact Bool.false_ne_true)
              rw [dictOf_nodup es hesnd]
              have hac : all_children (Val.dict es) = .ok (Val.dict es) := by
                simp [all_children, isParent, hnoerr]
              rw [runValidator, hac]
          | none => rw [wellFormed] at hwf; cases hwf
          | str s0 => rw [wellFormed] at hwf; cases hwf
          | int n0 => rw [wellFormed] at hwf; cases hwf
          | list xs => rw [wellFormed] at hwf; cases hwf
          | err m c0 => rw [wellFormed] at hwf; cases hwf
      | seqS nm c va pp =>
          obtain ⟨hv, hpp, hcns⟩ := hns
          subst hv
          cases data with
          | list vs =>
              rw [wellFormed_seq_eq] at hwf
              have hall : vs.all (wellFormed c) = true :=
                ((Bool.and_eq_true _ _).mp hwf).2
              have hsc : schemaSize c ≤ N := by
                have : schemaSize (Schema.seqS nm c all_children pp) =
                    schemaSize c + 1 := rfl
                omega
              rw [validate_seqS_eq]
              have hres : seqChildResults c vs = .ok vs := by
                rw [seqChildResults]
                apply exceptList_id_of
                intro v hv0
                exact ih c v hsc hcns (List.all_eq_true.mp hall v hv0)
              simp only [show defaultSeq (Val.list vs) = Val.list vs from rfl,
                show pyElems (Val.list vs) = .ok vs from rfl, hres]
              have hnoerr : vs.any isErr = false :=
                List.any_eq_false.mpr (fun v hv0 => by
                  rw [wellFormed_not_err (List.all_eq_true.mp hall v hv0)]
                  exact Bool.false_ne_true)
              have hac : all_children (Val.list vs) = .ok (Val.list vs) := by
                simp [all_children, isParent, hnoerr]
              rw [runValidator, hac]
          | none => rw [wellFormed] at hwf; cases hwf
          | str s0 => rw [wellFormed] at hwf; cases hwf
          | int n0 => rw [wellFormed] at hwf; cases hwf
          | dict es => rw [wellFormed] at hwf; cases hwf
          | err m c0 => rw [wellFormed] at hwf; cases hwf

theorem pySubscript_list_nat (xs : List Val) (i : Nat) (hi : i < xs.length) :
    pySubscript (Val.list xs) (PyName.int i) = .ok (xs.get ⟨i, hi⟩) := by
  have h0 : ¬((i : Int) < 0) := by omega
  have hcond : 0 ≤ (i : Int) ∧ (i : Int).toNat < xs.length := by
    constructor
    · omega
    · simpa using hi
  simp only [pySubscript, if_neg h0, dif_pos hcond]
  simp [List.get_eq_getElem]

theorem enum_subscript (vs : List Val) :
    ∀ p ∈ vs.enum, pySubscript (Val.list vs) (PyName.int p.1) = .ok p.2 := by
  intro p hp
  obtain ⟨i, hiz, hip⟩ := List.mem_iff_getElem.mp hp
  rw [List.getElem_enum] at hip
  have hil : i < vs.length := by
    have := hiz
    rw [List.enum_length] at this
    exact this
  rw [← hip]
  simpa [List.get_eq_getElem] using pySubscript_list_nat vs i hil

theorem map_children_build (M : Nat) (dFull : List (String × Val)) (fnPre : String) :
    ∀ (cs : List (String × Schema)) (es : List (String × Val)),
      noopSchemaChildren cs →
      es.map Prod.fst = cs.map Prod.fst →
      (List.zip cs es).all (fun p => wellFormed p.1.2 p.2.2) = true →
      (∀ p ∈ es, alookup dFull p.1 = some p.2) →
      (∀ nc ∈ cs, ∀ (v : Val) (fn : String) (nov : Option PyName),
        wellFormed nc.2 v = true →
        ∃ f f', mkFieldB M nc.2 v fn nov = .ok f ∧ propagate f v = .ok (true, f') ∧
          f'.clean_data = some v ∧ f.name = nov.getD nc.2.name) →
      ∃ pairs kids,
        exceptList (fun nc =>
          match sliceByName (Val.dict dFull) nc.2.name with
          | .error e => .error e
          | .ok sliced =>
              match nc.2.name with
              | .int _ => .error PyErr.typeError
              | .str s =>
                  match mkFieldB M nc.2 sliced (fnPre ++ s) Option.none with
                  | .error e => .error e
                  | .ok f => .ok (PyName.str s, f)) cs = .ok pairs ∧
        pairs.map Prod.fst = cs.map (fun p => PyName.str p.1) ∧
        propagateList (pairs.map (fun p => p.2)) (Val.dict dFull) = .ok kids := by
  intro cs
  induction cs with
  | nil =>
      intro es _ hkeys _ _ _
      exact ⟨[], [], rfl, rfl, rfl⟩
  | cons nc rest ih =>
      intro es hch hkeys hzip hlook hIH
      obtain ⟨k, c⟩ := nc
      obtain ⟨hn, hs, hrest⟩ := hch
      cases es with
      | nil => cases hkeys
      | cons p ps =>
          obtain ⟨k', v⟩ := p
          simp only [List.map_cons, List.cons.injEq] at hkeys
          obtain ⟨hk, hkeys2⟩ := hkeys
          subst hk
          simp only [List.zip_cons_cons, List.all_cons, Bool.and_eq_true] at hzip
          have hwfv : wellFormed c v = true := hzip.1
          obtain ⟨f, f', hmk, hprop, hclean, hname⟩ :=
            hIH (k', c) (List.mem_cons_self _ _) v (fnPre ++ k') Option.none hwfv
          have hlookv : alookup dFull k' = some v := hlook (k', v) (List.mem_cons_self _ _)
          have hslice : sliceByName (Val.dict dFull) c.name = .ok v := by
            rw [hn, sliceByName, hlookv]
            rfl
          obtain ⟨pairs2, kids2, hpl, hpf, hkl⟩ := ih ps hrest hkeys2 hzip.2
            (fun q hq => hlook q (List.mem_cons_of_mem _ hq))
            (fun q hq v2 fn2 nov2 hwf2 => hIH q (List.mem_cons_of_mem _ hq) v2 fn2 nov2 hwf2)
          refine ⟨(PyName.str k', f) :: pairs2, f' :: kids2, ?_, ?_, ?_⟩
          · simp only [exceptList, hslice]
            rw [hn]
            dsimp only
            rw [hmk, hpl]
          · simp [hpf]
          · simp only [List.map_cons, propagateList]
            rw [show f.name = PyName.str k' from by rw [hname, hn]; rfl]
            have hsubv : pySubscript (Val.dict dFull) (PyName.str k') = .ok v := by
              rw [pySubscript, hlookv]
            rw [hsubv]
            dsimp only
            rw [hprop]
            dsimp only
            rw [hkl]

theorem seq_children_build (M : Nat) (vsFull : List Val) (c : Schema) (fnPre : String)
    (hIH : ∀ (v : Val) (fn : String) (nov : Option PyName), wellFormed c v = true →
      ∃ f f', mkFieldB M c v fn nov = .ok f ∧ propagate f v = .ok (true, f') ∧
        f'.clean_data = some v ∧ f.name = nov.getD c.name) :
    ∀ (vs : List Val) (n : Nat),
      vs.all (wellFormed c) = true →
      (∀ p ∈ List.enumFrom n vs, pySubscript (Val.list vsFull) (PyName.int p.1) = .ok p.2) →
      ∃ kidsF kids,
        exceptList (fun p => mkFieldB M c p.2 (fnPre ++ toString p.1)
          (some (.int p.1))) (List.enumFrom n vs) = .ok kidsF ∧
        propagateList kidsF (Val.list vsFull) = .ok kids := by
  intro vs
  induction vs with
  | nil =>
      intro n _ _
      exact ⟨[], [], rfl, rfl⟩
  | cons v rest ih =>
      intro n hall hsub
      simp only [List.all_cons, Bool.and_eq_true] at hall
      obtain ⟨f, f', hmk, hprop, hclean, hname⟩ :=
        hIH v (fnPre ++ toString n) (some (.int n)) hall.1
      obtain ⟨kidsF2, kids2, hkf, hkl⟩ := ih (n + 1) hall.2
        (fun q hq => hsub q (by
          rw [List.enumFrom_cons]
          exact List.mem_cons_of_mem _ hq))
      refine ⟨f :: kidsF2, f' :: kids2, ?_, ?_⟩
      · rw [List.enumFrom_cons]
        simp only [exceptList]
        rw [hmk, hkf]
      · simp only [propagateList]
        rw [show f.name = PyName.int n from by rw [hname]; rfl]
        rw [hsub (n, v) (by rw [List.enumFrom_cons]; exact List.mem_cons_self _ _)]
        dsimp only
        rw [hprop]
        dsimp only
        rw [hkl]

/-- Binding well-formed data to a noop schema constructs successfully and
propagates to a fully valid tree whose root clean data is the input. -/
theorem noop_field_ok :
    ∀ (N : Nat) (s : Schema) (data : Val) (fn : String) (nov : Option PyName),
      schemaSize s ≤ N → noopSchema s → wellFormed s data = true →
      ∃ f f', mkFieldB N s data fn nov = .ok f ∧ propagate f data = .ok (true, f') ∧
        f'.clean_data = some data ∧ f.name = nov.getD s.name := by
  intro N
  induction N with
  | zero =>
      intro s data fn nov h _ _
      have := schemaSize_pos s
      omega
  | succ M ih =>
      intro s data fn nov hsz hns hwf
      cases s with
      | leafS nm va pp =>
          obtain ⟨hv, hpp⟩ := hns
          subst hv
          subst hpp
          cases data with
          | none => exact ⟨_, _, rfl, rfl, rfl, rfl⟩
          | str s0 => exact ⟨_, _, rfl, rfl, rfl, rfl⟩
          | int n0 => exact ⟨_, _, rfl, rfl, rfl, rfl⟩
          | list xs => rw [wellFormed] at hwf; cases hwf
          | dict es => rw [wellFormed] at hwf; cases hwf
          | err m c0 => rw [wellFormed] at hwf; cases hwf
      | mapS nm cs va pp =>
          obtain ⟨hv, hpp, hnd, hch⟩ := hns
          subst hv
          subst hpp
          cases data with
          | dict es =>
              rw [wellFormed_map_eq] at hwf
              have hkeys : es.map Prod.fst = cs.map Prod.fst :=
                of_decide_eq_true ((Bool.and_eq_true _ _).mp hwf).1
              have hzip : (List.zip cs es).all (fun p => wellFormed p.1.2 p.2.2) = true :=
                ((Bool.and_eq_true _ _).mp hwf).2
              have hesnd : (es.map Prod.fst).Nodup := hkeys ▸ hnd
              have hszl : schemaSizeList cs ≤ M := by
                have : schemaSize (Schema.mapS nm cs all_children noopPre) =
                    schemaSizeList cs + 1 := rfl
                omega
              obtain ⟨pairs, kids, hpl, hpf, hkl⟩ :=
                map_children_build M es (if fn = "" then "" else fn ++ ".") cs es hch
                  hkeys hzip (fun p hp => alookup_mem_of_nodup hesnd p hp)
                  (fun nc hnc v2 fn2 nov2 hwf2 =>
                    ih nc.2 v2 fn2 nov2 (le_trans (schemaSize_le_list hnc) hszl)
                      (noopSchemaChildren_mem hch hnc).1 hwf2)
              have hpnodup : (pairs.map Prod.fst).Nodup := by
                rw [hpf, show cs.map (fun p => PyName.str p.1) =
                  (cs.map Prod.fst).map PyName.str from by simp [List.map_map]]
                exact hnd.map (fun a b hab => by cases hab; rfl)
              have hdict : dictOf pairs = pairs := dictOf_nodup pairs hpnodup
              refine ⟨Field.mk (Schema.mapS nm cs all_children noopPre) (nov.getD nm)
                  fn (Val.dict es) (pairs.map (fun p => p.2)) Option.none Option.none,
                Field.mk (Schema.mapS nm cs all_children noopPre) (nov.getD nm)
                  fn (Val.dict es) kids (some (Val.dict es)) Option.none,
                ?_, ?_, rfl, rfl⟩
              · simp only [mkFieldB]
                rw [show noopPre (Val.dict es) = Val.dict es from rfl, hpl]
                dsimp only
                rw [hdict]
              · simp only [propagate]
                rw [hkl]
          | none => rw [wellFormed] at hwf; cases hwf
          | str s0 => rw [wellFormed] at hwf; cases hwf
          | int n0 => rw [wellFormed] at hwf; cases hwf
          | list xs => rw [wellFormed] at hwf; cases hwf
          | err m c0 => rw [wellFormed] at hwf; cases hwf
      | seqS nm c va pp =>
          obtain ⟨hv, hpp, hcns⟩ := hns
          subst hv
          subst hpp
          cases data with
          | list vs =>
              rw [wellFormed_seq_eq] at hwf
              obtain ⟨hvs, hall⟩ := (Bool.and_eq_true _ _).mp hwf
              have hsc : schemaSize c ≤ M := by
                have : schemaSize (Schema.seqS nm c all_children noopPre) =
                    schemaSize c + 1 := rfl
                omega
              obtain ⟨kidsF, kids, hkf, hkl⟩ :=
                seq_children_build M vs c (fn ++ ":")
                  (fun v2 fn2 nov2 hwf2 => ih c v2 fn2 nov2 hsc hcns hwf2)
                  vs 0 hall (by
                    intro p hp
                    exact enum_subscript vs p hp)
              have htr : truthy (noopPre (Val.list vs)) = true := by
                rw [show noopPre (Val.list vs) = Val.list vs from rfl, truthy, hvs]
              refine ⟨Field.mk (Schema.seqS nm c all_children noopPre) (nov.getD nm)
                  fn (Val.list vs) kidsF Option.none Option.none,
                Field.mk (Schema.seqS nm c all_children noopPre) (nov.getD nm)
                  fn (Val.list vs) kids (some (Val.list vs)) Option.none,
                ?_, ?_, rfl, rfl⟩
              · simp only [mkFieldB]
                rw [if_pos htr]
                rw [show noopPre (Val.list vs) = Val.list vs from rfl]
                rw [show pyElems (Val.list vs) = .ok vs from rfl]
                dsimp only
                rw [show vs.enum = List.enumFrom 0 vs from rfl, hkf]
              · simp only [propagate]
                rw [hkl]
          | none => rw [wellFormed] at hwf; cases hwf
          | str s0 => rw [wellFormed] at hwf; cases hwf
          | int n0 => rw [wellFormed] at hwf; cases hwf
          | dict es => rw [wellFormed] at hwf; cases hwf
          | err m c0 => rw [wellFormed] at hwf; cases hwf

/-! ## `make_from_literal` on noop literals gives noop schemas -/
theorem noopSchema_pre : ∀ {s : Schema}, noopSchema s → s.pre_processor = noopPre
  | .leafS _ _ _, h => h.2
  | .mapS _ _ _ _, h => h.2.1
  | .seqS _ _ _ _, h => h.2.1

mutual

theorem makeFromLiteral_good : ∀ (l : Literal) (nm : PyName) (s : Schema),
    goodLit l → makeFromLiteral l nm = .ok s → noopSchema s ∧ s.name = nm
  | .leafL v, nm, s => by
      intro hg hm
      have hv : v = noop := hg
      subst hv
      cases hm
      exact ⟨⟨rfl, rfl⟩, rfl⟩
  | .mapL children, nm, s => by
      intro hg hm
      obtain ⟨hnd, hch⟩ := hg
      have hm2 : (match makeChildrenFromLiteral children with
          | Except.error e => (Except.error e : Except String Schema)
          | Except.ok cs => Except.ok (Schema.mapS nm cs all_children noopPre)) =
          Except.ok s := hm
      split at hm2
      · cases hm2
      · rename_i cs hmc
        cases hm2
        obtain ⟨hkeys, hcs⟩ := makeChildrenFromLiteral_good children cs hch hmc
        exact ⟨⟨rfl, rfl, by rw [hkeys]; exact hnd, hcs⟩, rfl⟩
  | .seqL children, nm, s => by
      intro hg hm
      cases children with
      | nil => exact (hg : False).elim
      | cons c rest =>
          cases rest with
          | nil =>
              have hgc : goodLit c := hg
              have hm2 : (match makeFromLiteral c (PyName.int 0) with
                  | Except.error e => (Except.error e : Except String Schema)
                  | Except.ok child =>
                      Except.ok (Schema.seqS nm child all_children noopPre)) =
                  Except.ok s := hm
              split at hm2
              · cases hm2
              · rename_i child hmc
                cases hm2
                exact ⟨⟨rfl, rfl,
                  (makeFromLiteral_good c (PyName.int 0) child hgc hmc).1⟩, rfl⟩
          | cons c2 rest2 => exact (hg : False).elim

theorem makeChildrenFromLiteral_good : ∀ (children : List (String × Literal))
    (cs : List (String × Schema)), goodLitChildren children →
    makeChildrenFromLiteral children = .ok cs →
    cs.map Prod.fst = children.map Prod.fst ∧ noopSchemaChildren cs
  | [], cs => by
      intro hg hm
      cases hm
      exact ⟨rfl, trivial⟩
  | (k, lit) :: rest, cs => by
      intro hg hm
      obtain ⟨hgl, hgr⟩ := hg
      have hm2 : (match makeFromLiteral lit (PyName.str k) with
          | Except.error e =>
              (Except.error e : Except String (List (String × Schema)))
          | Except.ok c =>
              match makeChildrenFromLiteral rest with
              | Except.error e => Except.error e
              | Except.ok cs2 => Except.ok ((k, c) :: cs2)) = Except.ok cs := hm
      split at hm2
      · cases hm2
      · rename_i c hmc
        split at hm2
        · cases hm2
        · rename_i cs2 hmr
          cases hm2
          obtain ⟨hn1, hname⟩ := makeFromLiteral_good lit (PyName.str k) c hgl hmc
          obtain ⟨hkeys, hcs⟩ := makeChildrenFromLiteral_good rest cs2 hgr hmr
          exact ⟨by simp [hkeys], hname, hn1, hcs⟩

end

/-- The original claim fails at an empty array: `make_from_literal([noop])`
is a noop-only literal, the empty list is data of the very shape the claim
covers ("modulo sequence padding for empty arrays"), yet `is_valid()`
raises `IndexError` instead of returning a boolean with `clean_data` set. -/
theorem c2_counterexample :
    goodLit (Literal.seqL [Literal.leafL noop]) ∧
    makeFromLiteral (Literal.seqL [Literal.leafL noop]) (PyName.str "") =
      .ok seqNoopSchema ∧
    bindValid seqNoopSchema (Val.list []) = .error PyErr.indexError :=
  ⟨rfl, rfl, rfl⟩

/-- C2 (amended): for every schema built by `make_from_literal` from a
literal whose leaves are all the `noop` validator, and every well-formed
data matching the schema shape in which every sequence in the data is
non-empty, `BoundField(schema, data).is_valid()` returns `True` and the
root field ends with `clean_data` equal to the input structure. -/
theorem c2_noop_literal_bind_is_valid (l : Literal) (s : Schema) (data : Val)
    (hg : goodLit l) (hm : makeFromLiteral l (PyName.str "") = .ok s)
    (hwf : wellFormed s data = true) :
    ∃ f, bindValid s data = .ok (true, f) ∧ f.clean_data = some data := by
  have hns : noopSchema s := (makeFromLiteral_good l (PyName.str "") s hg hm).1
  obtain ⟨f, fr, hmk, hprop, hclean, _⟩ :=
    noop_field_ok (schemaSize s) s data "" Option.none (le_refl _) hns hwf
  have hbasic := mkFieldB_ok_basic hmk
  have hsch : f.schema = s := hbasic.1
  have hraw : f.raw_data = data := by
    rw [hbasic.2.2.2.1, noopSchema_pre hns]
    exact rfl
  have hval : validate s data = Except.ok data :=
    noop_validate (schemaSize s) s data (le_refl _) hns hwf
  refine ⟨fr, ?_, hclean⟩
  rw [bindValid, mkField, hmk]
  dsimp only
  rw [isValid, hsch, hraw, hval]
  exact hprop

/-- Concrete instance of the amended claim: a two-level noop literal with a
map above a sequence, bound to matching data with a non-empty array. -/
theorem c2_witness :
    ∃ f, bindValid
        (Schema.mapS (PyName.str "")
          [("a", Schema.leafS (PyName.str "a") noop noopPre),
           ("b", Schema.seqS (PyName.str "b")
             (Schema.leafS (PyName.int 0) noop noopPre) all_children noopPre)]
          all_children noopPre)
        (Val.dict [("a", Val.str "x"), ("b", Val.list [Val.int 1, Val.int 2])]) =
        .ok (true, f) ∧
      f.clean_data =
        some (Val.dict [("a", Val.str "x"), ("b", Val.list [Val.int 1, Val.int 2])]) :=
  c2_noop_literal_bind_is_valid
    (Literal.mapL [("a", Literal.leafL noop), ("b", Literal.seqL [Literal.leafL noop])])
    _ _ ⟨by decide, rfl, rfl, trivial⟩ rfl (by decide)

/-! ## The `:`-group pipeline: bucketing, integer keys, stable sort -/
theorem expandDots1Aux_colon_go (h : String) :
    ∀ (entries : List (String × Val)) (lists : List (String × List (String × Val))),
    (∀ p ∈ entries, splitFirstDelim (h ++ ":" ++ p.1) = some (h, ':', p.1)) →
    expandDots1Aux (entries.map fun p => (h ++ ":" ++ p.1, p.2)) [] [] lists =
      .ok ([], [],
        entries.foldl
          (fun ls p => pyUpdate ls h (pyUpdate ((alookup ls h).getD []) p.1 p.2)) lists) := by
  intro entries
  induction entries with
  | nil => intro lists _; rfl
  | cons q rest ih =>
      intro lists hall
      obtain ⟨f, v⟩ := q
      have hsp := hall (f, v) (List.mem_cons_self _ _)
      simp only [List.map_cons, List.foldl_cons]
      rw [show expandDots1Aux ((h ++ ":" ++ f, v) :: rest.map fun p => (h ++ ":" ++ p.1, p.2))
            [] [] lists =
          expandDots1Aux (rest.map fun p => (h ++ ":" ++ p.1, p.2)) [] []
            (pyUpdate lists h (pyUpdate ((alookup lists h).getD []) f v)) from by
        simp only [expandDots1Aux, hsp]
        rfl]
      exact ih _ (fun p hp => hall p (List.mem_cons_of_mem _ hp))

theorem foldl_group_single (h : String) :
    ∀ (entries : List (String × Val)) (g : List (String × Val)),
    entries.foldl
        (fun ls p => pyUpdate ls h (pyUpdate ((alookup ls h).getD []) p.1 p.2)) [(h, g)] =
      [(h, entries.foldl (fun acc p => pyUpdate acc p.1 p.2) g)]
  | [], g => rfl
  | (f, v) :: rest, g => by
      simp only [List.foldl_cons]
      rw [show pyUpdate [(h, g)] h (pyUpdate ((alookup [(h, g)] h).getD []) f v) =
          [(h, pyUpdate g f v)] from by simp [alookup, List.find?, pyUpdate]]
      exact foldl_group_single h rest (pyUpdate g f v)

/-- Bucketing a flat dict whose every key is `h ++ ":" ++ fragment`, with
distinct fragments: `_expand_dots_1` yields no naked keys, no `.`-groups and
exactly the one `:`-group `h ↦ {fragment: value}`. -/
theorem expandDots1_colon (h : String) (e0 : String × Val) (rest : List (String × Val))
    (hall : ∀ p ∈ e0 :: rest, splitFirstDelim (h ++ ":" ++ p.1) = some (h, ':', p.1))
    (hnd : ((e0 :: rest).map Prod.fst).Nodup) :
    expandDots1 ((e0 :: rest).map fun p => (h ++ ":" ++ p.1, p.2)) =
      .ok ([], [], [(h, e0 :: rest)]) := by
  obtain ⟨f, v⟩ := e0
  have hstep := expandDots1Aux_colon_go h ((f, v) :: rest) [] hall
  have hfold : ((f, v) :: rest).foldl
      (fun ls p => pyUpdate ls h (pyUpdate ((alookup ls h).getD []) p.1 p.2)) [] =
      [(h, ((f, v) :: rest).foldl (fun acc p => pyUpdate acc p.1 p.2) [])] := by
    simp only [List.foldl_cons]
    exact foldl_group_single h rest (pyUpdate [] f v)
  rw [foldl_pyUpdate_eq_append ((f, v) :: rest) [] (by simpa using hnd)] at hfold
  simp only [List.nil_append] at hfold
  simp only [expandDots1] at hstep ⊢
  rw [hstep, hfold]

theorem parseKeys_ok :
    ∀ (l : List (String × Val)), (∀ p ∈ l, (pyInt? p.1).isSome = true) →
    parseKeys l = .ok (l.map fun p => ((pyInt? p.1).getD 0, p.2))
  | [], _ => rfl
  | (k, v) :: rest, hp => by
      have hk := hp (k, v) (List.mem_cons_self _ _)
      obtain ⟨n, hn⟩ := Option.isSome_iff_exists.mp hk
      simp [parseKeys, hn, parseKeys_ok rest (fun q hq => hp q (List.mem_cons_of_mem _ hq))]

theorem insertByKey_perm (p : Int × Val) :
    ∀ (l : List (Int × Val)), List.Perm (insertByKey p l) (p :: l)
  | [] => List.Perm.refl _
  | q :: rest => by
      simp only [insertByKey]
      split
      · exact List.Perm.refl _
      · exact ((insertByKey_perm p rest).cons q).trans (List.Perm.swap p q rest)

theorem sortByKey_perm_aux :
    ∀ (l acc : List (Int × Val)),
      List.Perm (l.foldl (fun a p => insertByKey p a) acc) (l ++ acc)
  | [], acc => by simp
  | p :: rest, acc => by
      simp only [List.foldl_cons]
      exact (sortByKey_perm_aux rest (insertByKey p acc)).trans
        (((insertByKey_perm p acc).append_left rest).trans List.perm_middle)

/-- `sorted` returns a permutation of its input: in particular the sequence
conversion is dense (no holes, no dropped entries). -/
theorem sortByKey_perm (l : List (Int × Val)) : List.Perm (sortByKey l) l := by
  simpa using sortByKey_perm_aux l []

theorem insertByKey_sorted (p : Int × Val) :
    ∀ (l : List (Int × Val)), List.Pairwise (fun a b => a.1 ≤ b.1) l →
      List.Pairwise (fun a b => a.1 ≤ b.1) (insertByKey p l)
  | [], _ =>
      List.Pairwise.cons (fun b hb => absurd hb (List.not_mem_nil b)) List.Pairwise.nil
  | q :: rest, hs => by
      cases hs with
      | cons hq hrest =>
          simp only [insertByKey]
          split
          · rename_i hlt
            exact List.Pairwise.cons (fun b hb => by
                rcases List.mem_cons.mp hb with rfl | hb2
                · exact le_of_lt hlt
                · exact le_trans (le_of_lt hlt) (hq b hb2))
              (List.Pairwise.cons hq hrest)
          · rename_i hge
            refine List.Pairwise.cons (fun b hb => ?_) (insertByKey_sorted p rest hrest)
            rcases List.mem_cons.mp ((insertByKey_perm p rest).mem_iff.mp hb) with rfl | hb2
            · exact le_of_not_lt hge
            · exact hq b hb2

theorem sortByKey_sorted_aux :
    ∀ (l acc : List (Int × Val)), List.Pairwise (fun a b => a.1 ≤ b.1) acc →
      List.Pairwise (fun a b => a.1 ≤ b.1) (l.foldl (fun a p => insertByKey p a) acc)
  | [], _, hs => hs
  | p :: rest, acc, hs => sortByKey_sorted_aux rest _ (insertByKey_sorted p acc hs)

/-- `sorted(..., key=lambda x: int(x[0]))` leaves the integer keys ascending. -/
theorem sortByKey_sorted (l : List (Int × Val)) :
    List.Pairwise (fun a b => a.1 ≤ b.1) (sortByKey l) :=
  sortByKey_sorted_aux l [] List.Pairwise.nil

theorem maxKeyLen_mem :
    ∀ (d : List (String × Val)), ∀ p ∈ d, p.1.length ≤ maxKeyLen d
  | [], p, hp => absurd hp (List.not_mem_nil p)
  | q :: rest, p, hp => by
      rcases List.mem_cons.mp hp with rfl | hp2
      · exact le_max_left _ _
      · exact le_trans (maxKeyLen_mem rest p hp2) (le_max_right _ _)

/-- One level of the `expand_dots` worklist when bucketing leaves a single
`:`-group: expand the group's sub-dict, convert it with the integer sort,
and return the one entry. -/
theorem expandIntoB_single_list (fuel : Nat) (base : List (String × Val))
    (h : String) (g g2 : List (String × Val)) (vs : List Val)
    (h1 : expandDots1 base = .ok ([], [], [(h, g)]))
    (h2 : expandIntoB fuel g = .ok g2)
    (h3 : convertGroup g2 = .ok vs) :
    expandIntoB (fuel + 1) base = .ok [(h, Val.list vs)] := by
  have hun : expandIntoB (fuel + 1) base = (match expandDots1 base with
      | .error e => .error e
      | .ok (singles, dicts, lists) =>
          match exceptList (fun q =>
              match expandIntoB fuel q.2 with
              | .error e => .error e
              | .ok r => .ok (q.1, Val.dict r)) dicts with
          | .error e => .error e
          | .ok dictParts =>
              match exceptList (fun q =>
                  match expandIntoB fuel q.2 with
                  | .error e => .error e
                  | .ok r =>
                      match convertGroup r with
                      | .error e => .error e
                      | .ok vs2 => .ok (q.1, Val.list vs2)) lists with
              | .error e => .error e
              | .ok listParts => .ok (singles ++ dictParts ++ listParts)) := rfl
  rw [hun, h1]
  dsimp only
  simp only [exceptList]
  rw [h2]
  dsimp only
  rw [h3]
  dsimp only
  rfl

/-- **C4** (status: confirmed).  For a flat mapping whose keys share the
head `h` and use the `:` delimiter with integer index fragments,
`expand_dots` returns for `h` a dense sequence: the values of the group,
reindexed 0..n-1 in ascending order of the integer value of their index
fragments (the literal fragments are discarded, gaps leave no holes, and
the length is exactly the number of entries). -/
theorem c4_colon_group_sorted_dense (h : String) (entries : List (String × Val))
    (hne : entries ≠ []) (hh : splitFirstDelim h = Option.none)
    (hfr : ∀ p ∈ entries, splitFirstDelim p.1 = Option.none)
    (hint : ∀ p ∈ entries, (pyInt? p.1).isSome = true)
    (hnd : (entries.map Prod.fst).Nodup) :
    ∃ ann : List (Int × Val),
      expandDots (entries.map fun p => (h ++ ":" ++ p.1, p.2)) =
        .ok (Val.dict [(h, Val.list (ann.map fun q => q.2))]) ∧
      List.Perm ann (entries.map fun p => ((pyInt? p.1).getD 0, p.2)) ∧
      List.Pairwise (fun a b => a.1 ≤ b.1) ann ∧
      ann.length = entries.length := by
  refine ⟨sortByKey (entries.map fun p => ((pyInt? p.1).getD 0, p.2)), ?_,
    sortByKey_perm _, sortByKey_sorted _, ?_⟩
  · obtain ⟨e0, rest0, rfl⟩ : ∃ e0 rest0, entries = e0 :: rest0 := by
      cases entries with
      | nil => exact absurd rfl hne
      | cons a l => exact ⟨a, l, rfl⟩
    have hall : ∀ p ∈ e0 :: rest0, splitFirstDelim (h ++ ":" ++ p.1) = some (h, ':', p.1) :=
      fun p _ => splitFirstDelim_colon h p.1 hh
    have h1 := expandDots1_colon h e0 rest0 hall hnd
    have hGnaked : expandIntoB (maxKeyLen ((e0 :: rest0).map fun p => (h ++ ":" ++ p.1, p.2)))
        (e0 :: rest0) = .ok (e0 :: rest0) := by
      have hpos : 1 ≤ maxKeyLen ((e0 :: rest0).map fun p => (h ++ ":" ++ p.1, p.2)) := by
        have hm : (h ++ ":" ++ e0.1).length ≤
            maxKeyLen ((e0 :: rest0).map fun p => (h ++ ":" ++ p.1, p.2)) :=
          maxKeyLen_mem ((e0 :: rest0).map fun p => (h ++ ":" ++ p.1, p.2))
            (h ++ ":" ++ e0.1, e0.2) (by
              rw [List.map_cons]
              exact List.mem_cons_self _ _)
        have hc : (":" : String).length = 1 := rfl
        have hlen : (h ++ ":" ++ e0.1).length = h.length + 1 + e0.1.length := by
          rw [String.length_append, String.length_append, hc]
        omega
      obtain ⟨F, hF⟩ : ∃ F,
          maxKeyLen ((e0 :: rest0).map fun p => (h ++ ":" ++ p.1, p.2)) = F + 1 :=
        ⟨maxKeyLen ((e0 :: rest0).map fun p => (h ++ ":" ++ p.1, p.2)) - 1, by omega⟩
      rw [hF, expandIntoB_naked F _ hfr,
        foldl_pyUpdate_eq_append (e0 :: rest0) [] (by simpa using hnd)]
      simp
    have hcg : convertGroup (e0 :: rest0) =
        .ok ((sortByKey ((e0 :: rest0).map fun p => ((pyInt? p.1).getD 0, p.2))).map
          fun q => q.2) := by
      simp only [convertGroup]
      rw [parseKeys_ok _ hint]
    have hmain := expandIntoB_single_list
      (maxKeyLen ((e0 :: rest0).map fun p => (h ++ ":" ++ p.1, p.2)))
      ((e0 :: rest0).map fun p => (h ++ ":" ++ p.1, p.2)) h (e0 :: rest0) (e0 :: rest0)
      ((sortByKey ((e0 :: rest0).map fun p => ((pyInt? p.1).getD 0, p.2))).map fun q => q.2)
      h1 hGnaked hcg
    simp only [expandDots, expandInto]
    rw [show ((e0 :: rest0).map fun p => (h ++ ":" ++ p.1, p.2)).isEmpty = false from rfl]
    simp only [Bool.false_eq_true, if_false]
    rw [hmain]
  · rw [(sortByKey_perm _).length_eq, List.length_map]

/-- Concrete instance of C4: indices 10, 2, 0 arrive unordered and with
gaps; the sequence is the three values in ascending index order. -/
theorem c4_witness :
    ∃ ann : List (Int × Val),
      expandDots ([("10", Val.str "c"), ("2", Val.str "b"), ("0", Val.str "a")].map
          fun p => ("xs" ++ ":" ++ p.1, p.2)) =
        .ok (Val.dict [("xs", Val.list (ann.map fun q => q.2))]) ∧
      List.Perm ann ([("10", Val.str "c"), ("2", Val.str "b"), ("0", Val.str "a")].map
          fun p => ((pyInt? p.1).getD 0, p.2)) ∧
      List.Pairwise (fun a b => a.1 ≤ b.1) ann ∧
      ann.length = [("10", Val.str "c"), ("2", Val.str "b"), ("0", Val.str "a")].length :=
  c4_colon_group_sorted_dense "xs" [("10", Val.str "c"), ("2", Val.str "b"), ("0", Val.str "a")]
    (by simp) rfl
    (by
      intro p hp
      simp only [List.mem_cons] at hp
      rcases hp with rfl | rfl | rfl | hp
      · rfl
      · rfl
      · rfl
      · exact absurd hp (List.not_mem_nil p))
    (by
      intro p hp
      simp only [List.mem_cons] at hp
      rcases hp with rfl | rfl | rfl | hp
      · rfl
      · rfl
      · rfl
      · exact absurd hp (List.not_mem_nil p))
    (by decide)

theorem digitChar_isDigit (d : Nat) (hd : d < 10) : (digitChar d).isDigit = true := by
  interval_cases d <;> decide

theorem digitChar_toNat (d : Nat) (hd : d < 10) : (digitChar d).toNat - 48 = d := by
  interval_cases d <;> decide

theorem digitChar_not_delim (d : Nat) (hd : d < 10) : isDelim (digitChar d) = false := by
  interval_cases d <;> decide

theorem natDigits_ne_nil (n : Nat) : natDigits n ≠ [] := by
  rw [natDigits]
  split
  · exact List.cons_ne_nil _ _
  · exact fun h => absurd (List.append_eq_nil.mp h).2 (List.cons_ne_nil _ _)

theorem natDigits_digits : ∀ (n : Nat), ∀ c ∈ natDigits n, c.isDigit = true := by
  intro n
  induction n using Nat.strong_induction_on with
  | _ n ih =>
      rw [natDigits]
      split
      · rename_i h10
        intro c hc
        rw [List.mem_singleton] at hc
        subst hc
        exact digitChar_isDigit n h10
      · rename_i h10
        intro c hc
        rcases List.mem_append.mp hc with hc1 | hc2
        · exact ih (n / 10) (Nat.div_lt_self (by omega) (by omega)) c hc1
        · rw [List.mem_singleton] at hc2
          subst hc2
          exact digitChar_isDigit (n % 10) (Nat.mod_lt n (by omega))

theorem digitsRest_cons (c : Char) (rest : List Char) (acc : Nat) (hc : c.isDigit = true) :
    digitsRest (c :: rest) acc = digitsRest rest (acc * 10 + (c.toNat - 48)) := by
  have hne : c ≠ '_' := by
    intro h
    rw [h] at hc
    exact absurd hc (by decide)
  rw [digitsRest.eq_def]
  split <;> simp_all

theorem digitsRest_digits :
    ∀ (xs : List Char) (acc : Nat), (∀ c ∈ xs, c.isDigit = true) →
      digitsRest xs acc = some (xs.foldl (fun a c => a * 10 + (c.toNat - 48)) acc)
  | [], _, _ => rfl
  | c :: xs, acc, h => by
      rw [digitsRest_cons c xs acc (h c (List.mem_cons_self _ _)), List.foldl_cons]
      exact digitsRest_digits xs _ (fun d hd => h d (List.mem_cons_of_mem _ hd))

theorem natDigits_foldl (n : Nat) :
    ∀ (acc : Nat), (natDigits n).foldl (fun a c => a * 10 + (c.toNat - 48)) acc =
      acc * 10 ^ (natDigits n).length + n := by
  induction n using Nat.strong_induction_on with
  | _ n ih =>
      intro acc
      rw [natDigits]
      split
      · rename_i h10
        simp [digitChar_toNat n h10]
      · rename_i h10
        rw [List.foldl_append, ih (n / 10) (Nat.div_lt_self (by omega) (by omega)) acc]
        simp only [List.foldl_cons, List.foldl_nil, List.length_append, List.length_cons,
          List.length_nil]
        rw [digitChar_toNat (n % 10) (Nat.mod_lt n (by omega))]
        have hdm : 10 * (n / 10) + n % 10 = n := Nat.div_add_mod n 10
        have hpow : 10 ^ ((natDigits (n / 10)).length + (0 + 1)) =
            10 ^ (natDigits (n / 10)).length * 10 := by
          rw [show (0 + 1) = 1 from rfl, pow_succ]
        rw [hpow]
        ring_nf
        omega

theorem pyNat?_natDigits (n : Nat) : pyNat? (natDigits n) = some n := by
  obtain ⟨c, rest, hsplit⟩ : ∃ c rest, natDigits n = c :: rest := by
    cases h : natDigits n with
    | nil => exact absurd h (natDigits_ne_nil n)
    | cons c rest => exact ⟨c, rest, rfl⟩
  have hcd : c.isDigit = true :=
    natDigits_digits n c (by rw [hsplit]; exact List.mem_cons_self _ _)
  have hrd : ∀ d ∈ rest, d.isDigit = true := fun d hd =>
    natDigits_digits n d (by rw [hsplit]; exact List.mem_cons_of_mem _ hd)
  rw [hsplit, pyNat?, if_pos hcd, digitsRest_digits rest _ hrd]
  have := natDigits_foldl n 0
  rw [hsplit, List.foldl_cons] at this
  simp only [Nat.zero_mul, Nat.zero_add] at this
  rw [this]

theorem isDigit_not_pyspace {c : Char} (h : c.isDigit = true) : isPySpace c = false := by
  have hne : ∀ a : Char, a.isDigit = false → (c == a) = false := by
    intro a ha
    rw [beq_eq_false_iff_ne]
    intro he
    rw [he, ha] at h
    cases h
  rw [isPySpace, hne ' ' (by decide), hne '\t' (by decide), hne '\n' (by decide),
    hne '\r' (by decide), hne '\x0b' (by decide), hne '\x0c' (by decide)]
  rfl

theorem dropWhile_of_head {p : Char → Bool} {c : Char} (cs : List Char)
    (h : p c = false) : List.dropWhile p (c :: cs) = c :: cs := by
  rw [List.dropWhile_cons, h]
  rfl

theorem pyInt?_digits (cs : List Char) (hne : cs ≠ [])
    (h : ∀ c ∈ cs, c.isDigit = true) :
    pyInt? ⟨cs⟩ = (pyNat? cs).map Int.ofNat := by
  obtain ⟨c, rest, rfl⟩ : ∃ c rest, cs = c :: rest := by
    cases cs with
    | nil => exact absurd rfl hne
    | cons c rest => exact ⟨c, rest, rfl⟩
  have hcd : c.isDigit = true := h c (List.mem_cons_self _ _)
  have hstrip : ((((c :: rest).dropWhile isPySpace).reverse.dropWhile isPySpace).reverse :
      List Char) = c :: rest := by
    rw [dropWhile_of_head rest (isDigit_not_pyspace hcd)]
    obtain ⟨d, ds, hrev⟩ : ∃ d ds, (c :: rest).reverse = d :: ds := by
      cases hr : (c :: rest).reverse with
      | nil => exact absurd (List.reverse_eq_nil_iff.mp hr) (List.cons_ne_nil _ _)
      | cons d ds => exact ⟨d, ds, rfl⟩
    have hd : d.isDigit = true := by
      have : d ∈ (c :: rest).reverse := by
        rw [hrev]
        exact List.mem_cons_self _ _
      exact h d (List.mem_reverse.mp this)
    rw [hrev, dropWhile_of_head ds (isDigit_not_pyspace hd), ← hrev, List.reverse_reverse]
  have hplus : c ≠ '+' := by
    intro he
    rw [he] at hcd
    exact absurd hcd (by decide)
  have hminus : c ≠ '-' := by
    intro he
    rw [he] at hcd
    exact absurd hcd (by decide)
  rw [pyInt?]
  simp only [String.data] at hstrip ⊢
  rw [hstrip]
  split <;> simp_all

theorem pyInt?_natKey (n : Nat) : pyInt? (natKey n) = some (Int.ofNat n) := by
  rw [natKey, pyInt?_digits (natDigits n) (natDigits_ne_nil n) (natDigits_digits n),
    pyNat?_natDigits]
  rfl

theorem natKey_inj {a b : Nat} (h : natKey a = natKey b) : a = b := by
  have := pyInt?_natKey a
  rw [h, pyInt?_natKey b] at this
  have h2 : Int.ofNat b = Int.ofNat a := Option.some.injEq _ _ ▸ (by
    cases this
    rfl)
  exact (Int.ofNat.injEq _ _ ▸ h2).symm

theorem splitChars_none_of_no_delim :
    ∀ (cs : List Char), (∀ c ∈ cs, isDelim c = false) → splitChars cs = Option.none
  | [], _ => rfl
  | c :: rest, h => by
      rw [splitChars, h c (List.mem_cons_self _ _)]
      simp only [Bool.false_eq_true, if_false]
      rw [splitChars_none_of_no_delim rest (fun d hd => h d (List.mem_cons_of_mem _ hd))]

theorem isDigit_not_delim {c : Char} (h : c.isDigit = true) : isDelim c = false := by
  have hne : ∀ a : Char, a.isDigit = false → (c == a) = false := by
    intro a ha
    rw [beq_eq_false_iff_ne]
    intro he
    rw [he, ha] at h
    cases h
  rw [isDelim, hne '.' (by decide), hne ':' (by decide)]
  rfl

theorem splitFirstDelim_natKey (n : Nat) : splitFirstDelim (natKey n) = Option.none := by
  rw [natKey, splitFirstDelim]
  rw [show (⟨natDigits n⟩ : String).data = natDigits n from rfl]
  rw [splitChars_none_of_no_delim (natDigits n)
    (fun c hc => isDigit_not_delim (natDigits_digits n c hc))]
  rfl

theorem valEq_refl_scalar : ∀ (v : Val), isScalar v = true → valEq v v = true
  | .none, _ => rfl
  | .str a, _ => by simp [valEq]
  | .int a, _ => by simp [valEq]

/-- The run of flat entries a representable subtree contributes is
non-empty: a representable value never vanishes from the flat form. -/
theorem flattenUnderF_ne_nil : ∀ (k : String) (v : Val), repVal v → flattenUnderF k v ≠ []
  | k, .dict es, hr => by
      obtain ⟨hne, _, hrec⟩ := hr
      cases es with
      | nil => exact absurd rfl hne
      | cons e rest =>
          obtain ⟨ke, ve⟩ := e
          obtain ⟨_, hrv, _⟩ := hrec
          rw [flattenUnderF, flattenEntriesF]
          intro hmap
          rw [List.map_eq_nil_iff, List.append_eq_nil] at hmap
          exact flattenUnderF_ne_nil ke ve hrv hmap.1
  | k, .list xs, hr => by
      obtain ⟨hne, hrec⟩ := hr
      cases xs with
      | nil => exact absurd rfl hne
      | cons x rest =>
          obtain ⟨hrv, _⟩ := hrec
          rw [flattenUnderF, flattenElemsF]
          intro hmap
          rw [List.map_eq_nil_iff, List.append_eq_nil] at hmap
          exact flattenUnderF_ne_nil (natKey 0) x hrv hmap.1
  | k, .none, _ => List.cons_ne_nil (k, Val.none) []
  | k, .str s, _ => List.cons_ne_nil (k, Val.str s) []
  | k, .int n, _ => List.cons_ne_nil (k, Val.int n) []
  | k, .err m c, hr => absurd hr (by rw [repVal]; exact fun h => h)

/-- Flattening the elements of a sequence is flattening the dict that
tags element `i` with the decimal key of `i`. -/
theorem flattenElemsF_as_entries :
    ∀ (i : Nat) (xs : List Val),
      flattenElemsF i xs =
        flattenEntriesF ((List.enumFrom i xs).map fun p => (natKey p.1, p.2))
  | _, [] => rfl
  | i, v :: rest => by
      rw [List.enumFrom_cons, List.map_cons, flattenElemsF, flattenEntriesF,
        flattenElemsF_as_entries (i + 1) rest]

theorem string_data_inj {t1 t2 : String} (h : t1.data = t2.data) : t1 = t2 := by
  cases t1
  cases t2
  exact congrArg String.mk h

theorem string_append_left_cancel {s t1 t2 : String} (h : s ++ t1 = s ++ t2) : t1 = t2 := by
  have hd := congrArg String.data h
  simp only [String.data_append] at hd
  exact string_data_inj (List.append_cancel_left hd)

theorem flattenUnderF_head (k : String) (v : Val) (hk : splitFirstDelim k = Option.none) :
    ∀ q ∈ (flattenUnderF k v).map Prod.fst, runHead q = k := by
  cases v with
  | dict es =>
      intro q hq
      rw [flattenUnderF, List.map_map] at hq
      obtain ⟨p, _, rfl⟩ := List.mem_map.mp hq
      show runHead (k ++ "." ++ p.1) = k
      rw [runHead, splitFirstDelim_dot k p.1 hk]
  | list xs =>
      intro q hq
      rw [flattenUnderF, List.map_map] at hq
      obtain ⟨p, _, rfl⟩ := List.mem_map.mp hq
      show runHead (k ++ ":" ++ p.1) = k
      rw [runHead, splitFirstDelim_colon k p.1 hk]
  | none =>
      intro q hq
      rw [show flattenUnderF k Val.none = [(k, Val.none)] from rfl] at hq
      rw [List.mem_singleton.mp hq, runHead, hk]
  | str s =>
      intro q hq
      rw [show flattenUnderF k (Val.str s) = [(k, Val.str s)] from rfl] at hq
      rw [List.mem_singleton.mp hq, runHead, hk]
  | int n =>
      intro q hq
      rw [show flattenUnderF k (Val.int n) = [(k, Val.int n)] from rfl] at hq
      rw [List.mem_singleton.mp hq, runHead, hk]
  | err m c =>
      intro q hq
      rw [show flattenUnderF k (Val.err m c) = [(k, Val.err m c)] from rfl] at hq
      rw [List.mem_singleton.mp hq, runHead, hk]

theorem flattenEntriesF_head :
    ∀ (es : List (String × Val)), repEntries es →
      ∀ q ∈ (flattenEntriesF es).map Prod.fst, ∃ p ∈ es, runHead q = p.1
  | [], _, q, hq => absurd hq (by simp [flattenEntriesF])
  | (k, v) :: rest, hrec, q, hq => by
      obtain ⟨hk, hrv, hrest⟩ := hrec
      rw [flattenEntriesF, List.map_append] at hq
      rcases List.mem_append.mp hq with h1 | h2
      · exact ⟨(k, v), List.mem_cons_self _ _, flattenUnderF_head k v hk q h1⟩
      · obtain ⟨p, hp, hh⟩ := flattenEntriesF_head rest hrest q h2
        exact ⟨p, List.mem_cons_of_mem _ hp, hh⟩

theorem flattenElemsF_head :
    ∀ (i : Nat) (xs : List Val),
      ∀ q ∈ (flattenElemsF i xs).map Prod.fst, ∃ j, i ≤ j ∧ runHead q = natKey j
  | _, [], q, hq => absurd hq (by simp [flattenElemsF])
  | i, x :: rest, q, hq => by
      rw [flattenElemsF, List.map_append] at hq
      rcases List.mem_append.mp hq with h1 | h2
      · exact ⟨i, le_refl i, flattenUnderF_head (natKey i) x (splitFirstDelim_natKey i) q h1⟩
      · obtain ⟨j, hj, hh⟩ := flattenElemsF_head (i + 1) rest q h2
        exact ⟨j, by omega, hh⟩

mutual

theorem flatKeysUnder : ∀ (k : String) (v : Val), repVal v →
    ((flattenUnderF k v).map Prod.fst).Nodup
  | k, .dict es, hr => by
      obtain ⟨_, hnd, hrec⟩ := hr
      rw [flattenUnderF, List.map_map]
      rw [show (Prod.fst ∘ fun p => (k ++ "." ++ p.1, p.2) :
            (String × Val) → String) = fun p => k ++ "." ++ p.1 from rfl]
      rw [show (fun p => k ++ "." ++ p.1) =
          (fun t => k ++ "." ++ t) ∘ (Prod.fst : String × Val → String) from rfl]
      rw [← List.map_map]
      exact (flatKeysEntries es hnd hrec).map
        (fun a b hab => string_append_left_cancel hab)
  | k, .list xs, hr => by
      obtain ⟨_, hrec⟩ := hr
      rw [flattenUnderF, List.map_map]
      rw [show (Prod.fst ∘ fun p => (k ++ ":" ++ p.1, p.2) :
            (String × Val) → String) = fun p => k ++ ":" ++ p.1 from rfl]
      rw [show (fun p => k ++ ":" ++ p.1) =
          (fun t => k ++ ":" ++ t) ∘ (Prod.fst : String × Val → String) from rfl]
      rw [← List.map_map]
      exact (flatKeysElems 0 xs hrec).map
        (fun a b hab => string_append_left_cancel hab)
  | k, .none, _ => List.nodup_singleton k
  | k, .str s, _ => List.nodup_singleton k
  | k, .int n, _ => List.nodup_singleton k
  | k, .err m c, hr => absurd hr (by rw [repVal]; exact fun h => h)

theorem flatKeysEntries : ∀ (es : List (String × Val)),
    (es.map Prod.fst).Nodup → repEntries es →
    ((flattenEntriesF es).map Prod.fst).Nodup
  | [], _, _ => List.nodup_nil
  | (k, v) :: rest, hnd, hrec => by
      obtain ⟨hk, hrv, hrest⟩ := hrec
      rw [List.map_cons, List.nodup_cons] at hnd
      rw [flattenEntriesF, List.map_append, List.nodup_append]
      refine ⟨flatKeysUnder k v hrv, flatKeysEntries rest hnd.2 hrest, ?_⟩
      intro q hq1 hq2
      have h1 : runHead q = k := flattenUnderF_head k v hk q hq1
      obtain ⟨p, hp, h2⟩ := flattenEntriesF_head rest hrest q hq2
      have hk2 : k = p.1 := h1.symm.trans h2
      exact hnd.1 (by
        rw [hk2]
        exact List.mem_map.mpr ⟨p, hp, rfl⟩)

theorem flatKeysElems : ∀ (i : Nat) (xs : List Val), repElems xs →
    ((flattenElemsF i xs).map Prod.fst).Nodup
  | _, [], _ => List.nodup_nil
  | i, x :: rest, hrec => by
      rw [flattenElemsF, List.map_append, List.nodup_append]
      refine ⟨flatKeysUnder (natKey i) x hrec.1, flatKeysElems (i + 1) rest hrec.2, ?_⟩
      intro q hq1 hq2
      have h1 : runHead q = natKey i :=
        flattenUnderF_head (natKey i) x (splitFirstDelim_natKey i) q hq1
      obtain ⟨j, hj, h2⟩ := flattenElemsF_head (i + 1) rest q hq2
      have : i = j := natKey_inj (h1.symm.trans h2)
      omega

end

theorem flattenEntriesF_ne_nil :
    ∀ (es : List (String × Val)), es ≠ [] → repEntries es → flattenEntriesF es ≠ []
  | [], hne, _ => absurd rfl hne
  | (k, v) :: rest, _, hrec => by
      rw [flattenEntriesF]
      intro hap
      exact flattenUnderF_ne_nil k v hrec.2.1 (List.append_eq_nil.mp hap).1

/-! ## Bucketing a flattened level (C8) -/
theorem alookup_append_none {κ α : Type} [DecidableEq κ] :
    ∀ (l1 l2 : List (κ × α)) (k : κ), alookup l1 k = Option.none →
      alookup l2 k = Option.none → alookup (l1 ++ l2) k = Option.none
  | [], l2, k, _, h2 => h2
  | (a, b) :: l1, l2, k, h1, h2 => by
      rw [alookup_cons] at h1
      rw [List.cons_append, alookup_cons]
      split at h1
      · cases h1
      · rename_i hak
        rw [if_neg hak]
        exact alookup_append_none l1 l2 k h1 h2

theorem alookup_single_ne {κ α : Type} [DecidableEq κ] (k k' : κ) (g : α)
    (h : k' ≠ k) : alookup [(k', g)] k = Option.none := by
  rw [alookup_cons, if_neg h]
  rfl

theorem alookup_append_last {κ α : Type} [DecidableEq κ] :
    ∀ (d : List (κ × α)) (k : κ) (g : α), alookup d k = Option.none →
      alookup (d ++ [(k, g)]) k = some g
  | [], k, g, _ => by simp [alookup_cons]
  | (a, b) :: d, k, g, h => by
      rw [alookup_cons] at h
      rw [List.cons_append, alookup_cons]
      split at h
      · cases h
      · rename_i hak
        rw [if_neg hak]
        exact alookup_append_last d k g h

theorem pyUpdate_append_last {κ α : Type} [DecidableEq κ] :
    ∀ (d : List (κ × α)) (k : κ) (g x : α), alookup d k = Option.none →
      pyUpdate (d ++ [(k, g)]) k x = d ++ [(k, x)]
  | [], k, g, x, _ => by simp [pyUpdate]
  | (a, b) :: d, k, g, x, h => by
      rw [alookup_cons] at h
      split at h
      · cases h
      · rename_i hak
        rw [List.cons_append, pyUpdate, if_neg hak, pyUpdate_append_last d k g x h]
        rfl

theorem foldl_group_build (k : String) :
    ∀ (sub : List (String × Val)) (d : List (String × List (String × Val)))
      (g : List (String × Val)), alookup d k = Option.none →
      sub.foldl (fun dd p => pyUpdate dd k (pyUpdate ((alookup dd k).getD []) p.1 p.2))
        (d ++ [(k, g)]) =
      d ++ [(k, sub.foldl (fun acc p => pyUpdate acc p.1 p.2) g)]
  | [], d, g, _ => rfl
  | (t, w) :: sub, d, g, hd => by
      simp only [List.foldl_cons]
      rw [alookup_append_last d k g hd]
      rw [show (some g).getD ([] : List (String × Val)) = g from rfl]
      rw [pyUpdate_append_last d k g (pyUpdate g t w) hd]
      exact foldl_group_build k sub d (pyUpdate g t w) hd

theorem foldl_group_start (k : String) (t0 : String × Val) (subrest : List (String × Val))
    (d : List (String × List (String × Val))) (hd : alookup d k = Option.none) :
    (t0 :: subrest).foldl
        (fun dd p => pyUpdate dd k (pyUpdate ((alookup dd k).getD []) p.1 p.2)) d =
      d ++ [(k, (t0 :: subrest).foldl (fun acc p => pyUpdate acc p.1 p.2) [])] := by
  simp only [List.foldl_cons]
  rw [hd]
  rw [show (Option.none : Option (List (String × Val))).getD [] = [] from rfl]
  rw [pyUpdate_of_not_mem (pyUpdate [] t0.1 t0.2) ((alookup_eq_none d k).mp hd)]
  exact foldl_group_build k subrest d (pyUpdate [] t0.1 t0.2) hd

theorem expandDots1Aux_dot_run (k : String) :
    ∀ (sub restFlat s : List (String × Val)) (d l : List (String × List (String × Val))),
      (∀ p ∈ sub, splitFirstDelim (k ++ "." ++ p.1) = some (k, '.', p.1)) →
      alookup s k = Option.none → alookup l k = Option.none →
      expandDots1Aux ((sub.map fun p => (k ++ "." ++ p.1, p.2)) ++ restFlat) s d l =
        expandDots1Aux restFlat s
          (sub.foldl (fun dd p => pyUpdate dd k (pyUpdate ((alookup dd k).getD []) p.1 p.2)) d)
          l
  | [], restFlat, s, d, l, _, _, _ => rfl
  | (t, w) :: sub, restFlat, s, d, l, hsp, hs, hl => by
      have hspt := hsp (t, w) (List.mem_cons_self _ _)
      simp only [List.map_cons, List.cons_append, List.foldl_cons]
      rw [show expandDots1Aux ((k ++ "." ++ t, w) ::
            ((sub.map fun p => (k ++ "." ++ p.1, p.2)) ++ restFlat)) s d l =
          expandDots1Aux ((sub.map fun p => (k ++ "." ++ p.1, p.2)) ++ restFlat) s
            (pyUpdate d k (pyUpdate ((alookup d k).getD []) t w)) l from by
        simp only [expandDots1Aux, hspt, hs, hl]
        rfl]
      exact expandDots1Aux_dot_run k sub restFlat s _ l
        (fun p hp => hsp p (List.mem_cons_of_mem _ hp)) hs hl

theorem expandDots1Aux_colon_run (k : String) :
    ∀ (sub restFlat s : List (String × Val)) (d l : List (String × List (String × Val))),
      (∀ p ∈ sub, splitFirstDelim (k ++ ":" ++ p.1) = some (k, ':', p.1)) →
      alookup s k = Option.none → alookup d k = Option.none →
      expandDots1Aux ((sub.map fun p => (k ++ ":" ++ p.1, p.2)) ++ restFlat) s d l =
        expandDots1Aux restFlat s d
          (sub.foldl (fun ll p => pyUpdate ll k (pyUpdate ((alookup ll k).getD []) p.1 p.2)) l)
  | [], restFlat, s, d, l, _, _, _ => rfl
  | (t, w) :: sub, restFlat, s, d, l, hsp, hs, hd => by
      have hspt := hsp (t, w) (List.mem_cons_self _ _)
      simp only [List.map_cons, List.cons_append, List.foldl_cons]
      rw [show expandDots1Aux ((k ++ ":" ++ t, w) ::
            ((sub.map fun p => (k ++ ":" ++ p.1, p.2)) ++ restFlat)) s d l =
          expandDots1Aux ((sub.map fun p => (k ++ ":" ++ p.1, p.2)) ++ restFlat) s d
            (pyUpdate l k (pyUpdate ((alookup l k).getD []) t w)) from by
        simp only [expandDots1Aux, hspt, hs, hd]
        rfl]
      exact expandDots1Aux_colon_run k sub restFlat s d _
        (fun p hp => hsp p (List.mem_cons_of_mem _ hp)) hs hd

theorem scalarsOf_keys_sub :
    ∀ (es : List (String × Val)), ∀ q ∈ (scalarsOf es).map Prod.fst, q ∈ es.map Prod.fst
  | [], q, hq => absurd hq (by simp [scalarsOf])
  | (k, v) :: rest, q, hq => by
      cases v with
      | dict cs =>
          rw [scalarsOf] at hq
          exact List.mem_cons_of_mem _ (scalarsOf_keys_sub rest q hq)
      | list xs =>
          rw [scalarsOf] at hq
          exact List.mem_cons_of_mem _ (scalarsOf_keys_sub rest q hq)
      | none =>
          rw [show scalarsOf ((k, Val.none) :: rest) = (k, Val.none) :: scalarsOf rest from rfl,
            List.map_cons] at hq
          rcases List.mem_cons.mp hq with rfl | hq2
          · exact List.mem_cons_self _ _
          · exact List.mem_cons_of_mem _ (scalarsOf_keys_sub rest q hq2)
      | str s =>
          rw [show scalarsOf ((k, Val.str s) :: rest) = (k, Val.str s) :: scalarsOf rest from rfl,
            List.map_cons] at hq
          rcases List.mem_cons.mp hq with rfl | hq2
          · exact List.mem_cons_self _ _
          · exact List.mem_cons_of_mem _ (scalarsOf_keys_sub rest q hq2)
      | int n =>
          rw [show scalarsOf ((k, Val.int n) :: rest) = (k, Val.int n) :: scalarsOf rest from rfl,
            List.map_cons] at hq
          rcases List.mem_cons.mp hq with rfl | hq2
          · exact List.mem_cons_self _ _
          · exact List.mem_cons_of_mem _ (scalarsOf_keys_sub rest q hq2)
      | err m c =>
          rw [show scalarsOf ((k, Val.err m c) :: rest) = (k, Val.err m c) :: scalarsOf rest from rfl,
            List.map_cons] at hq
          rcases List.mem_cons.mp hq with rfl | hq2
          · exact List.mem_cons_self _ _
          · exact List.mem_cons_of_mem _ (scalarsOf_keys_sub rest q hq2)

theorem dictGroupsOf_keys_sub :
    ∀ (es : List (String × Val)), ∀ q ∈ (dictGroupsOf es).map Prod.fst, q ∈ es.map Prod.fst
  | [], q, hq => absurd hq (by simp [dictGroupsOf])
  | (k, v) :: rest, q, hq => by
      cases v with
      | dict cs =>
          rw [dictGroupsOf, List.map_cons] at hq
          rcases List.mem_cons.mp hq with rfl | hq2
          · exact List.mem_cons_self _ _
          · exact List.mem_cons_of_mem _ (dictGroupsOf_keys_sub rest q hq2)
      | list xs =>
          rw [show dictGroupsOf ((k, Val.list xs) :: rest) = dictGroupsOf rest from rfl] at hq
          exact List.mem_cons_of_mem _ (dictGroupsOf_keys_sub rest q hq)
      | none =>
          rw [show dictGroupsOf ((k, Val.none) :: rest) = dictGroupsOf rest from rfl] at hq
          exact List.mem_cons_of_mem _ (dictGroupsOf_keys_sub rest q hq)
      | str s =>
          rw [show dictGroupsOf ((k, Val.str s) :: rest) = dictGroupsOf rest from rfl] at hq
          exact List.mem_cons_of_mem _ (dictGroupsOf_keys_sub rest q hq)
      | int n =>
          rw [show dictGroupsOf ((k, Val.int n) :: rest) = dictGroupsOf rest from rfl] at hq
          exact List.mem_cons_of_mem _ (dictGroupsOf_keys_sub rest q hq)
      | err m c =>
          rw [show dictGroupsOf ((k, Val.err m c) :: rest) = dictGroupsOf rest from rfl] at hq
          exact List.mem_cons_of_mem _ (dictGroupsOf_keys_sub rest q hq)

theorem listGroupsOf_keys_sub :
    ∀ (es : List (String × Val)), ∀ q ∈ (listGroupsOf es).map Prod.fst, q ∈ es.map Prod.fst
  | [], q, hq => absurd hq (by simp [listGroupsOf])
  | (k, v) :: rest, q, hq => by
      cases v with
      | list xs =>
          rw [listGroupsOf, List.map_cons] at hq
          rcases List.mem_cons.mp hq with rfl | hq2
          · exact List.mem_cons_self _ _
          · exact List.mem_cons_of_mem _ (listGroupsOf_keys_sub rest q hq2)
      | dict cs =>
          rw [show listGroupsOf ((k, Val.dict cs) :: rest) = listGroupsOf rest from rfl] at hq
          exact List.mem_cons_of_mem _ (listGroupsOf_keys_sub rest q hq)
      | none =>
          rw [show listGroupsOf ((k, Val.none) :: rest) = listGroupsOf rest from rfl] at hq
          exact List.mem_cons_of_mem _ (listGroupsOf_keys_sub rest q hq)
      | str s =>
          rw [show listGroupsOf ((k, Val.str s) :: rest) = listGroupsOf rest from rfl] at hq
          exact List.mem_cons_of_mem _ (listGroupsOf_keys_sub rest q hq)
      | int n =>
          rw [show listGroupsOf ((k, Val.int n) :: rest) = listGroupsOf rest from rfl] at hq
          exact List.mem_cons_of_mem _ (listGroupsOf_keys_sub rest q hq)
      | err m c =>
          rw [show listGroupsOf ((k, Val.err m c) :: rest) = listGroupsOf rest from rfl] at hq
          exact List.mem_cons_of_mem _ (listGroupsOf_keys_sub rest q hq)

theorem flattenElemsF_ne_nil (i : Nat) :
    ∀ (xs : List Val), xs ≠ [] → repElems xs → flattenElemsF i xs ≠ []
  | [], hne, _ => absurd rfl hne
  | x :: rest, _, hrec => by
      rw [flattenElemsF]
      intro hap
      exact flattenUnderF_ne_nil (natKey i) x hrec.1 (List.append_eq_nil.mp hap).1

/-- Bucketing one flattened dict level: the scalar children become the
naked keys, each mapping child its own `.`-group, each sequence child its
own `:`-group, in child order within each bucket. -/
theorem expandDots1Aux_flatten :
    ∀ (es s : List (String × Val)) (d l : List (String × List (String × Val))),
      (es.map Prod.fst).Nodup → repEntries es →
      (∀ p ∈ es, alookup s p.1 = Option.none ∧ alookup d p.1 = Option.none ∧
        alookup l p.1 = Option.none) →
      expandDots1Aux (flattenEntriesF es) s d l =
        .ok (s ++ scalarsOf es, d ++ dictGroupsOf es, l ++ listGroupsOf es)
  | [], s, d, l, _, _, _ => by
      rw [flattenEntriesF, scalarsOf, dictGroupsOf, listGroupsOf]
      simp [expandDots1Aux]
  | (k, v) :: rest, s, d, l, hnd0, hrec, hfresh => by
      obtain ⟨hk, hrv, hrest⟩ := hrec
      have hnd : k ∉ rest.map Prod.fst ∧ (rest.map Prod.fst).Nodup := by
        rw [List.map_cons, List.nodup_cons] at hnd0
        exact hnd0
      have hfk := hfresh (k, v) (List.mem_cons_self _ _)
      cases v with
      | err m c => exact absurd hrv (by rw [repVal]; exact fun h => h)
      | none =>
          rw [flattenEntriesF]
          rw [show flattenUnderF k Val.none = [(k, Val.none)] from rfl, List.singleton_append]
          rw [show expandDots1Aux ((k, Val.none) :: flattenEntriesF rest) s d l =
              expandDots1Aux (flattenEntriesF rest) (pyUpdate s k Val.none) d l from by
            simp only [expandDots1Aux, hk, hfk.2.1, hfk.2.2]
            rfl]
          rw [pyUpdate_of_not_mem Val.none ((alookup_eq_none s k).mp hfk.1)]
          rw [show scalarsOf ((k, Val.none) :: rest) = (k, Val.none) :: scalarsOf rest from rfl,
            show dictGroupsOf ((k, Val.none) :: rest) = dictGroupsOf rest from rfl,
            show listGroupsOf ((k, Val.none) :: rest) = listGroupsOf rest from rfl]
          rw [show s ++ (k, Val.none) :: scalarsOf rest =
              (s ++ [(k, Val.none)]) ++ scalarsOf rest from by simp]
          exact expandDots1Aux_flatten rest (s ++ [(k, Val.none)]) d l hnd.2 hrest
            (fun p hp => by
              have h3 := hfresh p (List.mem_cons_of_mem _ hp)
              have hpk : p.1 ≠ k := by
                intro he
                exact hnd.1 (by
                  rw [← he]
                  exact List.mem_map.mpr ⟨p, hp, rfl⟩)
              exact ⟨alookup_append_none s [(k, Val.none)] p.1 h3.1
                (alookup_single_ne p.1 k Val.none (fun hcon => hpk hcon.symm)), h3.2.1, h3.2.2⟩)
      | str s0 =>
          rw [flattenEntriesF]
          rw [show flattenUnderF k (Val.str s0) = [(k, (Val.str s0))] from rfl, List.singleton_append]
          rw [show expandDots1Aux ((k, (Val.str s0)) :: flattenEntriesF rest) s d l =
              expandDots1Aux (flattenEntriesF rest) (pyUpdate s k (Val.str s0)) d l from by
            simp only [expandDots1Aux, hk, hfk.2.1, hfk.2.2]
            rfl]
          rw [pyUpdate_of_not_mem (Val.str s0) ((alookup_eq_none s k).mp hfk.1)]
          rw [show scalarsOf ((k, (Val.str s0)) :: rest) = (k, (Val.str s0)) :: scalarsOf rest from rfl,
            show dictGroupsOf ((k, (Val.str s0)) :: rest) = dictGroupsOf rest from rfl,
            show listGroupsOf ((k, (Val.str s0)) :: rest) = listGroupsOf rest from rfl]
          rw [show s ++ (k, (Val.str s0)) :: scalarsOf rest =
              (s ++ [(k, (Val.str s0))]) ++ scalarsOf rest from by simp]
          exact expandDots1Aux_flatten rest (s ++ [(k, (Val.str s0))]) d l hnd.2 hrest
            (fun p hp => by
              have h3 := hfresh p (List.mem_cons_of_mem _ hp)
              have hpk : p.1 ≠ k := by
                intro he
                exact hnd.1 (by
                  rw [← he]
                  exact List.mem_map.mpr ⟨p, hp, rfl⟩)
              exact ⟨alookup_append_none s [(k, (Val.str s0))] p.1 h3.1
                (alookup_single_ne p.1 k (Val.str s0) (fun hcon => hpk hcon.symm)), h3.2.1, h3.2.2⟩)
      | int n0 =>
          rw [flattenEntriesF]
          rw [show flattenUnderF k (Val.int n0) = [(k, (Val.int n0))] from rfl, List.singleton_append]
          rw [show expandDots1Aux ((k, (Val.int n0)) :: flattenEntriesF rest) s d l =
              expandDots1Aux (flattenEntriesF rest) (pyUpdate s k (Val.int n0)) d l from by
            simp only [expandDots1Aux, hk, hfk.2.1, hfk.2.2]
            rfl]
          rw [pyUpdate_of_not_mem (Val.int n0) ((alookup_eq_none s k).mp hfk.1)]
          rw [show scalarsOf ((k, (Val.int n0)) :: rest) = (k, (Val.int n0)) :: scalarsOf rest from rfl,
            show dictGroupsOf ((k, (Val.int n0)) :: rest) = dictGroupsOf rest from rfl,
            show listGroupsOf ((k, (Val.int n0)) :: rest) = listGroupsOf rest from rfl]
          rw [show s ++ (k, (Val.int n0)) :: scalarsOf rest =
              (s ++ [(k, (Val.int n0))]) ++ scalarsOf rest from by simp]
          exact expandDots1Aux_flatten rest (s ++ [(k, (Val.int n0))]) d l hnd.2 hrest
            (fun p hp => by
              have h3 := hfresh p (List.mem_cons_of_mem _ hp)
              have hpk : p.1 ≠ k := by
                intro he
                exact hnd.1 (by
                  rw [← he]
                  exact List.mem_map.mpr ⟨p, hp, rfl⟩)
              exact ⟨alookup_append_none s [(k, (Val.int n0))] p.1 h3.1
                (alookup_single_ne p.1 k (Val.int n0) (fun hcon => hpk hcon.symm)), h3.2.1, h3.2.2⟩)
      | dict cs =>
          obtain ⟨hcne, hcnd, hcrec⟩ := hrv
          rw [flattenEntriesF]
          rw [show flattenUnderF k (Val.dict cs) =
              (flattenEntriesF cs).map (fun p => (k ++ "." ++ p.1, p.2)) from rfl]
          rw [expandDots1Aux_dot_run k (flattenEntriesF cs) (flattenEntriesF rest) s d l
            (fun p _ => splitFirstDelim_dot k p.1 hk) hfk.1 hfk.2.2]
          obtain ⟨t0, subrest, hsub⟩ : ∃ t0 subrest, flattenEntriesF cs = t0 :: subrest := by
            cases hsc : flattenEntriesF cs with
            | nil => exact absurd hsc (flattenEntriesF_ne_nil cs hcne hcrec)
            | cons a b => exact ⟨a, b, rfl⟩
          rw [hsub, foldl_group_start k t0 subrest d hfk.2.1, ← hsub]
          rw [foldl_pyUpdate_eq_append (flattenEntriesF cs) []
            (by simpa using flatKeysEntries cs hcnd hcrec), List.nil_append]
          rw [show scalarsOf ((k, Val.dict cs) :: rest) = scalarsOf rest from rfl,
            show dictGroupsOf ((k, Val.dict cs) :: rest) =
              (k, flattenEntriesF cs) :: dictGroupsOf rest from rfl,
            show listGroupsOf ((k, Val.dict cs) :: rest) = listGroupsOf rest from rfl]
          rw [show d ++ (k, flattenEntriesF cs) :: dictGroupsOf rest =
              (d ++ [(k, flattenEntriesF cs)]) ++ dictGroupsOf rest from by simp]
          exact expandDots1Aux_flatten rest s (d ++ [(k, flattenEntriesF cs)]) l hnd.2 hrest
            (fun p hp => by
              have h3 := hfresh p (List.mem_cons_of_mem _ hp)
              have hpk : p.1 ≠ k := by
                intro he
                exact hnd.1 (by
                  rw [← he]
                  exact List.mem_map.mpr ⟨p, hp, rfl⟩)
              exact ⟨h3.1, alookup_append_none d [(k, flattenEntriesF cs)] p.1 h3.2.1
                (alookup_single_ne p.1 k (flattenEntriesF cs) (fun hcon => hpk hcon.symm)),
                h3.2.2⟩)
      | list xs =>
          obtain ⟨hcne, hcrec⟩ := hrv
          rw [flattenEntriesF]
          rw [show flattenUnderF k (Val.list xs) =
              (flattenElemsF 0 xs).map (fun p => (k ++ ":" ++ p.1, p.2)) from rfl]
          rw [expandDots1Aux_colon_run k (flattenElemsF 0 xs) (flattenEntriesF rest) s d l
            (fun p _ => splitFirstDelim_colon k p.1 hk) hfk.1 hfk.2.1]
          obtain ⟨t0, subrest, hsub⟩ : ∃ t0 subrest, flattenElemsF 0 xs = t0 :: subrest := by
            cases hsc : flattenElemsF 0 xs with
            | nil => exact absurd hsc (flattenElemsF_ne_nil 0 xs hcne hcrec)
            | cons a b => exact ⟨a, b, rfl⟩
          rw [hsub, foldl_group_start k t0 subrest l hfk.2.2, ← hsub]
          rw [foldl_pyUpdate_eq_append (flattenElemsF 0 xs) []
            (by simpa using flatKeysElems 0 xs hcrec), List.nil_append]
          rw [show scalarsOf ((k, Val.list xs) :: rest) = scalarsOf rest from rfl,
            show dictGroupsOf ((k, Val.list xs) :: rest) = dictGroupsOf rest from rfl,
            show listGroupsOf ((k, Val.list xs) :: rest) =
              (k, flattenElemsF 0 xs) :: listGroupsOf rest from rfl]
          rw [show l ++ (k, flattenElemsF 0 xs) :: listGroupsOf rest =
              (l ++ [(k, flattenElemsF 0 xs)]) ++ listGroupsOf rest from by simp]
          exact expandDots1Aux_flatten rest s d (l ++ [(k, flattenElemsF 0 xs)]) hnd.2 hrest
            (fun p hp => by
              have h3 := hfresh p (List.mem_cons_of_mem _ hp)
              have hpk : p.1 ≠ k := by
                intro he
                exact hnd.1 (by
                  rw [← he]
                  exact List.mem_map.mpr ⟨p, hp, rfl⟩)
              exact ⟨h3.1, h3.2.1, alookup_append_none l [(k, flattenElemsF 0 xs)] p.1 h3.2.2
                (alookup_single_ne p.1 k (flattenElemsF 0 xs) (fun hcon => hpk hcon.symm))⟩)

theorem expandDots1_flatten (es : List (String × Val)) (hnd : (es.map Prod.fst).Nodup)
    (hrec : repEntries es) :
    expandDots1 (flattenEntriesF es) =
      .ok (scalarsOf es, dictGroupsOf es, listGroupsOf es) := by
  have h := expandDots1Aux_flatten es [] [] [] hnd hrec (fun p _ => ⟨rfl, rfl, rfl⟩)
  simpa [expandDots1] using h

theorem intEnum_key_ge : ∀ (i : Nat) (ws : List Val), ∀ q ∈ intEnum i ws, Int.ofNat i ≤ q.1
  | _, [], q, hq => absurd hq (List.not_mem_nil q)
  | i, w :: ws, q, hq => by
      rw [intEnum] at hq
      rcases List.mem_cons.mp hq with rfl | hq2
      · exact le_refl _
      · have h1 := intEnum_key_ge (i + 1) ws q hq2
        have h2 : Int.ofNat i ≤ Int.ofNat (i + 1) := Int.ofNat_le.mpr (by omega)
        exact le_trans h2 h1

theorem intEnum_sorted_lt : ∀ (i : Nat) (ws : List Val),
    List.Pairwise (fun a b => a.1 < b.1) (intEnum i ws)
  | _, [] => List.Pairwise.nil
  | i, w :: ws => by
      rw [intEnum]
      refine List.Pairwise.cons (fun q hq => ?_) (intEnum_sorted_lt (i + 1) ws)
      have h1 := intEnum_key_ge (i + 1) ws q hq
      have h2 : Int.ofNat i < Int.ofNat (i + 1) := Int.ofNat_lt.mpr (by omega)
      exact lt_of_lt_of_le h2 h1

theorem intEnum_map_snd : ∀ (i : Nat) (ws : List Val), (intEnum i ws).map (fun q => q.2) = ws
  | _, [] => rfl
  | i, w :: ws => by
      rw [intEnum, List.map_cons, intEnum_map_snd (i + 1) ws]

theorem pairwise_lt_keys_nodup :
    ∀ {l : List (Int × Val)}, List.Pairwise (fun a b => a.1 < b.1) l →
      (l.map Prod.fst).Nodup := by
  intro l
  induction l with
  | nil => intro _; exact List.nodup_nil
  | cons a t ih =>
      intro hlt
      rcases List.pairwise_cons.mp hlt with ⟨ha, ht⟩
      rw [List.map_cons, List.nodup_cons]
      refine ⟨fun hmem => ?_, ih ht⟩
      obtain ⟨b, hb, hab⟩ := List.mem_map.mp hmem
      exact absurd (hab ▸ ha b hb) (lt_irrefl a.1)

theorem pairwise_le_nodup_lt :
    ∀ {l : List (Int × Val)}, List.Pairwise (fun a b => a.1 ≤ b.1) l →
      (l.map Prod.fst).Nodup → List.Pairwise (fun a b => a.1 < b.1) l := by
  intro l
  induction l with
  | nil => intro _ _; exact List.Pairwise.nil
  | cons a t ih =>
      intro hle hnd
      rw [List.map_cons, List.nodup_cons] at hnd
      rcases List.pairwise_cons.mp hle with ⟨ha, ht⟩
      refine List.Pairwise.cons (fun b hb => ?_) (ih ht hnd.2)
      refine lt_of_le_of_ne (ha b hb) (fun he => hnd.1 ?_)
      rw [he]
      exact List.mem_map.mpr ⟨b, hb, rfl⟩

theorem perm_sorted_lt_eq :
    ∀ (l1 l2 : List (Int × Val)), List.Perm l1 l2 →
      List.Pairwise (fun a b => a.1 < b.1) l1 →
      List.Pairwise (fun a b => a.1 < b.1) l2 → l1 = l2
  | [], l2, hp, _, _ => hp.nil_eq
  | a :: t1, l2, hp, hs1, hs2 => by
      cases l2 with
      | nil => exact absurd (hp.symm.nil_eq) (by
          intro h
          cases h)
      | cons b t2 =>
          rcases List.pairwise_cons.mp hs1 with ⟨ha1, ht1⟩
          rcases List.pairwise_cons.mp hs2 with ⟨hb2, ht2⟩
          have hab : a = b := by
            rcases List.mem_cons.mp (hp.subset (List.mem_cons_self a t1)) with h | hat2
            · exact h
            · rcases List.mem_cons.mp (hp.symm.subset (List.mem_cons_self b t2)) with h | hbt1
              · exact h.symm
              · exact absurd (lt_trans (hb2 a hat2) (ha1 b hbt1)) (lt_irrefl _)
          subst hab
          rw [perm_sorted_lt_eq t1 t2 hp.cons_inv ht1 ht2]

/-! Forall₂-alignment helpers for the Python equality. -/
theorem forall2_fst :
    ∀ {ps es : List (String × Val)},
      List.Forall₂ (fun p q => p.1 = q.1 ∧ valEq p.2 q.2 = true) ps es →
      ps.map Prod.fst = es.map Prod.fst := by
  intro ps es h
  induction h with
  | nil => rfl
  | cons h1 _ ih => simp [ih, h1.1]

theorem forall2_alookup :
    ∀ {ps es : List (String × Val)},
      List.Forall₂ (fun p q => p.1 = q.1 ∧ valEq p.2 q.2 = true) ps es →
      (es.map Prod.fst).Nodup →
      ∀ p ∈ ps, ∃ w, alookup es p.1 = some w ∧ valEq p.2 w = true := by
  intro ps es h
  induction h with
  | nil =>
      intro _ p hp
      cases hp
  | @cons p0 q0 ps0 es0 h1 h2 ih =>
      intro hnd p hp
      rw [List.map_cons, List.nodup_cons] at hnd
      rcases List.mem_cons.mp hp with rfl | hp2
      · obtain ⟨a, b⟩ := q0
        refine ⟨b, ?_, h1.2⟩
        rw [h1.1, alookup_cons, if_pos rfl]
      · obtain ⟨w, hw, hv⟩ := ih hnd.2 p hp2
        obtain ⟨a, b⟩ := q0
        refine ⟨w, ?_, hv⟩
        have hne : ¬ a = p.1 := by
          intro he
          refine hnd.1 ?_
          rw [he]
          have hmem : p.1 ∈ ps0.map Prod.fst := List.mem_map.mpr ⟨p, hp2, rfl⟩
          rw [forall2_fst h2] at hmem
          exact hmem
        rw [alookup_cons, if_neg hne, hw]

theorem valEqEntries_of :
    ∀ (out es : List (String × Val)),
      (∀ p ∈ out, ∃ w, alookup es p.1 = some w ∧ valEq p.2 w = true) →
      valEqEntries out es = true
  | [], _, _ => rfl
  | (k, v) :: rest, es, h => by
      obtain ⟨w, hw, hv⟩ := h (k, v) (List.mem_cons_self _ _)
      rw [valEqEntries, hw]
      rw [show (match some w with
          | some w => valEq v w
          | Option.none => false) = valEq v w from rfl]
      rw [hv, valEqEntries_of rest es (fun p hp => h p (List.mem_cons_of_mem _ hp))]
      rfl

theorem valEq_dict_of (out ps es : List (String × Val))
    (hperm : List.Perm out ps)
    (hfa : List.Forall₂ (fun p q => p.1 = q.1 ∧ valEq p.2 q.2 = true) ps es)
    (hnd : (es.map Prod.fst).Nodup) :
    valEq (Val.dict out) (Val.dict es) = true := by
  have hlen : out.length = es.length := hperm.length_eq.trans hfa.length_eq
  rw [show valEq (Val.dict out) (Val.dict es) =
      ((out.length == es.length) && valEqEntries out es) from rfl]
  rw [hlen]
  rw [valEqEntries_of out es (fun p hp => forall2_alookup hfa hnd p (hperm.subset hp))]
  simp

theorem forall2_snd_valEqElems :
    ∀ {ps es : List (String × Val)},
      List.Forall₂ (fun p q => p.1 = q.1 ∧ valEq p.2 q.2 = true) ps es →
      valEqElems (ps.map fun p => p.2) (es.map fun q => q.2) = true := by
  intro ps es h
  induction h with
  | nil => rfl
  | cons h1 _ ih =>
      simp only [List.map_cons]
      rw [valEqElems, h1.2, ih]
      rfl

/-! ## Enumerated entries and fuel bounds (C8) -/
theorem enumFrom_fst_ge :
    ∀ (j : Nat) (l : List Val) (p : Nat × Val), p ∈ List.enumFrom j l → j ≤ p.1
  | _, [], p, hp => absurd hp (List.not_mem_nil p)
  | j, x :: l, p, hp => by
      rw [List.enumFrom_cons] at hp
      rcases List.mem_cons.mp hp with rfl | hp2
      · exact le_refl _
      · exact le_trans (by omega) (enumFrom_fst_ge (j + 1) l p hp2)

theorem enum_natKeys_nodup : ∀ (i : Nat) (xs : List Val),
    ((List.enumFrom i xs).map fun p => natKey p.1).Nodup
  | _, [] => List.nodup_nil
  | i, x :: xs => by
      rw [List.enumFrom_cons, List.map_cons, List.nodup_cons]
      refine ⟨fun hmem => ?_, enum_natKeys_nodup (i + 1) xs⟩
      obtain ⟨p, hp, hk⟩ := List.mem_map.mp hmem
      have h1 := enumFrom_fst_ge (i + 1) xs p hp
      have h2 := natKey_inj hk
      omega

theorem repEntries_enum : ∀ (i : Nat) (xs : List Val), repElems xs →
    repEntries ((List.enumFrom i xs).map fun p => (natKey p.1, p.2))
  | _, [], _ => trivial
  | i, x :: xs, h => by
      rw [List.enumFrom_cons, List.map_cons]
      exact ⟨splitFirstDelim_natKey i, h.1, repEntries_enum (i + 1) xs h.2⟩

theorem enum_map_snd : ∀ (i : Nat) (xs : List Val),
    ((List.enumFrom i xs).map fun p => (natKey p.1, p.2)).map (fun q => q.2) = xs
  | _, [] => rfl
  | i, x :: xs => by
      rw [List.enumFrom_cons, List.map_cons, List.map_cons, enum_map_snd (i + 1) xs]

theorem ann_enum : ∀ (i : Nat) (xs : List Val) (ps : List (String × Val)),
    ps.map Prod.fst = (List.enumFrom i xs).map (fun p => natKey p.1) →
    ps.map (fun p => ((pyInt? p.1).getD 0, p.2)) = intEnum i (ps.map fun p => p.2)
  | _, _, [], _ => rfl
  | i, [], p :: ps, h => by
      rw [show List.enumFrom i ([] : List Val) = [] from rfl] at h
      simp at h
  | i, x :: xs, p :: ps, h => by
      rw [List.map_cons, List.enumFrom_cons, List.map_cons, List.cons.injEq] at h
      rw [List.map_cons, List.map_cons, intEnum]
      rw [h.1, pyInt?_natKey]
      rw [ann_enum (i + 1) xs ps h.2]
      rfl

theorem flatDepthEntries_mem :
    ∀ (es : List (String × Val)), ∀ p ∈ es, flatDepth p.2 ≤ flatDepthEntries es
  | [], p, hp => absurd hp (List.not_mem_nil p)
  | (k, v) :: rest, p, hp => by
      rw [show flatDepthEntries ((k, v) :: rest) =
          max (flatDepth v) (flatDepthEntries rest) from rfl]
      rcases List.mem_cons.mp hp with rfl | hp2
      · exact le_max_left _ _
      · exact le_trans (flatDepthEntries_mem rest p hp2) (le_max_right _ _)

theorem flatDepthElems_mem :
    ∀ (xs : List Val), ∀ v ∈ xs, flatDepth v ≤ flatDepthElems xs
  | [], v, hv => absurd hv (List.not_mem_nil v)
  | x :: rest, v, hv => by
      rw [show flatDepthElems (x :: rest) = max (flatDepth x) (flatDepthElems rest) from rfl]
      rcases List.mem_cons.mp hv with rfl | hv2
      · exact le_max_left _ _
      · exact le_trans (flatDepthElems_mem rest v hv2) (le_max_right _ _)

theorem flatDepthEntries_enum : ∀ (i : Nat) (xs : List Val),
    flatDepthEntries ((List.enumFrom i xs).map fun p => (natKey p.1, p.2)) =
      flatDepthElems xs
  | _, [] => rfl
  | i, x :: xs => by
      rw [List.enumFrom_cons, List.map_cons]
      rw [show flatDepthEntries ((natKey i, x) ::
          ((List.enumFrom (i + 1) xs).map fun p => (natKey p.1, p.2))) =
          max (flatDepth x)
            (flatDepthEntries ((List.enumFrom (i + 1) xs).map fun p => (natKey p.1, p.2)))
          from rfl]
      rw [flatDepthEntries_enum (i + 1) xs]
      rfl

theorem repEntries_mem : ∀ (es : List (String × Val)), repEntries es →
    ∀ p ∈ es, splitFirstDelim p.1 = Option.none ∧ repVal p.2
  | [], _, p, hp => absurd hp (List.not_mem_nil p)
  | (k, v) :: rest, hrec, p, hp => by
      rcases List.mem_cons.mp hp with rfl | hp2
      · exact ⟨hrec.1, hrec.2.1⟩
      · exact repEntries_mem rest hrec.2.2 p hp2

theorem maxKeyLen_append : ∀ (l1 l2 : List (String × Val)),
    maxKeyLen (l1 ++ l2) = max (maxKeyLen l1) (maxKeyLen l2)
  | [], l2 => by
      rw [List.nil_append]
      rw [show maxKeyLen ([] : List (String × Val)) = 0 from rfl]
      omega
  | p :: l1, l2 => by
      rw [List.cons_append]
      rw [show maxKeyLen (p :: (l1 ++ l2)) = max p.1.length (maxKeyLen (l1 ++ l2)) from rfl]
      rw [maxKeyLen_append l1 l2]
      rw [show maxKeyLen (p :: l1) = max p.1.length (maxKeyLen l1) from rfl]
      exact (max_assoc _ _ _).symm

theorem maxKeyLen_attain : ∀ (d : List (String × Val)), d ≠ [] →
    ∃ p ∈ d, p.1.length = maxKeyLen d
  | [], h => absurd rfl h
  | p :: rest, _ => by
      cases hr : rest with
      | nil =>
          refine ⟨p, List.mem_cons_self _ _, ?_⟩
          rw [show maxKeyLen [p] = max p.1.length 0 from rfl]
          omega
      | cons q rest2 =>
          obtain ⟨p2, hp2, hlen⟩ := maxKeyLen_attain rest (by
            rw [hr]
            exact List.cons_ne_nil _ _)
          rw [← hr]
          rcases le_total (maxKeyLen rest) p.1.length with h | h
          · refine ⟨p, List.mem_cons_self _ _, ?_⟩
            rw [show maxKeyLen (p :: rest) = max p.1.length (maxKeyLen rest) from rfl]
            omega
          · refine ⟨p2, List.mem_cons_of_mem _ hp2, ?_⟩
            rw [show maxKeyLen (p :: rest) = max p.1.length (maxKeyLen rest) from rfl]
            omega

mutual

theorem depth_le_under : ∀ (k : String) (v : Val), repVal v →
    flatDepth v ≤ maxKeyLen (flattenUnderF k v)
  | k, .dict cs, hr => by
      obtain ⟨hcne, hcnd, hcrec⟩ := hr
      obtain ⟨p, hp, hlen⟩ :=
        maxKeyLen_attain (flattenEntriesF cs) (flattenEntriesF_ne_nil cs hcne hcrec)
      have hmem : (k ++ "." ++ p.1, p.2) ∈ flattenUnderF k (Val.dict cs) := by
        rw [show flattenUnderF k (Val.dict cs) =
            (flattenEntriesF cs).map (fun q => (k ++ "." ++ q.1, q.2)) from rfl]
        exact List.mem_map.mpr ⟨p, hp, rfl⟩
      have h1 : (k ++ "." ++ p.1).length ≤ maxKeyLen (flattenUnderF k (Val.dict cs)) :=
        maxKeyLen_mem _ _ hmem
      have hc1 : ("." : String).length = 1 := rfl
      have hlen2 : (k ++ "." ++ p.1).length = k.length + 1 + p.1.length := by
        rw [String.length_append, String.length_append, hc1]
      have h2 := depth_le_entries cs hcrec
      rw [show flatDepth (Val.dict cs) = flatDepthEntries cs + 1 from rfl]
      omega
  | k, .list xs, hr => by
      obtain ⟨hcne, hcrec⟩ := hr
      obtain ⟨p, hp, hlen⟩ :=
        maxKeyLen_attain (flattenElemsF 0 xs) (flattenElemsF_ne_nil 0 xs hcne hcrec)
      have hmem : (k ++ ":" ++ p.1, p.2) ∈ flattenUnderF k (Val.list xs) := by
        rw [show flattenUnderF k (Val.list xs) =
            (flattenElemsF 0 xs).map (fun q => (k ++ ":" ++ q.1, q.2)) from rfl]
        exact List.mem_map.mpr ⟨p, hp, rfl⟩
      have h1 : (k ++ ":" ++ p.1).length ≤ maxKeyLen (flattenUnderF k (Val.list xs)) :=
        maxKeyLen_mem _ _ hmem
      have hc1 : (":" : String).length = 1 := rfl
      have hlen2 : (k ++ ":" ++ p.1).length = k.length + 1 + p.1.length := by
        rw [String.length_append, String.length_append, hc1]
      have h2 := depth_le_elems 0 xs hcrec
      rw [show flatDepth (Val.list xs) = flatDepthElems xs + 1 from rfl]
      omega
  | _, .none, _ => Nat.zero_le _
  | _, .str s, _ => Nat.zero_le _
  | _, .int n, _ => Nat.zero_le _
  | _, .err m c, hr => absurd hr (by rw [repVal]; exact fun h => h)

theorem depth_le_entries : ∀ (es : List (String × Val)), repEntries es →
    flatDepthEntries es ≤ maxKeyLen (flattenEntriesF es)
  | [], _ => Nat.le_refl 0
  | (k, v) :: rest, hrec => by
      obtain ⟨hk, hrv, hrest⟩ := hrec
      rw [show flatDepthEntries ((k, v) :: rest) =
          max (flatDepth v) (flatDepthEntries rest) from rfl]
      rw [flattenEntriesF, maxKeyLen_append]
      have h1 := depth_le_under k v hrv
      have h2 := depth_le_entries rest hrest
      omega

theorem depth_le_elems : ∀ (i : Nat) (xs : List Val), repElems xs →
    flatDepthElems xs ≤ maxKeyLen (flattenElemsF i xs)
  | _, [], _ => Nat.le_refl 0
  | i, x :: rest, hrec => by
      rw [show flatDepthElems (x :: rest) = max (flatDepth x) (flatDepthElems rest) from rfl]
      rw [flattenElemsF, maxKeyLen_append]
      have h1 := depth_le_under (natKey i) x hrec.1
      have h2 := depth_le_elems (i + 1) rest hrec.2
      omega

end

/-! ## Assembling one expanded level (C8) -/
/-- Converting one `:`-group: with the expansion of the enumerated
entries in hand, `convertGroup` parses the decimal keys back to the
element indices and the integer sort restores the original element
order, whatever order the bucketing produced. -/
theorem list_child_convert (M : Nat)
    (hIH : ∀ (es2 : List (String × Val)), (es2.map Prod.fst).Nodup → repEntries es2 →
      flatDepthEntries es2 < M →
      ∃ out ps, expandIntoB M (flattenEntriesF es2) = .ok out ∧ List.Perm out ps ∧
        List.Forall₂ (fun p q => p.1 = q.1 ∧ valEq p.2 q.2 = true) ps es2)
    (xs : List Val) (hrep : repElems xs) (hdep : flatDepthElems xs < M) :
    ∃ g2 vs, expandIntoB M (flattenElemsF 0 xs) = .ok g2 ∧ convertGroup g2 = .ok vs ∧
      valEq (Val.list vs) (Val.list xs) = true := by
  have hnd : (((List.enumFrom 0 xs).map fun p => (natKey p.1, p.2)).map Prod.fst).Nodup := by
    rw [show ((List.enumFrom 0 xs).map fun p => (natKey p.1, p.2)).map Prod.fst =
        (List.enumFrom 0 xs).map (fun p => natKey p.1) from by
      rw [List.map_map]
      rfl]
    exact enum_natKeys_nodup 0 xs
  obtain ⟨out, ps, hrun, hperm, hfa⟩ := hIH _ hnd (repEntries_enum 0 xs hrep)
    (by
      rw [flatDepthEntries_enum 0 xs]
      exact hdep)
  have hkeys : ps.map Prod.fst = (List.enumFrom 0 xs).map (fun p => natKey p.1) := by
    rw [forall2_fst hfa]
    rw [List.map_map]
    rfl
  refine ⟨out, ps.map (fun p => p.2), ?_, ?_, ?_⟩
  · rw [flattenElemsF_as_entries 0 xs]
    exact hrun
  · have hint : ∀ p ∈ out, (pyInt? p.1).isSome = true := by
      intro p hp
      have hm : p.1 ∈ ps.map Prod.fst := List.mem_map.mpr ⟨p, hperm.subset hp, rfl⟩
      rw [hkeys] at hm
      obtain ⟨q, hq, hqk⟩ := List.mem_map.mp hm
      rw [← hqk, pyInt?_natKey]
      rfl
    have hann : ps.map (fun p => ((pyInt? p.1).getD 0, p.2)) =
        intEnum 0 (ps.map fun p => p.2) := ann_enum 0 xs ps hkeys
    have hpermints : List.Perm (out.map (fun p => ((pyInt? p.1).getD 0, p.2)))
        (intEnum 0 (ps.map fun p => p.2)) := by
      rw [← hann]
      exact hperm.map _
    have hsortperm := (sortByKey_perm (out.map (fun p => ((pyInt? p.1).getD 0, p.2)))).trans
      hpermints
    have hndkeys : ((sortByKey (out.map (fun p => ((pyInt? p.1).getD 0, p.2)))).map
        Prod.fst).Nodup :=
      (List.Perm.nodup_iff (hsortperm.map Prod.fst)).mpr
        (pairwise_lt_keys_nodup (intEnum_sorted_lt 0 _))
    have hsorted := pairwise_le_nodup_lt
      (sortByKey_sorted (out.map (fun p => ((pyInt? p.1).getD 0, p.2)))) hndkeys
    have heq : sortByKey (out.map (fun p => ((pyInt? p.1).getD 0, p.2))) =
        intEnum 0 (ps.map fun p => p.2) :=
      perm_sorted_lt_eq _ _ hsortperm hsorted (intEnum_sorted_lt 0 _)
    simp only [convertGroup]
    rw [parseKeys_ok out hint]
    dsimp only
    rw [heq, intEnum_map_snd]
  · rw [show valEq (Val.list (ps.map fun p => p.2)) (Val.list xs) =
        valEqElems (ps.map fun p => p.2) xs from rfl]
    have h := forall2_snd_valEqElems hfa
    rw [enum_map_snd 0 xs] at h
    exact h

/-- Assembling the expanded entries of one level out of the three buckets:
the result is a permutation of the per-child results aligned with the
original children. -/
theorem flatten_assemble (M : Nat) :
    ∀ (es : List (String × Val)), repEntries es →
      (∀ (k : String) (cs : List (String × Val)), (k, Val.dict cs) ∈ es →
        ∃ outc, expandIntoB M (flattenEntriesF cs) = .ok outc ∧
          valEq (Val.dict outc) (Val.dict cs) = true) →
      (∀ (k : String) (xs : List Val), (k, Val.list xs) ∈ es →
        ∃ g2 vs, expandIntoB M (flattenElemsF 0 xs) = .ok g2 ∧ convertGroup g2 = .ok vs ∧
          valEq (Val.list vs) (Val.list xs) = true) →
      ∃ dictParts listParts ps,
        exceptList (fun q =>
          match expandIntoB M q.2 with
          | .error e => .error e
          | .ok r => .ok (q.1, Val.dict r)) (dictGroupsOf es) = .ok dictParts ∧
        exceptList (fun q =>
          match expandIntoB M q.2 with
          | .error e => .error e
          | .ok r =>
              match convertGroup r with
              | .error e => .error e
              | .ok vs => .ok (q.1, Val.list vs)) (listGroupsOf es) = .ok listParts ∧
        List.Perm (scalarsOf es ++ dictParts ++ listParts) ps ∧
        List.Forall₂ (fun p q => p.1 = q.1 ∧ valEq p.2 q.2 = true) ps es
  | [], _, _, _ => ⟨[], [], [], rfl, rfl, List.Perm.nil, List.Forall₂.nil⟩
  | (k, v) :: rest, hrec, hD, hL => by
      obtain ⟨hk, hrv, hrest⟩ := hrec
      cases v with
      | err m c => exact absurd hrv (by rw [repVal]; exact fun h => h)
      | none =>
          obtain ⟨dP, lP, ps2, h1, h2, hp, hf⟩ := flatten_assemble M rest hrest
            (fun k2 cs2 hm => hD k2 cs2 (List.mem_cons_of_mem _ hm))
            (fun k2 xs2 hm => hL k2 xs2 (List.mem_cons_of_mem _ hm))
          refine ⟨dP, lP, (k, Val.none) :: ps2, ?_, ?_, ?_, ?_⟩
          · rw [show dictGroupsOf ((k, Val.none) :: rest) = dictGroupsOf rest from rfl]
            exact h1
          · rw [show listGroupsOf ((k, Val.none) :: rest) = listGroupsOf rest from rfl]
            exact h2
          · rw [show scalarsOf ((k, Val.none) :: rest) = (k, Val.none) :: scalarsOf rest from rfl]
            simp only [List.cons_append]
            exact hp.cons _
          · exact List.Forall₂.cons ⟨rfl, valEq_refl_scalar Val.none rfl⟩ hf
      | str s0 =>
          obtain ⟨dP, lP, ps2, h1, h2, hp, hf⟩ := flatten_assemble M rest hrest
            (fun k2 cs2 hm => hD k2 cs2 (List.mem_cons_of_mem _ hm))
            (fun k2 xs2 hm => hL k2 xs2 (List.mem_cons_of_mem _ hm))
          refine ⟨dP, lP, (k, (Val.str s0)) :: ps2, ?_, ?_, ?_, ?_⟩
          · rw [show dictGroupsOf ((k, (Val.str s0)) :: rest) = dictGroupsOf rest from rfl]
            exact h1
          · rw [show listGroupsOf ((k, (Val.str s0)) :: rest) = listGroupsOf rest from rfl]
            exact h2
          · rw [show scalarsOf ((k, (Val.str s0)) :: rest) = (k, (Val.str s0)) :: scalarsOf rest from rfl]
            simp only [List.cons_append]
            exact hp.cons _
          · exact List.Forall₂.cons ⟨rfl, valEq_refl_scalar (Val.str s0) rfl⟩ hf
      | int n0 =>
          obtain ⟨dP, lP, ps2, h1, h2, hp, hf⟩ := flatten_assemble M rest hrest
            (fun k2 cs2 hm => hD k2 cs2 (List.mem_cons_of_mem _ hm))
            (fun k2 xs2 hm => hL k2 xs2 (List.mem_cons_of_mem _ hm))
          refine ⟨dP, lP, (k, (Val.int n0)) :: ps2, ?_, ?_, ?_, ?_⟩
          · rw [show dictGroupsOf ((k, (Val.int n0)) :: rest) = dictGroupsOf rest from rfl]
            exact h1
          · rw [show listGroupsOf ((k, (Val.int n0)) :: rest) = listGroupsOf rest from rfl]
            exact h2
          · rw [show scalarsOf ((k, (Val.int n0)) :: rest) = (k, (Val.int n0)) :: scalarsOf rest from rfl]
            simp only [List.cons_append]
            exact hp.cons _
          · exact List.Forall₂.cons ⟨rfl, valEq_refl_scalar (Val.int n0) rfl⟩ hf
      | dict cs =>
          obtain ⟨dP, lP, ps2, h1, h2, hp, hf⟩ := flatten_assemble M rest hrest
            (fun k2 cs2 hm => hD k2 cs2 (List.mem_cons_of_mem _ hm))
            (fun k2 xs2 hm => hL k2 xs2 (List.mem_cons_of_mem _ hm))
          obtain ⟨outc, hout, hveq⟩ := hD k cs (List.mem_cons_self _ _)
          refine ⟨(k, Val.dict outc) :: dP, lP, (k, Val.dict outc) :: ps2, ?_, ?_, ?_, ?_⟩
          · rw [show dictGroupsOf ((k, Val.dict cs) :: rest) =
                (k, flattenEntriesF cs) :: dictGroupsOf rest from rfl]
            simp only [exceptList]
            rw [hout]
            dsimp only
            rw [h1]
          · rw [show listGroupsOf ((k, Val.dict cs) :: rest) = listGroupsOf rest from rfl]
            exact h2
          · rw [show scalarsOf ((k, Val.dict cs) :: rest) = scalarsOf rest from rfl]
            have hre : scalarsOf rest ++ ((k, Val.dict outc) :: dP) ++ lP =
                scalarsOf rest ++ (k, Val.dict outc) :: (dP ++ lP) := by
              simp
            rw [hre]
            have hp2 : List.Perm (scalarsOf rest ++ (dP ++ lP)) ps2 := by
              rw [← List.append_assoc]
              exact hp
            exact List.perm_middle.trans (hp2.cons _)
          · exact List.Forall₂.cons ⟨rfl, hveq⟩ hf
      | list xs =>
          obtain ⟨dP, lP, ps2, h1, h2, hp, hf⟩ := flatten_assemble M rest hrest
            (fun k2 cs2 hm => hD k2 cs2 (List.mem_cons_of_mem _ hm))
            (fun k2 xs2 hm => hL k2 xs2 (List.mem_cons_of_mem _ hm))
          obtain ⟨g2, vs, hout, hconv, hveq⟩ := hL k xs (List.mem_cons_self _ _)
          refine ⟨dP, (k, Val.list vs) :: lP, (k, Val.list vs) :: ps2, ?_, ?_, ?_, ?_⟩
          · rw [show dictGroupsOf ((k, Val.list xs) :: rest) = dictGroupsOf rest from rfl]
            exact h1
          · rw [show listGroupsOf ((k, Val.list xs) :: rest) =
                (k, flattenElemsF 0 xs) :: listGroupsOf rest from rfl]
            simp only [exceptList]
            rw [hout]
            dsimp only
            rw [hconv]
            dsimp only
            rw [h2]
          · rw [show scalarsOf ((k, Val.list xs) :: rest) = scalarsOf rest from rfl]
            exact List.perm_middle.trans (hp.cons _)
          · exact List.Forall₂.cons ⟨rfl, hveq⟩ hf

/-- One level of `expand_dots` on a flattened representable dict, with any
sufficient fuel: the level expands without error to entries that are,
up to dict-key order, the original children with recursively equal
values. -/
theorem expand_flatten_main :
    ∀ (fuel : Nat) (es : List (String × Val)),
      (es.map Prod.fst).Nodup → repEntries es → flatDepthEntries es < fuel →
      ∃ out ps, expandIntoB fuel (flattenEntriesF es) = .ok out ∧ List.Perm out ps ∧
        List.Forall₂ (fun p q => p.1 = q.1 ∧ valEq p.2 q.2 = true) ps es := by
  intro fuel
  induction fuel with
  | zero =>
      intro es _ _ h
      omega
  | succ M ih =>
      intro es hnd hrec hdep
      have hD : ∀ (k : String) (cs : List (String × Val)), (k, Val.dict cs) ∈ es →
          ∃ outc, expandIntoB M (flattenEntriesF cs) = .ok outc ∧
            valEq (Val.dict outc) (Val.dict cs) = true := by
        intro k cs hmem
        obtain ⟨hcne, hcnd, hcrec⟩ : repVal (Val.dict cs) := (repEntries_mem es hrec _ hmem).2
        have hdc : flatDepthEntries cs < M := by
          have h1 : flatDepth (Val.dict cs) ≤ flatDepthEntries es :=
            flatDepthEntries_mem es _ hmem
          rw [show flatDepth (Val.dict cs) = flatDepthEntries cs + 1 from rfl] at h1
          omega
        obtain ⟨outc, psc, hrun, hperm, hfa⟩ := ih cs hcnd hcrec hdc
        exact ⟨outc, hrun, valEq_dict_of outc psc cs hperm hfa hcnd⟩
      have hL : ∀ (k : String) (xs : List Val), (k, Val.list xs) ∈ es →
          ∃ g2 vs, expandIntoB M (flattenElemsF 0 xs) = .ok g2 ∧ convertGroup g2 = .ok vs ∧
            valEq (Val.list vs) (Val.list xs) = true := by
        intro k xs hmem
        obtain ⟨hxne, hxrec⟩ : repVal (Val.list xs) := (repEntries_mem es hrec _ hmem).2
        have hdx : flatDepthElems xs < M := by
          have h1 : flatDepth (Val.list xs) ≤ flatDepthEntries es :=
            flatDepthEntries_mem es _ hmem
          rw [show flatDepth (Val.list xs) = flatDepthElems xs + 1 from rfl] at h1
          omega
        exact list_child_convert M ih xs hxrec hdx
      obtain ⟨dP, lP, ps, h1, h2, hperm, hfa⟩ := flatten_assemble M es hrec hD hL
      refine ⟨scalarsOf es ++ dP ++ lP, ps, ?_, hperm, hfa⟩
      have hun : expandIntoB (M + 1) (flattenEntriesF es) =
          (match expandDots1 (flattenEntriesF es) with
          | .error e => .error e
          | .ok (singles, dicts, lists) =>
              match exceptList (fun q =>
                  match expandIntoB M q.2 with
                  | .error e => .error e
                  | .ok r => .ok (q.1, Val.dict r)) dicts with
              | .error e => .error e
              | .ok dictParts =>
                  match exceptList (fun q =>
                      match expandIntoB M q.2 with
                      | .error e => .error e
                      | .ok r =>
                          match convertGroup r with
                          | .error e => .error e
                          | .ok vs2 => .ok (q.1, Val.list vs2)) lists with
                  | .error e => .error e
                  | .ok listParts => .ok (singles ++ dictParts ++ listParts)) := rfl
      rw [hun, expandDots1_flatten es hnd hrec]
      dsimp only
      rw [h1]
      dsimp only
      rw [h2]

/-- **C8** (status: confirmed).  For every nested structure of string-keyed
mappings, sequences and scalars that the dotted/coloned key scheme can
represent (`repEntries`: delimiter-free distinct keys, non-empty
containers, scalar leaves), flattening it with `.` for object fields and
`:` for sequence indices and then applying `expand_dots` reproduces a
structure equal to the original — Python equality, which compares dicts
as unordered mappings and lists positionally. -/
theorem c8_flatten_expand_roundtrip (es : List (String × Val))
    (hnd : (es.map Prod.fst).Nodup) (hrec : repEntries es) :
    ∃ w, expandDots (flattenEntriesF es) = .ok w ∧ valEq w (Val.dict es) = true := by
  cases es with
  | nil => exact ⟨Val.dict [], rfl, rfl⟩
  | cons e rest =>
      have hne : flattenEntriesF (e :: rest) ≠ [] :=
        flattenEntriesF_ne_nil (e :: rest) (List.cons_ne_nil _ _) hrec
      have hlt : flatDepthEntries (e :: rest) <
          maxKeyLen (flattenEntriesF (e :: rest)) + 1 := by
        have h := depth_le_entries (e :: rest) hrec
        omega
      obtain ⟨out, ps, hrun, hperm, hfa⟩ := expand_flatten_main
        (maxKeyLen (flattenEntriesF (e :: rest)) + 1) (e :: rest) hnd hrec hlt
      refine ⟨Val.dict out, ?_, valEq_dict_of out ps (e :: rest) hperm hfa hnd⟩
      have hfalse : (flattenEntriesF (e :: rest)).isEmpty = false := by
        rw [List.isEmpty_eq_false]
        exact hne
      simp only [expandDots, expandInto]
      rw [hfalse]
      simp only [Bool.false_eq_true, if_false]
      rw [hrun]

/-- Concrete instance of C8: a mapping holding a scalar, a nested mapping
and a sequence whose second element is itself a mapping. -/
theorem c8_witness :
    ∃ w, expandDots (flattenEntriesF
        [("a", Val.str "x"),
         ("b", Val.dict [("c", Val.int 5), ("e", Val.str "y")]),
         ("d", Val.list [Val.str "u", Val.dict [("z", Val.int 7)]])]) = .ok w ∧
      valEq w (Val.dict
        [("a", Val.str "x"),
         ("b", Val.dict [("c", Val.int 5), ("e", Val.str "y")]),
         ("d", Val.list [Val.str "u", Val.dict [("z", Val.int 7)]])]) = true :=
  c8_flatten_expand_roundtrip _ (by decide)
    ⟨rfl, trivial, rfl,
      ⟨List.cons_ne_nil _ _, by decide, rfl, trivial, rfl, trivial, trivial⟩,
      rfl,
      ⟨List.cons_ne_nil _ _, trivial,
        ⟨List.cons_ne_nil _ _, by decide, rfl, trivial, trivial⟩, trivial⟩,
      trivial⟩

/-! ## The decode-conflict characterization (C3) -/
theorem splitChars_eq :
    ∀ (cs : List Char) (h : List Char) (d : Char) (t : List Char),
      splitChars cs = some (h, d, t) → cs = h ++ d :: t ∧ isDelim d = true
  | [], h, d, t, he => by cases he
  | c :: rest, h, d, t, he => by
      rw [splitChars] at he
      split at he
      · rename_i hc
        cases he
        exact ⟨rfl, hc⟩
      · rename_i hc
        cases hsp : splitChars rest with
        | none =>
            rw [hsp] at he
            cases he
        | some p =>
            rw [hsp] at he
            obtain ⟨h2, d2, t2⟩ := p
            dsimp only at he
            rw [Option.some.injEq, Prod.mk.injEq, Prod.mk.injEq] at he
            obtain ⟨hH, hD, hT⟩ := he
            subst hH
            subst hD
            subst hT
            obtain ⟨hcs, hd⟩ := splitChars_eq rest h2 d2 t2 hsp
            refine ⟨?_, hd⟩
            rw [List.cons_append, ← hcs]

theorem splitFirstDelim_eq (k : String) (h : String) (d : Char) (t : String)
    (he : splitFirstDelim k = some (h, d, t)) :
    k.data = h.data ++ d :: t.data ∧ isDelim d = true := by
  rw [splitFirstDelim] at he
  cases hsp : splitChars k.data with
  | none =>
      rw [hsp] at he
      cases he
  | some p =>
      rw [hsp] at he
      simp only [Option.map] at he
      cases he
      obtain ⟨hc, hd⟩ := splitChars_eq k.data p.1 p.2.1 p.2.2 hsp
      exact ⟨hc, hd⟩

theorem splitFirstDelim_len {k h : String} {d : Char} {t : String}
    (he : splitFirstDelim k = some (h, d, t)) : k.length = h.length + 1 + t.length := by
  obtain ⟨hc, _⟩ := splitFirstDelim_eq k h d t he
  have : k.data.length = h.data.length + 1 + t.data.length := by
    rw [hc]
    simp
    omega
  exact this

theorem splitFirstDelim_inj {k1 k2 h : String} {d : Char} {t : String}
    (h1 : splitFirstDelim k1 = some (h, d, t)) (h2 : splitFirstDelim k2 = some (h, d, t)) :
    k1 = k2 := by
  obtain ⟨hc1, _⟩ := splitFirstDelim_eq k1 h d t h1
  obtain ⟨hc2, _⟩ := splitFirstDelim_eq k2 h d t h2
  exact string_data_inj (hc1.trans hc2.symm)

theorem groupOf_nil (h : String) (d : Char) : groupOf [] h d = [] := rfl

theorem conflictD_nil : ¬ ConflictD [] := by
  intro h
  generalize hb : ([] : List (String × Val)) = b at h
  induction h with
  | naked h1 _ _ _ =>
      rw [← hb] at h1
      exact absurd h1 (List.not_mem_nil _)
  | mixed h1 _ _ _ =>
      rw [← hb] at h1
      exact absurd h1 (List.not_mem_nil _)
  | badIndex h1 _ _ =>
      rw [← hb] at h1
      exact absurd h1 (List.not_mem_nil _)
  | sub h d _ ih =>
      rename_i base _
      rw [← hb] at ih
      exact ih (by rw [groupOf_nil])

theorem alookup_some_mem {κ α : Type} [DecidableEq κ] :
    ∀ (l : List (κ × α)) (k : κ) (v : α), alookup l k = some v → (k, v) ∈ l
  | [], k, v, h => by cases h
  | (a, b) :: l, k, v, h => by
      rw [alookup_cons] at h
      split at h
      · rename_i hak
        cases h
        rw [← hak]
        exact List.mem_cons_self _ _
      · exact List.mem_cons_of_mem _ (alookup_some_mem l k v h)

theorem pyUpdate_keys_of_mem {κ α : Type} [DecidableEq κ] :
    ∀ (l : List (κ × α)) (k : κ) (v : α), k ∈ l.map Prod.fst →
      (pyUpdate l k v).map Prod.fst = l.map Prod.fst
  | [], k, v, h => absurd h (List.not_mem_nil k)
  | (a, b) :: l, k, v, h => by
      rw [List.map_cons] at h
      rw [pyUpdate]
      by_cases hak : a = k
      · rw [if_pos hak]
        simp
      · have hm2 : k ∈ l.map Prod.fst := by
          rcases List.mem_cons.mp h with h1 | h1
          · exact absurd h1.symm hak
          · exact h1
        rw [if_neg hak, List.map_cons, List.map_cons, pyUpdate_keys_of_mem l k v hm2]

theorem pyUpdate_mem_char {κ α : Type} [DecidableEq κ] :
    ∀ (l : List (κ × α)) (k : κ) (v : α) (q : κ × α), (l.map Prod.fst).Nodup →
      q ∈ pyUpdate l k v → (q.1 = k ∧ q.2 = v) ∨ (q ∈ l ∧ q.1 ≠ k)
  | [], k, v, q, _, hq => by
      rw [show pyUpdate ([] : List (κ × α)) k v = [(k, v)] from rfl] at hq
      rw [List.mem_singleton.mp hq]
      exact Or.inl ⟨rfl, rfl⟩
  | (a, b) :: l, k, v, q, hnd, hq => by
      rw [List.map_cons, List.nodup_cons] at hnd
      rw [pyUpdate] at hq
      by_cases hak : a = k
      · rw [if_pos hak] at hq
        rcases List.mem_cons.mp hq with rfl | hq2
        · exact Or.inl ⟨hak, rfl⟩
        · refine Or.inr ⟨List.mem_cons_of_mem _ hq2, fun he => hnd.1 ?_⟩
          rw [hak, ← he]
          exact List.mem_map.mpr ⟨q, hq2, rfl⟩
      · rw [if_neg hak] at hq
        rcases List.mem_cons.mp hq with rfl | hq2
        · exact Or.inr ⟨List.mem_cons_self _ _, fun he => hak he⟩
        · rcases pyUpdate_mem_char l k v q hnd.2 hq2 with h | ⟨hm, hne⟩
          · exact Or.inl h
          · exact Or.inr ⟨List.mem_cons_of_mem _ hm, hne⟩

theorem exceptList_error_of_mem {ε α β : Type} (f : α → Except ε β) :
    ∀ (l : List α) (a : α) (e : ε), a ∈ l → f a = .error e →
      ∃ e2, exceptList f l = .error e2
  | [], a, e, ha, _ => absurd ha (List.not_mem_nil a)
  | x :: l, a, e, ha, hf => by
      cases hx : f x with
      | error e3 =>
          refine ⟨e3, ?_⟩
          rw [exceptList, hx]
      | ok b =>
          rcases List.mem_cons.mp ha with rfl | ha2
          · rw [hx] at hf
            cases hf
          · obtain ⟨e2, he2⟩ := exceptList_error_of_mem f l a e ha2 hf
            refine ⟨e2, ?_⟩
            rw [exceptList, hx, he2]

theorem exceptList_ok_keys {ε β : Type} (f : (String × β) → Except ε (String × Val)) :
    ∀ (l : List (String × β)),
      (∀ a ∈ l, ∃ w, f a = .ok (a.1, w)) →
      ∃ bs, exceptList f l = .ok bs ∧ bs.map Prod.fst = l.map Prod.fst
  | [], _ => ⟨[], rfl, rfl⟩
  | x :: l, h => by
      obtain ⟨w, hw⟩ := h x (List.mem_cons_self _ _)
      obtain ⟨bs, hbs, hkeys⟩ :=
        exceptList_ok_keys f l (fun a ha => h a (List.mem_cons_of_mem _ ha))
      refine ⟨(x.1, w) :: bs, ?_, ?_⟩
      · rw [exceptList, hw, hbs]
      · rw [List.map_cons, List.map_cons, hkeys]

theorem parseKeys_error_of_mem :
    ∀ (l : List (String × Val)) (p : String × Val), p ∈ l → pyInt? p.1 = Option.none →
      ∃ e, parseKeys l = .error e
  | [], p, hp, _ => absurd hp (List.not_mem_nil p)
  | (k, v) :: l, p, hp, hbad => by
      cases hk : pyInt? k with
      | none =>
          refine ⟨intLitMsg k, ?_⟩
          rw [parseKeys, hk]
      | some n =>
          rcases List.mem_cons.mp hp with rfl | hp2
          · rw [hk] at hbad
            cases hbad
          · obtain ⟨e, he⟩ := parseKeys_error_of_mem l p hp2 hbad
            refine ⟨e, ?_⟩
            rw [parseKeys, hk, he]

theorem groupOf_append (l1 l2 : List (String × Val)) (h : String) (d : Char) :
    groupOf (l1 ++ l2) h d = groupOf l1 h d ++ groupOf l2 h d :=
  List.filterMap_append l1 l2 _

theorem groupOf_single_hit (p : String × Val) (h : String) (d : Char) (t : String)
    (hs : splitFirstDelim p.1 = some (h, d, t)) : groupOf [p] h d = [(t, p.2)] := by
  rw [groupOf, List.filterMap]
  rw [hs]
  dsimp only
  rw [if_pos ⟨rfl, rfl⟩]
  rfl

theorem groupOf_single_miss (p : String × Val) (h : String) (d : Char)
    (hno : ∀ t, splitFirstDelim p.1 ≠ some (h, d, t)) : groupOf [p] h d = [] := by
  rw [groupOf, List.filterMap]
  cases hs : splitFirstDelim p.1 with
  | none => rfl
  | some q =>
      obtain ⟨h2, d2, t2⟩ := q
      dsimp only
      rw [if_neg]
      · rfl
      · intro hcon
        exact hno t2 (by rw [hs, hcon.1, hcon.2])

theorem groupOf_mem_inv (base : List (String × Val)) (h : String) (d : Char)
    (q : String × Val) (hq : q ∈ groupOf base h d) :
    ∃ p ∈ base, splitFirstDelim p.1 = some (h, d, q.1) ∧ p.2 = q.2 := by
  obtain ⟨p, hp, hf⟩ := List.mem_filterMap.mp hq
  refine ⟨p, hp, ?_⟩
  cases hs : splitFirstDelim p.1 with
  | none =>
      rw [hs] at hf
      cases hf
  | some r =>
      obtain ⟨h2, d2, t2⟩ := r
      rw [hs] at hf
      dsimp only at hf
      split at hf
      · rename_i hcon
        cases hf
        exact ⟨by rw [hcon.1, hcon.2], rfl⟩
      · cases hf

theorem groupOf_mem_of (base : List (String × Val)) {p : String × Val} (hp : p ∈ base)
    {h : String} {d : Char} {t : String} (hs : splitFirstDelim p.1 = some (h, d, t)) :
    (t, p.2) ∈ groupOf base h d := by
  refine List.mem_filterMap.mpr ⟨p, hp, ?_⟩
  rw [hs]
  dsimp only
  rw [if_pos ⟨rfl, rfl⟩]

theorem groupOf_ne_nil_hasDelim (base : List (String × Val)) (h : String) (d : Char)
    (hne : groupOf base h d ≠ []) : hasDelimKey base h d := by
  cases hg : groupOf base h d with
  | nil => exact absurd hg hne
  | cons q rest =>
      obtain ⟨p, hp, hs, _⟩ := groupOf_mem_inv base h d q (by
        rw [hg]
        exact List.mem_cons_self _ _)
      exact ⟨p, hp, q.1, hs⟩

theorem hasDelimKey_append_single (P : List (String × Val)) (k : String) (v : Val)
    (h2 : String) (d : Char) :
    hasDelimKey (P ++ [(k, v)]) h2 d ↔
      hasDelimKey P h2 d ∨ ∃ t, splitFirstDelim k = some (h2, d, t) := by
  constructor
  · rintro ⟨p, hp, t, hs⟩
    rcases List.mem_append.mp hp with h | h
    · exact Or.inl ⟨p, h, t, hs⟩
    · rw [List.mem_singleton.mp h] at hs
      exact Or.inr ⟨t, hs⟩
  · rintro (⟨p, hp, t, hs⟩ | ⟨t, hs⟩)
    · exact ⟨p, List.mem_append.mpr (Or.inl hp), t, hs⟩
    · exact ⟨(k, v), List.mem_append.mpr (Or.inr (List.mem_singleton.mpr rfl)), t, hs⟩

theorem nakedOf_append_naked (P : List (String × Val)) (k : String) (v : Val)
    (hs : splitFirstDelim k = Option.none) :
    nakedOf (P ++ [(k, v)]) = nakedOf P ++ [(k, v)] := by
  rw [nakedOf, List.filter_append]
  rw [show List.filter (fun p => (splitFirstDelim p.1).isNone) [(k, v)] = [(k, v)] from by
    rw [List.filter, hs]
    rfl]
  rfl

theorem nakedOf_append_delim (P : List (String × Val)) (k : String) (v : Val)
    {h : String} {d : Char} {t : String} (hs : splitFirstDelim k = some (h, d, t)) :
    nakedOf (P ++ [(k, v)]) = nakedOf P := by
  rw [nakedOf, List.filter_append]
  rw [show List.filter (fun p => (splitFirstDelim p.1).isNone) [(k, v)] = [] from by
    rw [List.filter, hs]
    rfl]
  rw [List.append_nil]
  rfl

theorem nakedOf_mem (P : List (String × Val)) (q : String × Val) (hq : q ∈ nakedOf P) :
    q ∈ P ∧ splitFirstDelim q.1 = Option.none := by
  obtain ⟨h1, h2⟩ := List.mem_filter.mp hq
  exact ⟨h1, Option.isNone_iff_eq_none.mp h2⟩

theorem nodup_middle_key (P R : List (String × Val)) (k : String) (v : Val)
    (hnd : (((P ++ (k, v) :: R)).map Prod.fst).Nodup) :
    k ∉ P.map Prod.fst ∧ k ∉ R.map Prod.fst := by
  rw [List.map_append, List.map_cons] at hnd
  obtain ⟨h1, h2, h3⟩ := List.nodup_append.mp hnd
  exact ⟨fun hk => h3 hk (List.mem_cons_self _ _), (List.nodup_cons.mp h2).1⟩

theorem isDelim_cases {d : Char} (h : isDelim d = true) : d = '.' ∨ d = ':' := by
  rw [isDelim, Bool.or_eq_true] at h
  rcases h with h | h
  · exact Or.inl (by
      rw [← beq_iff_eq]
      exact h)
  · exact Or.inr (by
      rw [← beq_iff_eq]
      exact h)

theorem bucket_lookup_none (P : List (String × Val)) (d : Char)
    (B : List (String × List (String × Val))) (h2 : String) (hinv : BucketInv P d B)
    (hnodelim : ¬ hasDelimKey P h2 d) : alookup B h2 = Option.none := by
  cases hq : alookup B h2 with
  | none => rfl
  | some g =>
      exact absurd ((hinv.2.2 h2).mp
        (List.mem_map.mpr ⟨(h2, g), alookup_some_mem B h2 g hq, rfl⟩)) hnodelim

/-- Preservation of the bucket invariant by a key of the other shape. -/
theorem BucketInv_skip (P : List (String × Val)) (d : Char)
    (B : List (String × List (String × Val))) (k : String) (v : Val)
    (hinv : BucketInv P d B)
    (hno : ∀ (h2 t2 : String), splitFirstDelim k ≠ some (h2, d, t2)) :
    BucketInv (P ++ [(k, v)]) d B := by
  obtain ⟨hn, hent, hkeys⟩ := hinv
  refine ⟨hn, ?_, ?_⟩
  · intro hg hmem
    rw [hent hg hmem, groupOf_append, groupOf_single_miss (k, v) hg.1 d (fun t => hno hg.1 t),
      List.append_nil]
  · intro h2
    rw [hasDelimKey_append_single]
    constructor
    · intro hm
      exact Or.inl ((hkeys h2).mp hm)
    · rintro (hm | ⟨t, hs⟩)
      · exact (hkeys h2).mpr hm
      · exact absurd hs (hno h2 t)

/-- Preservation of the bucket invariant by the `setdefault`-update of a
key of this shape. -/
theorem BucketInv_update (P : List (String × Val)) (d : Char)
    (B : List (String × List (String × Val))) (k : String) (v : Val) (h t : String)
    (hinv : BucketInv P d B)
    (hs : splitFirstDelim k = some (h, d, t))
    (hkP : k ∉ P.map Prod.fst) :
    BucketInv (P ++ [(k, v)]) d
      (pyUpdate B h (pyUpdate ((alookup B h).getD []) t v)) := by
  obtain ⟨hn, hent, hkeys⟩ := hinv
  have hsingle : groupOf [(k, v)] h d = [(t, v)] := groupOf_single_hit (k, v) h d t hs
  have hgroup_new : groupOf (P ++ [(k, v)]) h d = groupOf P h d ++ [(t, v)] := by
    rw [groupOf_append, hsingle]
  have hgroup_old : ∀ h2, h2 ≠ h → groupOf (P ++ [(k, v)]) h2 d = groupOf P h2 d := by
    intro h2 hne
    rw [groupOf_append, groupOf_single_miss (k, v) h2 d (fun t2 hcon => by
        rw [hs, Option.some.injEq, Prod.mk.injEq] at hcon
        exact hne hcon.1.symm), List.append_nil]
  have htg : ∀ g0, alookup B h = some g0 → pyUpdate g0 t v = g0 ++ [(t, v)] := by
    intro g0 hg0
    refine pyUpdate_of_not_mem v (fun htmem => ?_)
    obtain ⟨⟨t2, w⟩, hmem, ht2⟩ := List.mem_map.mp htmem
    have hg0e : g0 = groupOf P h d := hent (h, g0) (alookup_some_mem B h g0 hg0)
    rw [hg0e] at hmem
    obtain ⟨p2, hp2, hsp2, _⟩ := groupOf_mem_inv P h d (t2, w) hmem
    have hk2 : p2.1 = k := splitFirstDelim_inj hsp2 (by rw [hs, ht2])
    exact hkP (by
      rw [← hk2]
      exact List.mem_map.mpr ⟨p2, hp2, rfl⟩)
  cases hB : alookup B h with
  | some g0 =>
      have hBmem : h ∈ B.map Prod.fst :=
        List.mem_map.mpr ⟨(h, g0), alookup_some_mem B h g0 hB, rfl⟩
      rw [show (some g0).getD ([] : List (String × Val)) = g0 from rfl, htg g0 hB]
      refine ⟨?_, ?_, ?_⟩
      · rw [pyUpdate_keys_of_mem B h _ hBmem]
        exact hn
      · intro hg hmem
        rcases pyUpdate_mem_char B h _ hg hn hmem with ⟨he1, he2⟩ | ⟨hmem2, hne⟩
        · have hg0e2 : g0 = groupOf P h d := hent (h, g0) (alookup_some_mem B h g0 hB)
          rw [he2, he1, hgroup_new, hg0e2]
        · rw [hent hg hmem2, hgroup_old hg.1 hne]
      · intro h2
        rw [pyUpdate_keys_of_mem B h _ hBmem, hasDelimKey_append_single]
        constructor
        · intro hm
          exact Or.inl ((hkeys h2).mp hm)
        · rintro (hm | ⟨t2, hs2⟩)
          · exact (hkeys h2).mpr hm
          · rw [hs, Option.some.injEq, Prod.mk.injEq] at hs2
            rw [← hs2.1]
            exact hBmem
  | none =>
      have hBnot : h ∉ B.map Prod.fst := (alookup_eq_none B h).mp hB
      have hGP : groupOf P h d = [] := by
        cases hgp : groupOf P h d with
        | nil => rfl
        | cons q r =>
            exact absurd ((hkeys h).mpr (groupOf_ne_nil_hasDelim P h d (by
              rw [hgp]
              exact List.cons_ne_nil _ _))) hBnot
      rw [show (Option.none : Option (List (String × Val))).getD [] = [] from rfl]
      rw [show pyUpdate ([] : List (String × Val)) t v = [(t, v)] from rfl]
      rw [pyUpdate_of_not_mem _ hBnot]
      refine ⟨?_, ?_, ?_⟩
      · rw [List.map_append]
        rw [List.nodup_append]
        exact ⟨hn, List.nodup_singleton h, fun a ha hb => by
          rw [List.mem_singleton.mp hb] at ha
          exact hBnot ha⟩
      · intro hg hmem
        rcases List.mem_append.mp hmem with hmem2 | hmem2
        · have hne : hg.1 ≠ h := fun he => hBnot (by
            rw [← he]
            exact List.mem_map.mpr ⟨hg, hmem2, rfl⟩)
          rw [hent hg hmem2, hgroup_old hg.1 hne]
        · rw [List.mem_singleton.mp hmem2]
          rw [show ((h, [(t, v)]) : String × List (String × Val)).2 = [(t, v)] from rfl]
          rw [hgroup_new, hGP]
          rfl
      · intro h2
        rw [List.map_append, List.mem_append, hasDelimKey_append_single]
        constructor
        · rintro (hm | hm)
          · exact Or.inl ((hkeys h2).mp hm)
          · rw [List.mem_singleton.mp hm]
            exact Or.inr ⟨t, hs⟩
        · rintro (hm | ⟨t2, hs2⟩)
          · exact Or.inl ((hkeys h2).mpr hm)
          · rw [hs, Option.some.injEq, Prod.mk.injEq] at hs2
            rw [← hs2.1]
            exact Or.inr (List.mem_singleton.mpr rfl)

/-- Success of the `_expand_dots_1` loop on a conflict-free flat dict,
with the final buckets characterized against the whole input. -/
theorem expandDots1Aux_ok_char (base : List (String × Val))
    (hnd : (base.map Prod.fst).Nodup)
    (hncn : ∀ (p1 p2 : String × Val) (d : Char) (t : String), p1 ∈ base → p2 ∈ base →
      splitFirstDelim p1.1 = Option.none → splitFirstDelim p2.1 ≠ some (p1.1, d, t))
    (hncm : ∀ (p1 p2 : String × Val) (h t1 t2 : String), p1 ∈ base → p2 ∈ base →
      splitFirstDelim p1.1 = some (h, '.', t1) →
      splitFirstDelim p2.1 ≠ some (h, ':', t2)) :
    ∀ (rest P S : List (String × Val)) (D L : List (String × List (String × Val))),
      base = P ++ rest → S = nakedOf P → BucketInv P '.' D → BucketInv P ':' L →
      ∃ Df Lf, expandDots1Aux rest S D L = .ok (nakedOf base, Df, Lf) ∧
        BucketInv base '.' Df ∧ BucketInv base ':' Lf
  | [], P, S, D, L, hb, hS, hD, hL => by
      rw [List.append_nil] at hb
      subst hb
      subst hS
      exact ⟨D, L, rfl, hD, hL⟩
  | (k, v) :: rest, P, S, D, L, hb, hS, hD, hL => by
      have hkv_base : (k, v) ∈ base := by
        rw [hb]
        exact List.mem_append.mpr (Or.inr (List.mem_cons_self _ _))
      have hmid := nodup_middle_key P rest k v (by
        rw [← hb]
        exact hnd)
      have hb2 : base = (P ++ [(k, v)]) ++ rest := by
        rw [hb, List.append_assoc, List.singleton_append]
      have hPbase : ∀ q ∈ P, q ∈ base := fun q hq => by
        rw [hb]
        exact List.mem_append.mpr (Or.inl hq)
      cases hsk : splitFirstDelim k with
      | none =>
          have hDk : alookup D k = Option.none := bucket_lookup_none P '.' D k hD (by
            rintro ⟨p2, hp2, t, hs2⟩
            exact hncn (k, v) p2 '.' t hkv_base (hPbase p2 hp2) hsk hs2)
          have hLk : alookup L k = Option.none := bucket_lookup_none P ':' L k hL (by
            rintro ⟨p2, hp2, t, hs2⟩
            exact hncn (k, v) p2 ':' t hkv_base (hPbase p2 hp2) hsk hs2)
          rw [show expandDots1Aux ((k, v) :: rest) S D L =
              expandDots1Aux rest (pyUpdate S k v) D L from by
            simp only [expandDots1Aux, hsk, hDk, hLk]
            rfl]
          have hSk : k ∉ S.map Prod.fst := by
            intro hm
            obtain ⟨q, hq, hqk⟩ := List.mem_map.mp hm
            have hq2 := (nakedOf_mem P q (hS ▸ hq)).1
            exact hmid.1 (by
              rw [← hqk]
              exact List.mem_map.mpr ⟨q, hq2, rfl⟩)
          have hSnew : pyUpdate S k v = nakedOf (P ++ [(k, v)]) := by
            rw [pyUpdate_of_not_mem v hSk, nakedOf_append_naked P k v hsk, hS]
          exact expandDots1Aux_ok_char base hnd hncn hncm rest (P ++ [(k, v)])
            (pyUpdate S k v) D L hb2 hSnew
            (BucketInv_skip P '.' D k v hD (fun h2 t2 hcon => by
              rw [hsk] at hcon
              cases hcon))
            (BucketInv_skip P ':' L k v hL (fun h2 t2 hcon => by
              rw [hsk] at hcon
              cases hcon))
      | some q =>
          obtain ⟨h, d, t⟩ := q
          have hSh : alookup S h = Option.none := by
            cases hq : alookup S h with
            | none => rfl
            | some v1 =>
                exfalso
                have hmem := alookup_some_mem S h v1 hq
                obtain ⟨hP1, hnone⟩ := nakedOf_mem P (h, v1) (hS ▸ hmem)
                exact hncn (h, v1) (k, v) d t (hPbase _ hP1) hkv_base hnone hsk
          rcases isDelim_cases (splitFirstDelim_eq k h d t hsk).2 with rfl | rfl
          · have hLh : alookup L h = Option.none := bucket_lookup_none P ':' L h hL (by
              rintro ⟨p2, hp2, t2, hs2⟩
              exact hncm (k, v) p2 h t t2 hkv_base (hPbase p2 hp2) hsk hs2)
            rw [show expandDots1Aux ((k, v) :: rest) S D L =
                expandDots1Aux rest S
                  (pyUpdate D h (pyUpdate ((alookup D h).getD []) t v)) L from by
              simp only [expandDots1Aux, hsk, hSh, hLh]
              rfl]
            exact expandDots1Aux_ok_char base hnd hncn hncm rest (P ++ [(k, v)]) S
              (pyUpdate D h (pyUpdate ((alookup D h).getD []) t v)) L hb2
              (by rw [hS, nakedOf_append_delim P k v hsk])
              (BucketInv_update P '.' D k v h t hD hsk hmid.1)
              (BucketInv_skip P ':' L k v hL (fun h2 t2 hcon => by
                rw [hsk, Option.some.injEq, Prod.mk.injEq, Prod.mk.injEq] at hcon
                exact absurd hcon.2.1 (by decide)))
          · have hDh : alookup D h = Option.none := bucket_lookup_none P '.' D h hD (by
              rintro ⟨p2, hp2, t2, hs2⟩
              exact hncm p2 (k, v) h t2 t (hPbase p2 hp2) hkv_base hs2 hsk)
            rw [show expandDots1Aux ((k, v) :: rest) S D L =
                expandDots1Aux rest S D
                  (pyUpdate L h (pyUpdate ((alookup L h).getD []) t v)) from by
              simp only [expandDots1Aux, hsk, hSh, hDh]
              rfl]
            exact expandDots1Aux_ok_char base hnd hncn hncm rest (P ++ [(k, v)]) S D
              (pyUpdate L h (pyUpdate ((alookup L h).getD []) t v)) hb2
              (by rw [hS, nakedOf_append_delim P k v hsk])
              (BucketInv_skip P '.' D k v hD (fun h2 t2 hcon => by
                rw [hsk, Option.some.injEq, Prod.mk.injEq, Prod.mk.injEq] at hcon
                exact absurd hcon.2.1 (by decide)))
              (BucketInv_update P ':' L k v h t hL hsk hmid.1)

theorem expandDots1_ok_char (base : List (String × Val))
    (hnd : (base.map Prod.fst).Nodup)
    (hncn : ∀ (p1 p2 : String × Val) (d : Char) (t : String), p1 ∈ base → p2 ∈ base →
      splitFirstDelim p1.1 = Option.none → splitFirstDelim p2.1 ≠ some (p1.1, d, t))
    (hncm : ∀ (p1 p2 : String × Val) (h t1 t2 : String), p1 ∈ base → p2 ∈ base →
      splitFirstDelim p1.1 = some (h, '.', t1) →
      splitFirstDelim p2.1 ≠ some (h, ':', t2)) :
    ∃ Df Lf, expandDots1 base = .ok (nakedOf base, Df, Lf) ∧
      BucketInv base '.' Df ∧ BucketInv base ':' Lf := by
  have h := expandDots1Aux_ok_char base hnd hncn hncm base [] [] [] []
    rfl rfl ⟨List.nodup_nil, fun hg hm => absurd hm (List.not_mem_nil hg),
      fun h2 => ⟨fun hm => absurd hm (List.not_mem_nil h2),
        fun ⟨p, hp, _⟩ => absurd hp (List.not_mem_nil p)⟩⟩
    ⟨List.nodup_nil, fun hg hm => absurd hm (List.not_mem_nil hg),
      fun h2 => ⟨fun hm => absurd hm (List.not_mem_nil h2),
        fun ⟨p, hp, _⟩ => absurd hp (List.not_mem_nil p)⟩⟩
  rw [expandDots1]
  exact h

theorem alookup_pyUpdate_isSome {κ α : Type} [DecidableEq κ] (l : List (κ × α))
    (k h : κ) (v : α) (hs : (alookup l h).isSome = true) :
    (alookup (pyUpdate l k v) h).isSome = true := by
  by_cases he : h = k
  · subst he
    rw [alookup_pyUpdate_self]
    rfl
  · rw [alookup_pyUpdate_ne l v he]
    exact hs

theorem pending_error :
    ∀ (rest S : List (String × Val)) (D L : List (String × List (String × Val))),
      Pending rest S D L → ∃ e, expandDots1Aux rest S D L = .error e
  | [], S, D, L, hp => by
      rcases hp with ⟨p1, hp1, _⟩ | ⟨p1, hp1, _⟩ | ⟨p, hp, _⟩ | ⟨p, hp, _⟩
      · exact absurd hp1 (List.not_mem_nil p1)
      · exact absurd hp1 (List.not_mem_nil p1)
      · exact absurd hp (List.not_mem_nil p)
      · exact absurd hp (List.not_mem_nil p)
  | (k, v) :: rest, S, D, L, hp => by
      cases hsk : splitFirstDelim k with
      | none =>
          by_cases hchk : ((alookup D k).isSome = true ∨ (alookup L k).isSome = true)
          · refine ⟨nakedParentMsg k, ?_⟩
            have hcond : ((alookup D k).isSome || (alookup L k).isSome) = true := by
              rcases hchk with h1 | h1
              · rw [h1]
                rfl
              · rw [h1, Bool.or_true]
            simp only [expandDots1Aux, hsk]
            rw [if_pos hcond]
          · have hDk : alookup D k = Option.none := by
              cases hx : alookup D k with
              | none => rfl
              | some g =>
                  exact absurd (Or.inl (by
                    rw [hx]
                    rfl)) hchk
            have hLk : alookup L k = Option.none := by
              cases hx : alookup L k with
              | none => rfl
              | some g =>
                  exact absurd (Or.inr (by
                    rw [hx]
                    rfl)) hchk
            have hstep : expandDots1Aux ((k, v) :: rest) S D L =
                expandDots1Aux rest (pyUpdate S k v) D L := by
              simp only [expandDots1Aux, hsk, hDk, hLk]
              rfl
            rw [hstep]
            refine pending_error rest (pyUpdate S k v) D L ?_
            rcases hp with ⟨p1, hp1, p2, hp2, d, t, hn1, hs2⟩ |
              ⟨p1, hp1, p2, hp2, h, t1, t2, hs1, hs2⟩ |
              ⟨p, hpm, hn, hor⟩ | ⟨p, hpm, h, d, t, hs, hor⟩
            · rcases List.mem_cons.mp hp1 with rfl | hp1r
              · rcases List.mem_cons.mp hp2 with rfl | hp2r
                · rw [hn1] at hs2
                  cases hs2
                · exact Or.inr (Or.inr (Or.inr ⟨p2, hp2r, (k, v).1, d, t, hs2,
                    Or.inl (by
                      rw [alookup_pyUpdate_self]
                      rfl)⟩))
              · rcases List.mem_cons.mp hp2 with rfl | hp2r
                · rw [show ((k, v) : String × Val).1 = k from rfl, hsk] at hs2
                  cases hs2
                · exact Or.inl ⟨p1, hp1r, p2, hp2r, d, t, hn1, hs2⟩
            · rcases List.mem_cons.mp hp1 with rfl | hp1r
              · rw [show ((k, v) : String × Val).1 = k from rfl, hsk] at hs1
                cases hs1
              · rcases List.mem_cons.mp hp2 with rfl | hp2r
                · rw [show ((k, v) : String × Val).1 = k from rfl, hsk] at hs2
                  cases hs2
                · exact Or.inr (Or.inl ⟨p1, hp1r, p2, hp2r, h, t1, t2, hs1, hs2⟩)
            · rcases List.mem_cons.mp hpm with rfl | hpr
              · exact absurd hor hchk
              · exact Or.inr (Or.inr (Or.inl ⟨p, hpr, hn, hor⟩))
            · rcases List.mem_cons.mp hpm with rfl | hpr
              · rw [show ((k, v) : String × Val).1 = k from rfl, hsk] at hs
                cases hs
              · refine Or.inr (Or.inr (Or.inr ⟨p, hpr, h, d, t, hs, ?_⟩))
                rcases hor with h1 | h2
                · exact Or.inl (alookup_pyUpdate_isSome S k h v h1)
                · exact Or.inr h2
      | some q =>
          obtain ⟨h0, d0, t0⟩ := q
          by_cases hchk1 : (alookup S h0).isSome = true
          · refine ⟨nakedParentMsg h0, ?_⟩
            simp only [expandDots1Aux, hsk]
            rw [if_pos hchk1]
          · have hSh : alookup S h0 = Option.none := by
              cases hx : alookup S h0 with
              | none => rfl
              | some g =>
                  exact absurd (by
                    rw [hx]
                    rfl) hchk1
            rcases isDelim_cases (splitFirstDelim_eq k h0 d0 t0 hsk).2 with rfl | rfl
            · by_cases hchk2 : (alookup L h0).isSome = true
              · refine ⟨dictListMsg h0, ?_⟩
                simp [expandDots1Aux, hsk, hSh, hchk2]
              · have hLh : alookup L h0 = Option.none := by
                  cases hx : alookup L h0 with
                  | none => rfl
                  | some g =>
                      exact absurd (by
                        rw [hx]
                        rfl) hchk2
                have hstep : expandDots1Aux ((k, v) :: rest) S D L =
                    expandDots1Aux rest S
                      (pyUpdate D h0 (pyUpdate ((alookup D h0).getD []) t0 v)) L := by
                  simp only [expandDots1Aux, hsk, hSh, hLh]
                  rfl
                rw [hstep]
                refine pending_error rest S _ L ?_
                rcases hp with ⟨p1, hp1, p2, hp2, d, t, hn1, hs2⟩ |
                  ⟨p1, hp1, p2, hp2, h, t1, t2, hs1, hs2⟩ |
                  ⟨p, hpm, hn, hor⟩ | ⟨p, hpm, h, d, t, hs, hor⟩
                · rcases List.mem_cons.mp hp1 with rfl | hp1r
                  · rw [show ((k, v) : String × Val).1 = k from rfl, hsk] at hn1
                    cases hn1
                  · rcases List.mem_cons.mp hp2 with rfl | hp2r
                    · rw [show ((k, v) : String × Val).1 = k from rfl, hsk,
                        Option.some.injEq, Prod.mk.injEq] at hs2
                      refine Or.inr (Or.inr (Or.inl ⟨p1, hp1r, hn1, Or.inl ?_⟩))
                      rw [← hs2.1, alookup_pyUpdate_self]
                      rfl
                    · exact Or.inl ⟨p1, hp1r, p2, hp2r, d, t, hn1, hs2⟩
                · rcases List.mem_cons.mp hp1 with rfl | hp1r
                  · rcases List.mem_cons.mp hp2 with rfl | hp2r
                    · rw [show ((k, v) : String × Val).1 = k from rfl, hsk,
                        Option.some.injEq, Prod.mk.injEq, Prod.mk.injEq] at hs2
                      exact absurd hs2.2.1 (by decide)
                    · rw [show ((k, v) : String × Val).1 = k from rfl, hsk,
                        Option.some.injEq, Prod.mk.injEq] at hs1
                      refine Or.inr (Or.inr (Or.inr ⟨p2, hp2r, h, ':', t2, hs2,
                        Or.inr (Or.inr ⟨rfl, ?_⟩)⟩))
                      rw [← hs1.1, alookup_pyUpdate_self]
                      rfl
                  · rcases List.mem_cons.mp hp2 with rfl | hp2r
                    · rw [show ((k, v) : String × Val).1 = k from rfl, hsk,
                        Option.some.injEq, Prod.mk.injEq, Prod.mk.injEq] at hs2
                      exact absurd hs2.2.1 (by decide)
                    · exact Or.inr (Or.inl ⟨p1, hp1r, p2, hp2r, h, t1, t2, hs1, hs2⟩)
                · rcases List.mem_cons.mp hpm with rfl | hpr
                  · rw [show ((k, v) : String × Val).1 = k from rfl, hsk] at hn
                    cases hn
                  · refine Or.inr (Or.inr (Or.inl ⟨p, hpr, hn, ?_⟩))
                    rcases hor with h1 | h2
                    · exact Or.inl (alookup_pyUpdate_isSome D h0 p.1 _ h1)
                    · exact Or.inr h2
                · rcases List.mem_cons.mp hpm with rfl | hpr
                  · rw [show ((k, v) : String × Val).1 = k from rfl, hsk,
                      Option.some.injEq, Prod.mk.injEq, Prod.mk.injEq] at hs
                    obtain ⟨hh, hd, ht⟩ := hs
                    rcases hor with h1 | ⟨_, h2⟩ | ⟨hdc, h3⟩
                    · rw [← hh] at h1
                      exact absurd h1 hchk1
                    · rw [← hh] at h2
                      exact absurd h2 hchk2
                    · rw [← hd] at hdc
                      exact absurd hdc (by decide)
                  · refine Or.inr (Or.inr (Or.inr ⟨p, hpr, h, d, t, hs, ?_⟩))
                    rcases hor with h1 | ⟨hd2, h2⟩ | ⟨hd3, h3⟩
                    · exact Or.inl h1
                    · exact Or.inr (Or.inl ⟨hd2, h2⟩)
                    · exact Or.inr (Or.inr ⟨hd3, alookup_pyUpdate_isSome D h0 h _ h3⟩)
            · by_cases hchk2 : (alookup D h0).isSome = true
              · refine ⟨dictListMsg h0, ?_⟩
                simp [expandDots1Aux, hsk, hSh, hchk2]
              · have hDh : alookup D h0 = Option.none := by
                  cases hx : alookup D h0 with
                  | none => rfl
                  | some g =>
                      exact absurd (by
                        rw [hx]
                        rfl) hchk2
                have hstep : expandDots1Aux ((k, v) :: rest) S D L =
                    expandDots1Aux rest S D
                      (pyUpdate L h0 (pyUpdate ((alookup L h0).getD []) t0 v)) := by
                  simp only [expandDots1Aux, hsk, hSh, hDh]
                  rfl
                rw [hstep]
                refine pending_error rest S D _ ?_
                rcases hp with ⟨p1, hp1, p2, hp2, d, t, hn1, hs2⟩ |
                  ⟨p1, hp1, p2, hp2, h, t1, t2, hs1, hs2⟩ |
                  ⟨p, hpm, hn, hor⟩ | ⟨p, hpm, h, d, t, hs, hor⟩
                · rcases List.mem_cons.mp hp1 with rfl | hp1r
                  · rw [show ((k, v) : String × Val).1 = k from rfl, hsk] at hn1
                    cases hn1
                  · rcases List.mem_cons.mp hp2 with rfl | hp2r
                    · rw [show ((k, v) : String × Val).1 = k from rfl, hsk,
                        Option.some.injEq, Prod.mk.injEq] at hs2
                      refine Or.inr (Or.inr (Or.inl ⟨p1, hp1r, hn1, Or.inr ?_⟩))
                      rw [← hs2.1, alookup_pyUpdate_self]
                      rfl
                    · exact Or.inl ⟨p1, hp1r, p2, hp2r, d, t, hn1, hs2⟩
                · rcases List.mem_cons.mp hp2 with rfl | hp2r
                  · rw [show ((k, v) : String × Val).1 = k from rfl, hsk,
                      Option.some.injEq, Prod.mk.injEq, Prod.mk.injEq] at hs2
                    rcases List.mem_cons.mp hp1 with rfl | hp1r
                    · rw [show ((k, v) : String × Val).1 = k from rfl, hsk,
                        Option.some.injEq, Prod.mk.injEq, Prod.mk.injEq] at hs1
                      exact absurd hs1.2.1 (by decide)
                    · refine Or.inr (Or.inr (Or.inr ⟨p1, hp1r, h, '.', t1, hs1,
                        Or.inr (Or.inl ⟨rfl, ?_⟩)⟩))
                      rw [← hs2.1, alookup_pyUpdate_self]
                      rfl
                  · rcases List.mem_cons.mp hp1 with rfl | hp1r
                    · rw [show ((k, v) : String × Val).1 = k from rfl, hsk,
                        Option.some.injEq, Prod.mk.injEq, Prod.mk.injEq] at hs1
                      exact absurd hs1.2.1 (by decide)
                    · exact Or.inr (Or.inl ⟨p1, hp1r, p2, hp2r, h, t1, t2, hs1, hs2⟩)
                · rcases List.mem_cons.mp hpm with rfl | hpr
                  · rw [show ((k, v) : String × Val).1 = k from rfl, hsk] at hn
                    cases hn
                  · refine Or.inr (Or.inr (Or.inl ⟨p, hpr, hn, ?_⟩))
                    rcases hor with h1 | h2
                    · exact Or.inl h1
                    · exact Or.inr (alookup_pyUpdate_isSome L h0 p.1 _ h2)
                · rcases List.mem_cons.mp hpm with rfl | hpr
                  · rw [show ((k, v) : String × Val).1 = k from rfl, hsk,
                      Option.some.injEq, Prod.mk.injEq, Prod.mk.injEq] at hs
                    obtain ⟨hh, hd, ht⟩ := hs
                    rcases hor with h1 | ⟨hdc, h2⟩ | ⟨_, h3⟩
                    · rw [← hh] at h1
                      exact absurd h1 hchk1
                    · rw [← hd] at hdc
                      exact absurd hdc (by decide)
                    · rw [← hh] at h3
                      exact absurd h3 hchk2
                  · refine Or.inr (Or.inr (Or.inr ⟨p, hpr, h, d, t, hs, ?_⟩))
                    rcases hor with h1 | ⟨hd2, h2⟩ | ⟨hd3, h3⟩
                    · exact Or.inl h1
                    · exact Or.inr (Or.inl ⟨hd2, alookup_pyUpdate_isSome L h0 h _ h2⟩)
                    · exact Or.inr (Or.inr ⟨hd3, h3⟩)

theorem expandDots1_error_of_level (base : List (String × Val))
    (hlc : (∃ p1 ∈ base, ∃ p2 ∈ base, ∃ d t, splitFirstDelim p1.1 = Option.none ∧
        splitFirstDelim p2.1 = some (p1.1, d, t)) ∨
      (∃ p1 ∈ base, ∃ p2 ∈ base, ∃ h t1 t2, splitFirstDelim p1.1 = some (h, '.', t1) ∧
        splitFirstDelim p2.1 = some (h, ':', t2))) :
    ∃ e, expandDots1 base = .error e := by
  rw [expandDots1]
  refine pending_error base [] [] [] ?_
  rcases hlc with h | h
  · exact Or.inl h
  · exact Or.inr (Or.inl h)

theorem groupOf_keys_nodup :
    ∀ (base : List (String × Val)) (h : String) (d : Char),
      (base.map Prod.fst).Nodup → ((groupOf base h d).map Prod.fst).Nodup
  | [], _, _, _ => List.nodup_nil
  | p :: base, h, d, hnd => by
      rw [List.map_cons, List.nodup_cons] at hnd
      rw [show groupOf (p :: base) h d = groupOf [p] h d ++ groupOf base h d from
        groupOf_append [p] base h d]
      cases hs : splitFirstDelim p.1 with
      | none =>
          rw [groupOf_single_miss p h d (fun t hcon => by
            rw [hs] at hcon
            cases hcon), List.nil_append]
          exact groupOf_keys_nodup base h d hnd.2
      | some q =>
          obtain ⟨h2, d2, t2⟩ := q
          by_cases hq : h2 = h ∧ d2 = d
          · rw [hq.1, hq.2] at hs
            rw [groupOf_single_hit p h d t2 hs, List.singleton_append, List.map_cons,
              List.nodup_cons]
            refine ⟨fun hmem => ?_, groupOf_keys_nodup base h d hnd.2⟩
            obtain ⟨q2, hq2, hq2t⟩ := List.mem_map.mp hmem
            obtain ⟨p2, hp2, hsp2, _⟩ := groupOf_mem_inv base h d q2 hq2
            have : p2.1 = p.1 := splitFirstDelim_inj hsp2 (by rw [hs, hq2t])
            exact hnd.1 (by
              rw [← this]
              exact List.mem_map.mpr ⟨p2, hp2, rfl⟩)
          · rw [groupOf_single_miss p h d (fun t hcon => hq (by
              rw [hs, Option.some.injEq, Prod.mk.injEq, Prod.mk.injEq] at hcon
              exact ⟨hcon.1, hcon.2.1⟩)), List.nil_append]
            exact groupOf_keys_nodup base h d hnd.2

theorem groupOf_key_len_lt (base : List (String × Val)) (h : String) (d : Char)
    (q : String × Val) (hq : q ∈ groupOf base h d) : q.1.length < maxKeyLen base := by
  obtain ⟨p, hp, hs, _⟩ := groupOf_mem_inv base h d q hq
  have h1 := splitFirstDelim_len hs
  have h2 : p.1.length ≤ maxKeyLen base := maxKeyLen_mem base p hp
  omega

theorem groupOf_maxKeyLen_lt (base : List (String × Val)) (h : String) (d : Char)
    (M : Nat) (hne : groupOf base h d ≠ []) (hb : maxKeyLen base ≤ M) :
    maxKeyLen (groupOf base h d) < M := by
  obtain ⟨q, hq, hlen⟩ := maxKeyLen_attain (groupOf base h d) hne
  have := groupOf_key_len_lt base h d q hq
  omega

theorem keys_mem_entry {α : Type} {B : List (String × α)} {h2 : String}
    (hm : h2 ∈ B.map Prod.fst) : ∃ g, (h2, g) ∈ B := by
  obtain ⟨q, hq, hqe⟩ := List.mem_map.mp hm
  exact ⟨q.2, by
    rw [← hqe]
    exact hq⟩

theorem runHead_of_none {k : String} (hs : splitFirstDelim k = Option.none) :
    runHead k = k := by
  rw [runHead, hs]

theorem runHead_of_some {k h : String} {d : Char} {t : String}
    (hs : splitFirstDelim k = some (h, d, t)) : runHead k = h := by
  rw [runHead, hs]

/-- The expansion worklist on a distinct-keyed flat dict with enough fuel:
without conflicts it succeeds and the produced entries are keyed by
exactly the run heads of the input keys; with a conflict anywhere it
raises. -/
theorem expand_conflict_master :
    ∀ (fuel : Nat) (base : List (String × Val)),
      (base.map Prod.fst).Nodup → maxKeyLen base < fuel →
      (¬ ConflictD base →
        ∃ out, expandIntoB fuel base = .ok out ∧
          (∀ p ∈ out, ∃ q ∈ base, p.1 = runHead q.1) ∧
          (∀ q ∈ base, ∃ p ∈ out, p.1 = runHead q.1)) ∧
      (ConflictD base → ∃ e, expandIntoB fuel base = .error e) := by
  intro fuel
  induction fuel with
  | zero =>
      intro base _ h
      omega
  | succ M ih =>
      intro base hnd hfu
      have hun : expandIntoB (M + 1) base = (match expandDots1 base with
          | .error e => .error e
          | .ok (singles, dicts, lists) =>
              match exceptList (fun q =>
                  match expandIntoB M q.2 with
                  | .error e => .error e
                  | .ok r => .ok (q.1, Val.dict r)) dicts with
              | .error e => .error e
              | .ok dictParts =>
                  match exceptList (fun q =>
                      match expandIntoB M q.2 with
                      | .error e => .error e
                      | .ok r =>
                          match convertGroup r with
                          | .error e => .error e
                          | .ok vs2 => .ok (q.1, Val.list vs2)) lists with
                  | .error e => .error e
                  | .ok listParts => .ok (singles ++ dictParts ++ listParts)) := rfl
      by_cases hlc : ((∃ p1 ∈ base, ∃ p2 ∈ base, ∃ d t,
          splitFirstDelim p1.1 = Option.none ∧
          splitFirstDelim p2.1 = some (p1.1, d, t)) ∨
        (∃ p1 ∈ base, ∃ p2 ∈ base, ∃ h t1 t2, splitFirstDelim p1.1 = some (h, '.', t1) ∧
          splitFirstDelim p2.1 = some (h, ':', t2)))
      · obtain ⟨e, he⟩ := expandDots1_error_of_level base hlc
        have herr : expandIntoB (M + 1) base = .error e := by
          rw [hun, he]
        have hcdb : ConflictD base := by
          rcases hlc with ⟨p1, h1, p2, h2, d, t, hn1, hs2⟩ |
            ⟨p1, h1, p2, h2, h, t1, t2, hs1, hs2⟩
          · exact ConflictD.naked h1 h2 hn1 hs2
          · exact ConflictD.mixed h1 h2 hs1 hs2
        exact ⟨fun hnc => absurd hcdb hnc, fun _ => ⟨e, herr⟩⟩
      · have hncn : ∀ (p1 p2 : String × Val) (d : Char) (t : String), p1 ∈ base →
            p2 ∈ base → splitFirstDelim p1.1 = Option.none →
            splitFirstDelim p2.1 ≠ some (p1.1, d, t) :=
          fun p1 p2 d t h1 h2 hn hs => hlc (Or.inl ⟨p1, h1, p2, h2, d, t, hn, hs⟩)
        have hncm : ∀ (p1 p2 : String × Val) (h t1 t2 : String), p1 ∈ base → p2 ∈ base →
            splitFirstDelim p1.1 = some (h, '.', t1) →
            splitFirstDelim p2.1 ≠ some (h, ':', t2) :=
          fun p1 p2 h t1 t2 h1 h2 hs1 hs2 =>
            hlc (Or.inr ⟨p1, h1, p2, h2, h, t1, t2, hs1, hs2⟩)
        obtain ⟨Df, Lf, h1, hDI, hLI⟩ := expandDots1_ok_char base hnd hncn hncm
        have hstats : ∀ (d : Char) (B : List (String × List (String × Val))),
            BucketInv base d B → ∀ hg ∈ B,
            ((hg.2 : List (String × Val)).map Prod.fst).Nodup ∧ maxKeyLen hg.2 < M := by
          intro d B hinv hg hm
          rw [hinv.2.1 hg hm]
          refine ⟨groupOf_keys_nodup base hg.1 d hnd,
            groupOf_maxKeyLen_lt base hg.1 d M ?_ (by omega)⟩
          obtain ⟨p, hp, t, hs⟩ := (hinv.2.2 hg.1).mp (List.mem_map.mpr ⟨hg, hm, rfl⟩)
          intro hnil
          have hmm := groupOf_mem_of base hp hs
          rw [hnil] at hmm
          exact List.not_mem_nil _ hmm
        constructor
        · intro hnc
          have hsubnc : ∀ (d : Char) (B : List (String × List (String × Val))),
              BucketInv base d B → ∀ hg ∈ B, ¬ ConflictD hg.2 := by
            intro d B hinv hg hm hc
            refine hnc (ConflictD.sub hg.1 d ?_)
            rw [← hinv.2.1 hg hm]
            exact hc
          obtain ⟨dictParts, hdp, hdpk⟩ := exceptList_ok_keys
            (fun q => match expandIntoB M q.2 with
              | .error e => .error e
              | .ok r => .ok (q.1, Val.dict r)) Df (fun a ha => by
              obtain ⟨out0, hok, _, _⟩ :=
                (ih a.2 (hstats '.' Df hDI a ha).1 (hstats '.' Df hDI a ha).2).1
                  (hsubnc '.' Df hDI a ha)
              refine ⟨Val.dict out0, ?_⟩
              dsimp only
              rw [hok])
          obtain ⟨listParts, hlp, hlpk⟩ := exceptList_ok_keys
            (fun q => match expandIntoB M q.2 with
              | .error e => .error e
              | .ok r =>
                  match convertGroup r with
                  | .error e => .error e
                  | .ok vs2 => .ok (q.1, Val.list vs2)) Lf (fun a ha => by
              obtain ⟨out0, hok, hc1, hc2⟩ :=
                (ih a.2 (hstats ':' Lf hLI a ha).1 (hstats ':' Lf hLI a ha).2).1
                  (hsubnc ':' Lf hLI a ha)
              have hga : a.2 = groupOf base a.1 ':' := hLI.2.1 a ha
              have hint : ∀ p ∈ out0, (pyInt? p.1).isSome = true := by
                intro p hp
                obtain ⟨q, hq, hpe⟩ := hc1 p hp
                obtain ⟨p2, hp2, hsp2, _⟩ := groupOf_mem_inv base a.1 ':' q (by
                  rw [← hga]
                  exact hq)
                rw [hpe]
                by_contra hbad
                exact hnc (ConflictD.badIndex hp2 hsp2
                  (Option.not_isSome_iff_eq_none.mp hbad))
              refine ⟨Val.list ((sortByKey (out0.map fun p => ((pyInt? p.1).getD 0, p.2))).map
                (fun q => q.2)), ?_⟩
              dsimp only
              rw [hok]
              dsimp only
              rw [show convertGroup out0 = .ok ((sortByKey
                  (out0.map fun p => ((pyInt? p.1).getD 0, p.2))).map (fun q => q.2)) from by
                simp only [convertGroup]
                rw [parseKeys_ok out0 hint]])
          refine ⟨nakedOf base ++ dictParts ++ listParts, ?_, ?_, ?_⟩
          · rw [hun, h1]
            dsimp only
            rw [hdp]
            dsimp only
            rw [hlp]
          · intro p hp
            rcases List.mem_append.mp hp with hp1 | hp2
            · rcases List.mem_append.mp hp1 with hpn | hpd
              · obtain ⟨hmem, hsn⟩ := nakedOf_mem base p hpn
                exact ⟨p, hmem, (runHead_of_none hsn).symm⟩
              · have hm2 : p.1 ∈ Df.map Prod.fst := by
                  rw [← hdpk]
                  exact List.mem_map.mpr ⟨p, hpd, rfl⟩
                obtain ⟨p2, hp2, t, hs⟩ := (hDI.2.2 p.1).mp hm2
                exact ⟨p2, hp2, (runHead_of_some hs).symm⟩
            · have hm2 : p.1 ∈ Lf.map Prod.fst := by
                rw [← hlpk]
                exact List.mem_map.mpr ⟨p, hp2, rfl⟩
              obtain ⟨p2, hp2, t, hs⟩ := (hLI.2.2 p.1).mp hm2
              exact ⟨p2, hp2, (runHead_of_some hs).symm⟩
          · intro q hq
            cases hsq : splitFirstDelim q.1 with
            | none =>
                refine ⟨q, ?_, (runHead_of_none hsq).symm⟩
                refine List.mem_append.mpr (Or.inl (List.mem_append.mpr (Or.inl ?_)))
                refine List.mem_filter.mpr ⟨hq, ?_⟩
                rw [hsq]
                rfl
            | some r =>
                obtain ⟨h2, d2, t2⟩ := r
                rcases isDelim_cases (splitFirstDelim_eq q.1 h2 d2 t2 hsq).2 with rfl | rfl
                · have hmem : h2 ∈ Df.map Prod.fst := (hDI.2.2 h2).mpr ⟨q, hq, t2, hsq⟩
                  rw [← hdpk] at hmem
                  obtain ⟨g2, hg2⟩ := keys_mem_entry hmem
                  exact ⟨(h2, g2),
                    List.mem_append.mpr (Or.inl (List.mem_append.mpr (Or.inr hg2))),
                    (runHead_of_some hsq).symm⟩
                · have hmem : h2 ∈ Lf.map Prod.fst := (hLI.2.2 h2).mpr ⟨q, hq, t2, hsq⟩
                  rw [← hlpk] at hmem
                  obtain ⟨g2, hg2⟩ := keys_mem_entry hmem
                  exact ⟨(h2, g2), List.mem_append.mpr (Or.inr hg2),
                    (runHead_of_some hsq).symm⟩
        · intro hcd
          cases hcd with
          | @naked _ p1 p2 d t hm1 hm2 hs1 hs2 =>
              exact absurd (Or.inl ⟨p1, hm1, p2, hm2, d, t, hs1, hs2⟩) hlc
          | @mixed _ p1 p2 h t1 t2 hm1 hm2 hs1 hs2 =>
              exact absurd (Or.inr ⟨p1, hm1, p2, hm2, h, t1, t2, hs1, hs2⟩) hlc
          | @badIndex _ p h0 t0 hmem hs hbad =>
              have hkmem : h0 ∈ Lf.map Prod.fst := (hLI.2.2 h0).mpr ⟨p, hmem, t0, hs⟩
              obtain ⟨g0, hg0⟩ := keys_mem_entry hkmem
              have hge : g0 = groupOf base h0 ':' := hLI.2.1 (h0, g0) hg0
              have hstat := hstats ':' Lf hLI (h0, g0) hg0
              have hferr : ∃ e2, (fun (q : String × List (String × Val)) =>
                  match expandIntoB M q.2 with
                  | .error e => (.error e : Except String (String × Val))
                  | .ok r =>
                      match convertGroup r with
                      | .error e => .error e
                      | .ok vs2 => .ok (q.1, Val.list vs2)) (h0, g0) = .error e2 := by
                by_cases hcg : ConflictD g0
                · obtain ⟨e2, he2⟩ := (ih g0 hstat.1 hstat.2).2 hcg
                  refine ⟨e2, ?_⟩
                  dsimp only
                  rw [he2]
                · obtain ⟨out0, hok, hc1, hc2⟩ := (ih g0 hstat.1 hstat.2).1 hcg
                  have hmem0 : (t0, p.2) ∈ g0 := by
                    rw [hge]
                    exact groupOf_mem_of base hmem hs
                  obtain ⟨p3, hp3, hpe⟩ := hc2 (t0, p.2) hmem0
                  have hbad3 : pyInt? p3.1 = Option.none := by
                    rw [hpe]
                    exact hbad
                  obtain ⟨e3, he3⟩ := parseKeys_error_of_mem out0 p3 hp3 hbad3
                  refine ⟨e3, ?_⟩
                  dsimp only
                  rw [hok]
                  dsimp only
                  rw [show convertGroup out0 = .error e3 from by
                    simp only [convertGroup]
                    rw [he3]]
              obtain ⟨e2, he2⟩ := hferr
              obtain ⟨e4, he4⟩ := exceptList_error_of_mem
                (fun (q : String × List (String × Val)) =>
                  match expandIntoB M q.2 with
                  | .error e => (.error e : Except String (String × Val))
                  | .ok r =>
                      match convertGroup r with
                      | .error e => .error e
                      | .ok vs2 => .ok (q.1, Val.list vs2)) Lf (h0, g0) e2 hg0 he2
              cases hdpr : exceptList (fun (q : String × List (String × Val)) =>
                  match expandIntoB M q.2 with
                  | .error e => .error e
                  | .ok r => (.ok (q.1, Val.dict r) : Except String (String × Val))) Df with
              | error e5 =>
                  refine ⟨e5, ?_⟩
                  rw [hun, h1]
                  dsimp only
                  rw [hdpr]
              | ok dictParts =>
                  refine ⟨e4, ?_⟩
                  rw [hun, h1]
                  dsimp only
                  rw [hdpr]
                  dsimp only
                  rw [he4]
          | @sub _ h0 d0 hc =>
              cases hgp : groupOf base h0 d0 with
              | nil =>
                  rw [hgp] at hc
                  exact absurd hc conflictD_nil
              | cons q0 grest =>
                  obtain ⟨p2, hp2, hsp2, _⟩ := groupOf_mem_inv base h0 d0 q0 (by
                    rw [hgp]
                    exact List.mem_cons_self _ _)
                  rcases isDelim_cases (splitFirstDelim_eq p2.1 h0 d0 q0.1 hsp2).2 with rfl | rfl
                  · have hkmem : h0 ∈ Df.map Prod.fst :=
                      (hDI.2.2 h0).mpr ⟨p2, hp2, q0.1, hsp2⟩
                    obtain ⟨g0, hg0⟩ := keys_mem_entry hkmem
                    have hge : g0 = groupOf base h0 '.' := hDI.2.1 (h0, g0) hg0
                    have hstat := hstats '.' Df hDI (h0, g0) hg0
                    obtain ⟨e2, he2⟩ := (ih g0 hstat.1 hstat.2).2 (by
                      rw [hge]
                      exact hc)
                    have hferr : (fun (q : String × List (String × Val)) =>
                        match expandIntoB M q.2 with
                        | .error e => (.error e : Except String (String × Val))
                        | .ok r => .ok (q.1, Val.dict r))
                          (h0, g0) = .error e2 := by
                      dsimp only
                      rw [he2]
                    obtain ⟨e4, he4⟩ := exceptList_error_of_mem
                      (fun (q : String × List (String × Val)) =>
                        match expandIntoB M q.2 with
                        | .error e => (.error e : Except String (String × Val))
                        | .ok r => .ok (q.1, Val.dict r)) Df (h0, g0) e2 hg0 hferr
                    refine ⟨e4, ?_⟩
                    rw [hun, h1]
                    dsimp only
                    rw [he4]
                  · have hkmem : h0 ∈ Lf.map Prod.fst :=
                      (hLI.2.2 h0).mpr ⟨p2, hp2, q0.1, hsp2⟩
                    obtain ⟨g0, hg0⟩ := keys_mem_entry hkmem
                    have hge : g0 = groupOf base h0 ':' := hLI.2.1 (h0, g0) hg0
                    have hstat := hstats ':' Lf hLI (h0, g0) hg0
                    obtain ⟨e2, he2⟩ := (ih g0 hstat.1 hstat.2).2 (by
                      rw [hge]
                      exact hc)
                    have hferr : (fun (q : String × List (String × Val)) =>
                        match expandIntoB M q.2 with
                        | .error e => (.error e : Except String (String × Val))
                        | .ok r =>
                            match convertGroup r with
                            | .error e => .error e
                            | .ok vs2 => .ok (q.1, Val.list vs2)) (h0, g0) = .error e2 := by
                      dsimp only
                      rw [he2]
                    obtain ⟨e4, he4⟩ := exceptList_error_of_mem
                      (fun (q : String × List (String × Val)) =>
                        match expandIntoB M q.2 with
                        | .error e => (.error e : Except String (String × Val))
                        | .ok r =>
                            match convertGroup r with
                            | .error e => .error e
                            | .ok vs2 => .ok (q.1, Val.list vs2)) Lf (h0, g0) e2 hg0 hferr
                    cases hdpr : exceptList (fun (q : String × List (String × Val)) =>
                        match expandIntoB M q.2 with
                        | .error e => .error e
                        | .ok r => (.ok (q.1, Val.dict r) : Except String (String × Val))) Df with
                    | error e5 =>
                        refine ⟨e5, ?_⟩
                        rw [hun, h1]
                        dsimp only
                        rw [hdpr]
                    | ok dictParts =>
                        refine ⟨e4, ?_⟩
                        rw [hun, h1]
                        dsimp only
                        rw [hdpr]
                        dsimp only
                        rw [he4]

/-- **C3** (status: confirmed).  On a flat mapping with distinct keys (a
Python dict), `expand_dots` raises a decode `ValueError` if and only if,
at some nesting level of the input, a head appears both as a naked key
and as a delimited prefix, or a head appears under both `.` and `:`, or
a fragment used as a sequence index after `:` is not a base-10 integer
(`ConflictD`, which recurses through `groupOf`, the accumulated tails of
each head).  The `Except` result is total: a conflict yields `.error`
with no partial result, and a conflict-free input yields `.ok`. -/
theorem c3_expand_dots_error_iff_conflict (base : List (String × Val))
    (hnd : (base.map Prod.fst).Nodup) :
    (∃ e, expandDots base = .error e) ↔ ConflictD base := by
  cases base with
  | nil =>
      constructor
      · rintro ⟨e, he⟩
        rw [show expandDots [] = .ok (Val.dict []) from rfl] at he
        cases he
      · intro hc
        exact absurd hc conflictD_nil
  | cons b0 brest =>
      have hmaster := expand_conflict_master (maxKeyLen (b0 :: brest) + 1) (b0 :: brest)
        hnd (by omega)
      constructor
      · rintro ⟨e, he⟩
        by_cases hc : ConflictD (b0 :: brest)
        · exact hc
        · exfalso
          obtain ⟨out, hok, _, _⟩ := hmaster.1 hc
          simp only [expandDots, expandInto] at he
          rw [show ((b0 :: brest) : List (String × Val)).isEmpty = false from rfl] at he
          simp only [Bool.false_eq_true, if_false] at he
          rw [hok] at he
          cases he
      · intro hc
        obtain ⟨e, herr⟩ := hmaster.2 hc
        refine ⟨e, ?_⟩
        simp only [expandDots, expandInto]
        rw [show ((b0 :: brest) : List (String × Val)).isEmpty = false from rfl]
        simp only [Bool.false_eq_true, if_false]
        rw [herr]

/-- Concrete instance of C3: the key `a` used both naked and as a parent. -/
theorem c3_witness :
    (∃ e, expandDots [("a", Val.str "v"), ("a.b", Val.str "w")] = .error e) ↔
      ConflictD [("a", Val.str "v"), ("a.b", Val.str "w")] :=
  c3_expand_dots_error_iff_conflict [("a", Val.str "v"), ("a.b", Val.str "w")] (by decide)

end FForms

